import Mathlib

/-!
# Verification of the fsDB record store

A shallow embedding of the fsDB source (slot registry, columnar collection,
markdown codec, vector search, file watcher) together with proofs of the
specification's claims about it.

Conventions of the embedding:
* JS strings are embedded as `List Char` (`Str`); indices therefore count
  characters, which agrees with JS string indices on BMP text.
* JS `Map`s whose only observed operations are `get`/`set`/`delete` are
  embedded as functions into `Option`; JS `Set`s, whose iteration order
  (insertion order) is observable through `Array.from`, are embedded as
  duplicate-free lists.
* JS numbers that the code only ever treats as integers (timestamps, slot
  indices, vector components in the claims under scrutiny) are embedded as
  `Int`/`Nat`; similarity scores, which involve square roots, are embedded
  exactly as a pair `num/√den` with a real-valued interpretation.
* Thrown exceptions are embedded as `Option`/`none` results.
-/

set_option maxRecDepth 10000

open scoped List

abbrev Str := List Char

/-- Membership function for embedded JS sets/lists of strings. -/
def memS (s : Str) (l : List Str) : Bool := l.contains s

/-- JS `Set.add`: appends at the end iff the element is not present
(insertion order is preserved, which JS exposes through iteration). -/
def setAdd {α : Type} [DecidableEq α] (l : List α) (a : α) : List α :=
  if a ∈ l then l else l ++ [a]

-- =============================================================================
-- Registry (src/core/registry.ts)
-- =============================================================================

/-- State of `createRegistry()`: two id↔index maps, the allocated-index set
(insertion ordered, as a JS `Set`), the free-index stack and the grow counter.
The JS free array pushes/pops at its end; the embedding keeps the stack top at
the head of `freeIndices`, which realizes the same LIFO discipline. -/
structure Registry where
  idToIndex : Str → Option Nat
  indexToId : Nat → Option Str
  allocatedIndices : List Nat
  freeIndices : List Nat
  nextIndex : Nat

/-- `createRegistry()`: the empty registry. -/
def createRegistry : Registry :=
  { idToIndex := fun _ => none
    indexToId := fun _ => none
    allocatedIndices := []
    freeIndices := []
    nextIndex := 0 }

/-- `registry.allocate(id)` from src/core/registry.ts: returns the existing
index when the id is already mapped, otherwise pops the free stack or takes
the grow counter, then records the bidirectional mapping. -/
def Registry.allocate (r : Registry) (id : Str) : Nat × Registry :=
  match r.idToIndex id with
  | some i => (i, r)
  | none =>
    let (i, free, next) :=
      match r.freeIndices with
      | j :: rest => (j, rest, r.nextIndex)
      | [] => (r.nextIndex, [], r.nextIndex + 1)
    (i, { idToIndex := fun s => if s = id then some i else r.idToIndex s
          indexToId := fun k => if k = i then some id else r.indexToId k
          allocatedIndices := setAdd r.allocatedIndices i
          freeIndices := free
          nextIndex := next })

/-- `registry.release(id)` from src/core/registry.ts: clears both mappings,
removes the index from the allocated set and pushes it on the free stack;
returns `false` when the id is unknown. -/
def Registry.release (r : Registry) (id : Str) : Bool × Registry :=
  match r.idToIndex id with
  | none => (false, r)
  | some i =>
    (true, { idToIndex := fun s => if s = id then none else r.idToIndex s
             indexToId := fun k => if k = i then none else r.indexToId k
             allocatedIndices := r.allocatedIndices.erase i
             freeIndices := i :: r.freeIndices
             nextIndex := r.nextIndex })

/-- `registry.getIndex(id)`: the `-1` sentinel of the source is embedded as
`none`. -/
def Registry.getIndex (r : Registry) (id : Str) : Option Nat := r.idToIndex id

/-- `registry.getId(index)`. -/
def Registry.getId (r : Registry) (index : Nat) : Option Str := r.indexToId index

/-- `registry.getAllIndices()` = `Array.from(allocatedIndices)`. -/
def Registry.getAllIndices (r : Registry) : List Nat := r.allocatedIndices

/-- One step of the registry workload considered in the claims: an
`allocate` or a `release` call with an arbitrary id. -/
inductive RegOp
  | alloc (id : Str)
  | rel (id : Str)

def Registry.applyOp (r : Registry) : RegOp → Registry
  | RegOp.alloc id => (r.allocate id).2
  | RegOp.rel id => (r.release id).2

def Registry.applyOps (r : Registry) (ops : List RegOp) : Registry :=
  ops.foldl Registry.applyOp r

/-- Full coherence invariant of a registry state: the two maps are mutually
inverse, the allocated set is exactly the domain of `indexToId` (equivalently
the image of `idToIndex`) without duplicates, free indices are unmapped,
duplicate-free and below the grow counter, and every mapped index is below
the grow counter. -/
structure RegInv (r : Registry) : Prop where
  fwd : ∀ id i, r.idToIndex id = some i → r.indexToId i = some id
  bwd : ∀ i id, r.indexToId i = some id → r.idToIndex id = some i
  mem_alloc : ∀ i, i ∈ r.allocatedIndices ↔ (r.indexToId i).isSome
  alloc_nodup : r.allocatedIndices.Nodup
  free_unmapped : ∀ i ∈ r.freeIndices, r.indexToId i = none
  free_nodup : r.freeIndices.Nodup
  free_lt : ∀ i ∈ r.freeIndices, i < r.nextIndex
  mapped_lt : ∀ i, (r.indexToId i).isSome → i < r.nextIndex

theorem regInv_init : RegInv createRegistry := by
  constructor <;> simp [createRegistry]

theorem setAdd_mem {α : Type} [DecidableEq α] (l : List α) (a x : α) :
    x ∈ setAdd l a ↔ x ∈ l ∨ x = a := by
  unfold setAdd
  split
  · next h =>
    constructor
    · exact Or.inl
    · rintro (hx | rfl)
      · exact hx
      · exact h
  · simp

theorem setAdd_nodup {α : Type} [DecidableEq α] {l : List α} (h : l.Nodup) (a : α) :
    (setAdd l a).Nodup := by
  unfold setAdd
  split
  · exact h
  · next hna => simpa [List.nodup_append] using ⟨h, hna⟩

theorem allocate_of_mapped {r : Registry} {id : Str} {i : Nat}
    (h : r.idToIndex id = some i) : r.allocate id = (i, r) := by
  unfold Registry.allocate
  rw [h]

theorem allocate_of_free {r : Registry} {id : Str} {j : Nat} {rest : List Nat}
    (h : r.idToIndex id = none) (hf : r.freeIndices = j :: rest) :
    r.allocate id =
      (j, { idToIndex := fun s => if s = id then some j else r.idToIndex s
            indexToId := fun k => if k = j then some id else r.indexToId k
            allocatedIndices := setAdd r.allocatedIndices j
            freeIndices := rest
            nextIndex := r.nextIndex }) := by
  unfold Registry.allocate
  rw [h, hf]

theorem allocate_of_nofree {r : Registry} {id : Str}
    (h : r.idToIndex id = none) (hf : r.freeIndices = []) :
    r.allocate id =
      (r.nextIndex,
        { idToIndex := fun s => if s = id then some r.nextIndex else r.idToIndex s
          indexToId := fun k => if k = r.nextIndex then some id else r.indexToId k
          allocatedIndices := setAdd r.allocatedIndices r.nextIndex
          freeIndices := []
          nextIndex := r.nextIndex + 1 }) := by
  unfold Registry.allocate
  rw [h, hf]

theorem release_of_unmapped {r : Registry} {id : Str}
    (h : r.idToIndex id = none) : r.release id = (false, r) := by
  unfold Registry.release
  rw [h]

theorem release_of_mapped {r : Registry} {id : Str} {i : Nat}
    (h : r.idToIndex id = some i) :
    r.release id =
      (true, { idToIndex := fun s => if s = id then none else r.idToIndex s
               indexToId := fun k => if k = i then none else r.indexToId k
               allocatedIndices := r.allocatedIndices.erase i
               freeIndices := i :: r.freeIndices
               nextIndex := r.nextIndex }) := by
  unfold Registry.release
  rw [h]

/-- The common shape of a fresh allocation: inserting a pair `(id, j)` where
`j` is unmapped, not allocated, and dropped from the free list. -/
theorem regInv_insert {r : Registry} (h : RegInv r) {id : Str} {j : Nat}
    (hmap : r.idToIndex id = none) (hjun : r.indexToId j = none)
    {free' : List Nat} (hsub : ∀ x ∈ free', x ∈ r.freeIndices)
    (hjfree : j ∉ free') (hnodup : free'.Nodup) {next' : Nat}
    (hnext : r.nextIndex ≤ next') (hjlt : j < next') :
    RegInv { idToIndex := fun s => if s = id then some j else r.idToIndex s
             indexToId := fun k => if k = j then some id else r.indexToId k
             allocatedIndices := setAdd r.allocatedIndices j
             freeIndices := free'
             nextIndex := next' } := by
  have hjal : j ∉ r.allocatedIndices := by
    intro hmem
    have := (h.mem_alloc j).1 hmem
    rw [hjun] at this; simp at this
  constructor
  · intro id' i' hi'
    dsimp only at hi' ⊢
    by_cases hid : id' = id
    · subst hid; simp at hi'; subst hi'; simp
    · simp only [if_neg hid] at hi'
      have hfwd := h.fwd id' i' hi'
      have hne : i' ≠ j := by
        rintro rfl; rw [hjun] at hfwd; cases hfwd
      simp [hne, hfwd]
  · intro i' id' hi'
    dsimp only at hi' ⊢
    by_cases hij : i' = j
    · subst hij; simp at hi'; subst hi'; simp
    · simp only [if_neg hij] at hi'
      have hbwd := h.bwd i' id' hi'
      have hne : id' ≠ id := by
        rintro rfl; rw [hmap] at hbwd; cases hbwd
      simp [hne, hbwd]
  · intro i'
    dsimp only
    simp only [setAdd_mem]
    by_cases hij : i' = j
    · subst hij; simp
    · simp [hij, h.mem_alloc i']
  · exact setAdd_nodup h.alloc_nodup j
  · intro i' hi'
    dsimp only at hi' ⊢
    have hne : i' ≠ j := by rintro rfl; exact hjfree hi'
    simp [hne, h.free_unmapped i' (hsub i' hi')]
  · exact hnodup
  · intro i' hi'
    dsimp only
    have := h.free_lt i' (hsub i' hi')
    omega
  · intro i' hi'
    dsimp only at hi' ⊢
    by_cases hij : i' = j
    · omega
    · simp only [if_neg hij] at hi'
      have := h.mapped_lt i' hi'
      omega

theorem regInv_allocate {r : Registry} (h : RegInv r) (id : Str) :
    RegInv (r.allocate id).2 := by
  cases hmap : r.idToIndex id with
  | some i => rw [allocate_of_mapped hmap]; exact h
  | none =>
    cases hfree : r.freeIndices with
    | cons j rest =>
      rw [allocate_of_free hmap hfree]
      have hnodup : (j :: rest).Nodup := hfree ▸ h.free_nodup
      exact regInv_insert h hmap
        (h.free_unmapped j (by rw [hfree]; exact List.mem_cons_self _ _))
        (fun x hx => by rw [hfree]; exact List.mem_cons_of_mem _ hx)
        (List.nodup_cons.1 hnodup).1 (List.nodup_cons.1 hnodup).2
        (le_refl _)
        (h.free_lt j (by rw [hfree]; exact List.mem_cons_self _ _))
    | nil =>
      rw [allocate_of_nofree hmap hfree]
      have hnun : r.indexToId r.nextIndex = none := by
        cases hx : r.indexToId r.nextIndex with
        | none => rfl
        | some y =>
          have := h.mapped_lt r.nextIndex (by rw [hx]; rfl)
          omega
      exact regInv_insert h hmap hnun (fun x hx => by cases hx)
        (by simp) List.nodup_nil (Nat.le_succ _) (Nat.lt_succ_self _)

theorem regInv_release {r : Registry} (h : RegInv r) (id : Str) :
    RegInv (r.release id).2 := by
  cases hmap : r.idToIndex id with
  | none => rw [release_of_unmapped hmap]; exact h
  | some i =>
    rw [release_of_mapped hmap]
    have hmapped : r.indexToId i = some id := h.fwd id i hmap
    constructor
    · intro id' i' hi'
      dsimp only at hi' ⊢
      by_cases hid : id' = id
      · subst hid; simp at hi'
      · simp only [if_neg hid] at hi'
        have hfwd := h.fwd id' i' hi'
        have hne : i' ≠ i := by
          rintro rfl
          rw [hmapped] at hfwd
          injection hfwd with hh
          exact hid hh.symm
        simp [hne, hfwd]
    · intro i' id' hi'
      dsimp only at hi' ⊢
      by_cases hij : i' = i
      · subst hij; simp at hi'
      · simp only [if_neg hij] at hi'
        have hbwd := h.bwd i' id' hi'
        have hne : id' ≠ id := by
          rintro rfl
          rw [hmap] at hbwd
          injection hbwd with hh
          exact hij hh.symm
        simp [hne, hbwd]
    · intro i'
      dsimp only
      rw [List.Nodup.mem_erase_iff h.alloc_nodup]
      by_cases hij : i' = i
      · subst hij; simp
      · simp [hij, h.mem_alloc i']
    · exact List.Nodup.erase _ h.alloc_nodup
    · intro i' hi'
      dsimp only at hi' ⊢
      rw [List.mem_cons] at hi'
      rcases hi' with rfl | hi'
      · simp
      · have hne : i' ≠ i := by
          rintro rfl
          rw [h.free_unmapped i' hi'] at hmapped
          cases hmapped
        simp [hne, h.free_unmapped i' hi']
    · dsimp only
      refine List.nodup_cons.2 ⟨?_, h.free_nodup⟩
      intro hmem
      rw [h.free_unmapped i hmem] at hmapped
      cases hmapped
    · intro i' hi'
      dsimp only at hi'
      rw [List.mem_cons] at hi'
      rcases hi' with rfl | hi'
      · exact h.mapped_lt i' (by rw [hmapped]; rfl)
      · exact h.free_lt i' hi'
    · intro i' hi'
      dsimp only at hi'
      by_cases hij : i' = i
      · simp [hij] at hi'
      · simp only [if_neg hij] at hi'
        exact h.mapped_lt i' hi'

theorem regInv_applyOps (ops : List RegOp) :
    ∀ {r : Registry}, RegInv r → RegInv (r.applyOps ops) := by
  induction ops with
  | nil => intro r h; exact h
  | cons op rest ih =>
    intro r h
    have h' : RegInv (r.applyOp op) := by
      cases op with
      | alloc id => exact regInv_allocate h id
      | rel id => exact regInv_release h id
    exact ih h'

/-- C1. Registry bijection invariant: after any sequence of `allocate`/
`release` calls starting from a fresh registry, every registered id maps to
exactly one slot, that slot maps back to the same id, the allocated-slot set
is exactly the image of `idToIndex`, and no allocated slot is on the free
list. -/
theorem registry_bijection_invariant (ops : List RegOp) :
    let r := createRegistry.applyOps ops
    (∀ id i, r.idToIndex id = some i → r.indexToId i = some id) ∧
    (∀ i id, r.indexToId i = some id → r.idToIndex id = some i) ∧
    (∀ i, i ∈ r.allocatedIndices ↔ ∃ id, r.idToIndex id = some i) ∧
    (∀ i ∈ r.allocatedIndices, i ∉ r.freeIndices) := by
  intro r
  have h : RegInv r := regInv_applyOps ops regInv_init
  refine ⟨h.fwd, h.bwd, ?_, ?_⟩
  · intro i
    rw [h.mem_alloc i]
    constructor
    · intro hs
      cases hx : r.indexToId i with
      | none => rw [hx] at hs; cases hs
      | some id => exact ⟨id, h.bwd i id hx⟩
    · rintro ⟨id, hid⟩
      rw [h.fwd id i hid]; rfl
  · intro i hi hfree
    have := (h.mem_alloc i).1 hi
    rw [h.free_unmapped i hfree] at this
    cases this

/-- C7. LIFO slot reuse: if `id` occupies slot `S`, then after `release id`
the very next `allocate` of an id that is unregistered in the post-release
state returns `S` (the most-recently-freed slot is reused before any other
slot, in particular before any previously unused higher index). -/
theorem registry_lifo_reuse (r : Registry) (id id' : Str) (S : Nat)
    (hS : r.idToIndex id = some S)
    (hfresh : ((r.release id).2).idToIndex id' = none) :
    (((r.release id).2).allocate id').1 = S := by
  unfold Registry.release at hfresh ⊢
  rw [hS] at hfresh ⊢
  unfold Registry.allocate
  simp only at hfresh ⊢
  rw [hfresh]

/-- Witness for C7 at a concrete registry: allocate "a" (slot 0), release it,
then a fresh allocate of "b" returns slot 0 again. -/
theorem registry_lifo_reuse_witness :
    ((createRegistry.allocate ['a']).2.idToIndex ['a'] = some 0 ∧
      (((createRegistry.allocate ['a']).2.release ['a']).2).idToIndex ['b'] = none) ∧
    ((((createRegistry.allocate ['a']).2.release ['a']).2).allocate ['b']).1 = 0 := by
  refine ⟨⟨rfl, rfl⟩, ?_⟩
  exact registry_lifo_reuse (createRegistry.allocate ['a']).2 ['a'] ['b'] 0 rfl rfl

-- =============================================================================
-- Values, column types and the columns manager (src/core/columns.ts,
-- src/core/constants.ts)
-- =============================================================================

/-- A JS scalar as it appears inside a JSON array in this codebase. Floats
are carried by their canonical (shortest round-trip) decimal source text,
since every float literal the code manipulates is produced and consumed
through decimal strings. -/
inductive Scalar
  | sNull
  | sBool (b : Bool)
  | sInt (n : Int)
  | sFloat (s : Str)
  | sStr (s : Str)
deriving DecidableEq, Repr

/-- A JS value that can sit in a column or in parsed frontmatter. `vVec`
embeds a `Float32Array` whose components are integers (exactly representable
in float32); `vArr` embeds a plain JS array of scalars; `vFloat` carries a
canonical decimal numeral, and `vUndef` is JS `undefined`. -/
inductive Value
  | vNull
  | vUndef
  | vBool (b : Bool)
  | vInt (n : Int)
  | vFloat (s : Str)
  | vStr (s : Str)
  | vArr (xs : List Scalar)
  | vVec (xs : List Int)
deriving DecidableEq, Repr

/-- The closed column-type variant behind `parseColumnType` of
src/core/columns.ts ('string' | 'number' | 'boolean' | 'timestamp' |
'string[]' | 'number[]' | 'vector:N'). -/
inductive ColType
  | str
  | num
  | boolean
  | timestamp
  | strArr
  | numArr
  | vector (dim : Nat)
deriving DecidableEq, Repr

/-- `getDefaultValue` over `DEFAULT_VALUES` of src/core/constants.ts. -/
def getDefaultValue : ColType → Value
  | ColType.str => Value.vStr []
  | ColType.num => Value.vInt 0
  | ColType.timestamp => Value.vInt 0
  | ColType.boolean => Value.vBool false
  | ColType.strArr => Value.vArr []
  | ColType.numArr => Value.vArr []
  | ColType.vector _ => Value.vNull

/-- First-match association-list lookup: JS `Map.get` / object property
access for the maps whose insertion discipline keeps keys unique. -/
def lookupA {α : Type} : List (Str × α) → Str → Option α
  | [], _ => none
  | (k', v) :: rest, k => if k' = k then some v else lookupA rest k

/-- `new Float32Array(arr)` on a plain array: numeric entries are kept
(integer components are exact in float32); the claims under scrutiny only
exercise integer arrays, so non-numeric entries (which JS would turn into
`NaN`) are embedded as 0. -/
def float32OfScalar : Scalar → Int
  | Scalar.sInt n => n
  | _ => 0

/-- The vector conversion inside `columns.set`: a plain JS array written to a
`vector` column becomes a `Float32Array`. -/
def convertForCol (t : ColType) (v : Value) : Value :=
  match t, v with
  | ColType.vector _, Value.vArr xs => Value.vVec (xs.map float32OfScalar)
  | _, _ => v

/-- `while (arr.length <= index) arr.push(default)`. -/
def growL {α : Type} (l : List α) (i : Nat) (d : α) : List α :=
  l ++ List.replicate (i + 1 - l.length) d

/-- JS `arr[i] = v` with no prior growth: within bounds it overwrites, past
the end it leaves a hole; the holes are only ever read back through `?? hole`
in the source, so they are embedded as the `hole` value directly. -/
def jsSet {α : Type} (l : List α) (i : Nat) (v : α) (hole : α) : List α :=
  if i < l.length then l.set i v
  else l ++ List.replicate (i - l.length) hole ++ [v]

/-- State of `createColumns(schema)`: the parsed schema and one growable
array per column. -/
structure Columns where
  schema : List (Str × ColType)
  data : Str → List Value

def createColumns (schema : List (Str × ColType)) : Columns :=
  { schema := schema, data := fun _ => [] }

/-- `columns.set(column, index, value)`: `none` embeds the thrown
`Unknown column` error; otherwise grow with defaults, convert arrays written
to vector columns, and write. -/
def Columns.set (c : Columns) (col : Str) (i : Nat) (v : Value) : Option Columns :=
  match lookupA c.schema col with
  | none => none
  | some t =>
    some { c with
           data := fun s =>
             if s = col then (growL (c.data col) i (getDefaultValue t)).set i (convertForCol t v)
             else c.data s }

/-- The body of `columns.set` once the column is known to exist (used by
`setRecord`/`clearAt`, whose column names come from the schema itself). -/
def Columns.setKnown (c : Columns) (col : Str) (t : ColType) (i : Nat) (v : Value) : Columns :=
  { c with
    data := fun s =>
      if s = col then (growL (c.data col) i (getDefaultValue t)).set i (convertForCol t v)
      else c.data s }

/-- `columns.get(column, index)`: `none` embeds the `Unknown column` throw;
out-of-range reads give `undefined` as in JS. -/
def Columns.get (c : Columns) (col : Str) (i : Nat) : Option Value :=
  match lookupA c.schema col with
  | none => none
  | some _ => some ((c.data col).getD i Value.vUndef)

/-- `columns.getRecord(index)`: all column values at a slot, in schema
order. -/
def Columns.getRecord (c : Columns) (i : Nat) : List (Str × Value) :=
  c.schema.map (fun p => (p.1, (c.data p.1).getD i Value.vUndef))

/-- The loop of `columns.setRecord(index, record)`: provided fields are set,
omitted fields are reset to their type default (replace, not merge). -/
def Columns.setRecordAux : List (Str × ColType) → Columns → Nat → List (Str × Value) → Columns
  | [], c, _, _ => c
  | (k, t) :: rest, c, i, record =>
    let v := match lookupA record k with
      | some v => v
      | none => getDefaultValue t
    Columns.setRecordAux rest (c.setKnown k t i v) i record

def Columns.setRecord (c : Columns) (i : Nat) (record : List (Str × Value)) : Columns :=
  Columns.setRecordAux c.schema c i record

/-- `columns.clearAt(index)`: reset every column at the slot to its default;
its loop is the `setRecord` loop on the empty record. -/
def Columns.clearAt (c : Columns) (i : Nat) : Columns :=
  Columns.setRecordAux c.schema c i []

-- =============================================================================
-- Collection (src/core/collection.ts)
-- =============================================================================

/-- State of `createCollection`: registry + columns + the three metadata
arrays. -/
structure Coll where
  registry : Registry
  columns : Columns
  created : List Int
  updated : List Int
  stale : List Bool

def createCollection (schema : List (Str × ColType)) : Coll :=
  { registry := createRegistry
    columns := createColumns schema
    created := []
    updated := []
    stale := [] }

/-- A materialized record (`RecordWithMeta`): id, schema fields in schema
order, and the three metadata values, with the source's `?? 0` / `?? false`
fallbacks. -/
structure RecordOut where
  id : Str
  fields : List (Str × Value)
  created : Int
  updated : Int
  stale : Bool
deriving DecidableEq, Repr

/-- `buildRecord(index)`: `none` embeds the `No ID for index` throw. -/
def Coll.buildRecord (c : Coll) (i : Nat) : Option RecordOut :=
  match c.registry.getId i with
  | none => none
  | some id =>
    some { id := id
           fields := c.columns.getRecord i
           created := c.created.getD i 0
           updated := c.updated.getD i 0
           stale := c.stale.getD i false }

/-- `setMetadataAt(index, created, updated, stale)`. -/
def Coll.setMetadataAt (c : Coll) (i : Nat) (cr up : Int) (st : Bool) : Coll :=
  { c with
    created := (growL c.created i 0).set i cr
    updated := (growL c.updated i 0).set i up
    stale := (growL c.stale i false).set i st }

/-- `collection.insert(data)`: `idOpt` is `data.id` and `genId` the value
`generateId()` would produce (`timestamp-random`, opaque here). -/
def Coll.insert (c : Coll) (idOpt : Option Str) (genId : Str) (data : List (Str × Value))
    (now : Int) : Str × Coll :=
  let id := idOpt.getD genId
  let (i, reg) := c.registry.allocate id
  let cols := c.columns.setRecord i data
  let c' := Coll.setMetadataAt { c with registry := reg, columns := cols } i now now false
  (id, c')

/-- `collection.get(id)`: the `-1` sentinel check is the `none` branch. -/
def Coll.get (c : Coll) (id : Str) : Option RecordOut :=
  match c.registry.getIndex id with
  | none => none
  | some i => c.buildRecord i

/-- The `for (const key of Object.keys(data))` loop of `update`: one
`columns.set` per provided field, propagating the `Unknown column` throw. -/
def Coll.setFields (c : Coll) (i : Nat) : List (Str × Value) → Option Coll
  | [] => some c
  | (k, v) :: rest =>
    match c.columns.set k i v with
    | none => none
    | some cols => Coll.setFields { c with columns := cols } i rest

/-- `collection.update(id, data)`: rewrites only the listed fields, then
bumps `updated` at the slot. -/
def Coll.update (c : Coll) (id : Str) (data : List (Str × Value)) (now : Int) :
    Option (Bool × Coll) :=
  match c.registry.getIndex id with
  | none => some (false, c)
  | some i =>
    match Coll.setFields c i data with
    | none => none
    | some c' => some (true, { c' with updated := jsSet c'.updated i now 0 })

/-- `collection.delete(id)`: clear columns and metadata at the slot, then
release the slot; `false` and no mutation when the id is unknown. -/
def Coll.delete (c : Coll) (id : Str) : Bool × Coll :=
  match c.registry.getIndex id with
  | none => (false, c)
  | some i =>
    let cols := c.columns.clearAt i
    let created := c.created.set i 0
    let updated := c.updated.set i 0
    let stale := c.stale.set i false
    let reg := (c.registry.release id).2
    (true, { registry := reg, columns := cols, created := created, updated := updated,
             stale := stale })

/-- `collection.isStale(id)`. -/
def Coll.isStale (c : Coll) (id : Str) : Bool :=
  match c.registry.getIndex id with
  | none => false
  | some i => c.stale.getD i false

/-- `collection.getByIndex(index)`. -/
def Coll.getByIndex (c : Coll) (i : Nat) : Option RecordOut :=
  if i ∈ c.registry.allocatedIndices then c.buildRecord i else none

/-- `collection.getIndices()`. -/
def Coll.getIndices (c : Coll) : List Nat :=
  c.registry.getAllIndices

-- =============================================================================
-- Helper lemmas about grown/sparse array writes
-- =============================================================================

theorem getD_append_cons {α : Type} (xs : List α) (v : α) (ys : List α) (w : α) :
    (xs ++ v :: ys).getD xs.length w = v := by
  induction xs with
  | nil => rfl
  | cons a rest ih => simpa using ih

theorem getD_set_self {α : Type} (l : List α) (i : Nat) (v w : α) (h : i < l.length) :
    (l.set i v).getD i w = v := by
  induction l generalizing i with
  | nil => simp at h
  | cons a rest ih =>
    cases i with
    | zero => rfl
    | succ n => simpa using ih n (by simpa using h)

theorem growSet_getD {α : Type} (l : List α) (i : Nat) (d v w : α) :
    ((growL l i d).set i v).getD i w = v := by
  apply getD_set_self
  simp only [growL, List.length_append, List.length_replicate]
  omega

theorem jsSet_getD {α : Type} (l : List α) (i : Nat) (v hole w : α) :
    (jsSet l i v hole).getD i w = v := by
  unfold jsSet
  split
  · next h => exact getD_set_self l i v w h
  · next h =>
    have hlen : (l ++ List.replicate (i - l.length) hole).length = i := by
      simp only [List.length_append, List.length_replicate]
      omega
    calc (l ++ List.replicate (i - l.length) hole ++ [v]).getD i w
        = (l ++ List.replicate (i - l.length) hole ++ [v]).getD
            (l ++ List.replicate (i - l.length) hole).length w := by rw [hlen]
      _ = v := getD_append_cons _ v [] w

theorem convert_default (t : ColType) :
    convertForCol t (getDefaultValue t) = getDefaultValue t := by
  cases t <;> rfl

-- =============================================================================
-- Effect of the field-writing loops
-- =============================================================================

theorem lookupA_eq_none {α : Type} : ∀ {l : List (Str × α)} {k : Str},
    k ∉ l.map Prod.fst → lookupA l k = none := by
  intro l
  induction l with
  | nil => intro k _; rfl
  | cons q qs ih =>
    intro k hk
    simp only [List.map_cons, List.mem_cons] at hk
    cases q with
    | mk qk qv =>
      unfold lookupA
      rw [if_neg (fun h => hk (Or.inl h.symm))]
      exact ih (fun h => hk (Or.inr h))

theorem setFields_spec (data : List (Str × Value)) :
    ∀ (c : Coll) (i : Nat),
    (∀ p ∈ data, (lookupA c.columns.schema p.1).isSome) →
    (data.map Prod.fst).Nodup →
    ∃ c', Coll.setFields c i data = some c' ∧
      c'.registry = c.registry ∧
      c'.created = c.created ∧
      c'.updated = c.updated ∧
      c'.stale = c.stale ∧
      c'.columns.schema = c.columns.schema ∧
      (∀ k, lookupA data k = none → c'.columns.data k = c.columns.data k) ∧
      (∀ k v t, lookupA data k = some v → lookupA c.columns.schema k = some t →
        (c'.columns.data k).getD i Value.vUndef = convertForCol t v) := by
  induction data with
  | nil =>
    intro c i _ _
    exact ⟨c, rfl, rfl, rfl, rfl, rfl, rfl, fun _ _ => rfl, fun k v t h => by cases h⟩
  | cons p rest ih =>
    obtain ⟨k, v⟩ := p
    intro c i hkeys hnodup
    have hk : (lookupA c.columns.schema k).isSome := hkeys (k, v) (List.mem_cons_self _ _)
    obtain ⟨t, ht⟩ := Option.isSome_iff_exists.1 hk
    have hset : c.columns.set k i v = some (c.columns.setKnown k t i v) := by
      unfold Columns.set Columns.setKnown
      rw [ht]
    have hlrest : lookupA rest k = none :=
      lookupA_eq_none (List.nodup_cons.1 hnodup).1
    obtain ⟨c', hc', hreg, hcr, hup, hst, hsch, hframe, hsetv⟩ :=
      ih { c with columns := c.columns.setKnown k t i v } i
        (fun p hp => hkeys p (List.mem_cons_of_mem _ hp))
        (List.nodup_cons.1 hnodup).2
    refine ⟨c', ?_, hreg, hcr, hup, hst, hsch, ?_, ?_⟩
    · show Coll.setFields c i ((k, v) :: rest) = some c'
      unfold Coll.setFields
      rw [hset]
      exact hc'
    · intro k' hk'
      unfold lookupA at hk'
      by_cases hkk : k = k'
      · rw [if_pos hkk] at hk'
        cases hk'
      · rw [if_neg hkk] at hk'
        rw [hframe k' hk']
        have hne : k' ≠ k := fun h => hkk h.symm
        simp [Columns.setKnown, hne]
    · intro k' v' t' hk' ht'
      unfold lookupA at hk'
      by_cases hkk : k = k'
      · subst hkk
        rw [if_pos rfl] at hk'
        injection hk' with hv'
        subst hv'
        rw [ht] at ht'
        injection ht' with htt
        subst htt
        rw [hframe k hlrest]
        have hdata : ({ c with columns := c.columns.setKnown k t i v } : Coll).columns.data k
            = (growL (c.columns.data k) i (getDefaultValue t)).set i (convertForCol t v) := by
          simp [Columns.setKnown]
        rw [hdata, growSet_getD]
      · rw [if_neg hkk] at hk'
        exact hsetv k' v' t' hk' ht'

theorem setRecordAux_spec (schema₀ : List (Str × ColType)) :
    ∀ (c : Columns) (i : Nat) (record : List (Str × Value)),
    (schema₀.map Prod.fst).Nodup →
    ((Columns.setRecordAux schema₀ c i record).schema = c.schema ∧
      (∀ k, lookupA schema₀ k = none →
        (Columns.setRecordAux schema₀ c i record).data k = c.data k) ∧
      (∀ k t, lookupA schema₀ k = some t →
        ((Columns.setRecordAux schema₀ c i record).data k).getD i Value.vUndef =
          (match lookupA record k with
           | some v => convertForCol t v
           | none => getDefaultValue t))) := by
  induction schema₀ with
  | nil =>
    intro c i record _
    exact ⟨rfl, fun _ _ => rfl, fun k t h => by cases h⟩
  | cons p rest ih =>
    obtain ⟨k, t⟩ := p
    intro c i record hnodup
    have hlrest : lookupA rest k = none :=
      lookupA_eq_none (List.nodup_cons.1 hnodup).1
    have hstep : Columns.setRecordAux ((k, t) :: rest) c i record =
        Columns.setRecordAux rest
          (c.setKnown k t i (match lookupA record k with
            | some v => v
            | none => getDefaultValue t)) i record := rfl
    obtain ⟨hsch, hframe, hsetv⟩ :=
      ih (c.setKnown k t i (match lookupA record k with
            | some v => v
            | none => getDefaultValue t)) i record (List.nodup_cons.1 hnodup).2
    rw [hstep]
    refine ⟨hsch, ?_, ?_⟩
    · intro k' hk'
      unfold lookupA at hk'
      by_cases hkk : k = k'
      · rw [if_pos hkk] at hk'
        cases hk'
      · rw [if_neg hkk] at hk'
        rw [hframe k' hk']
        have hne : k' ≠ k := fun h => hkk h.symm
        simp [Columns.setKnown, hne]
    · intro k' t' hk'
      unfold lookupA at hk'
      by_cases hkk : k = k'
      · subst hkk
        rw [if_pos rfl] at hk'
        injection hk' with htt
        subst htt
        rw [hframe k hlrest]
        have hdata : (c.setKnown k t i (match lookupA record k with
              | some v => v
              | none => getDefaultValue t)).data k
            = (growL (c.data k) i (getDefaultValue t)).set i
                (convertForCol t (match lookupA record k with
                  | some v => v
                  | none => getDefaultValue t)) := by
          simp [Columns.setKnown]
        rw [hdata, growSet_getD]
        cases hrec : lookupA record k with
        | some v0 => simp [hrec]
        | none => simp [hrec, convert_default]
      · rw [if_neg hkk] at hk'
        exact hsetv k' t' hk'

-- =============================================================================
-- C5: delete is total and atomic on failure
-- =============================================================================

/-- C5. `delete` is total and atomic on failure: on an unknown id it returns
`false` and the whole state (registry, columns, metadata) is untouched; on a
present id it returns `true` and an immediately following `get` of that id is
absent. -/
theorem delete_total_atomic (c : Coll) (id : Str) :
    (c.registry.idToIndex id = none → c.delete id = (false, c)) ∧
    (∀ i, c.registry.idToIndex id = some i →
      (c.delete id).1 = true ∧ ((c.delete id).2).get id = none) := by
  constructor
  · intro h
    unfold Coll.delete Registry.getIndex
    rw [h]
  · intro i h
    have hstep : c.delete id =
        (true, { registry := (c.registry.release id).2
                 columns := c.columns.clearAt i
                 created := c.created.set i 0
                 updated := c.updated.set i 0
                 stale := c.stale.set i false }) := by
      unfold Coll.delete Registry.getIndex
      rw [h]
    refine ⟨by rw [hstep], ?_⟩
    rw [hstep]
    have hnone : ((c.registry.release id).2).idToIndex id = none := by
      rw [release_of_mapped h]
      dsimp only
      rw [if_pos rfl]
    unfold Coll.get Registry.getIndex
    dsimp only
    rw [hnone]

/-- A small concrete collection shared by the witnesses: schema
`{n: string, s: number}` with one record `"a"` at slot 0. -/
def sampleSchema : List (Str × ColType) := [(['n'], ColType.str), (['s'], ColType.num)]

def sampleColl : Coll :=
  ((createCollection sampleSchema).insert (some ['a']) [] [(['n'], Value.vStr ['x'])] 5).2

theorem delete_total_atomic_witness :
    (sampleColl.delete ['b'] = (false, sampleColl)) ∧
    (sampleColl.delete ['a']).1 = true ∧
    ((sampleColl.delete ['a']).2).get ['a'] = none := by
  refine ⟨(delete_total_atomic sampleColl ['b']).1 rfl, ?_, ?_⟩
  · exact ((delete_total_atomic sampleColl ['a']).2 0 rfl).1
  · exact ((delete_total_atomic sampleColl ['a']).2 0 rfl).2

-- =============================================================================
-- C3: update keeps created, stamps updated, rewrites only listed fields
-- =============================================================================

/-- C3. For a present id, a successful `update(id, data)` leaves the whole
`created` array unchanged, sets the record's `updated` to the call time `now`
(hence ≥ the previous `updated` whenever call times are monotone), rewrites
exactly the fields listed in `data` (with the vector conversion of
`columns.set`), and leaves every other schema field at that slot unchanged. -/
theorem update_frame_effect (c : Coll) (id : Str) (i : Nat) (data : List (Str × Value))
    (now : Int)
    (hid : c.registry.idToIndex id = some i)
    (hkeys : ∀ p ∈ data, (lookupA c.columns.schema p.1).isSome)
    (hnodup : (data.map Prod.fst).Nodup) :
    ∃ c', c.update id data now = some (true, c') ∧
      c'.created = c.created ∧
      c'.updated.getD i 0 = now ∧
      (c.updated.getD i 0 ≤ now → c.updated.getD i 0 ≤ c'.updated.getD i 0) ∧
      (∀ k, lookupA data k = none → c'.columns.data k = c.columns.data k) ∧
      (∀ k v t, lookupA data k = some v → lookupA c.columns.schema k = some t →
        (c'.columns.data k).getD i Value.vUndef = convertForCol t v) ∧
      (∀ r r', c.get id = some r → c'.get id = some r' →
        r'.created = r.created ∧ r'.updated = now) := by
  obtain ⟨c₁, hc₁, hreg, hcr, hup, hst, hsch, hframe, hsetv⟩ := setFields_spec data c i hkeys hnodup
  have hgetD : ({ c₁ with updated := jsSet c₁.updated i now 0 } : Coll).updated.getD i 0 = now :=
    jsSet_getD _ _ _ _ _
  refine ⟨{ c₁ with updated := jsSet c₁.updated i now 0 }, ?_, hcr, hgetD, ?_, ?_, ?_, ?_⟩
  · unfold Coll.update Registry.getIndex
    rw [hid]
    dsimp only
    rw [hc₁]
  · intro hle
    rw [hgetD]
    exact hle
  · intro k hk
    exact hframe k hk
  · intro k v t hk ht
    exact hsetv k v t hk ht
  · intro r r' hr hr'
    have h2 : ({ c₁ with updated := jsSet c₁.updated i now 0 } : Coll).registry.idToIndex id
        = some i := by
      show c₁.registry.idToIndex id = some i
      rw [hreg]
      exact hid
    unfold Coll.get Registry.getIndex at hr hr'
    rw [hid] at hr
    rw [h2] at hr'
    dsimp only at hr hr'
    unfold Coll.buildRecord Registry.getId at hr hr'
    cases hgid : c.registry.indexToId i with
    | none =>
      rw [hgid] at hr
      cases hr
    | some rid =>
      rw [hgid] at hr
      have hgid' : ({ c₁ with updated := jsSet c₁.updated i now 0 } : Coll).registry.indexToId i
          = some rid := by
        show c₁.registry.indexToId i = some rid
        rw [hreg]
        exact hgid
      rw [hgid'] at hr'
      injection hr with hr
      injection hr' with hr'
      subst hr
      subst hr'
      constructor
      · show ({ c₁ with updated := jsSet c₁.updated i now 0 } : Coll).created.getD i 0
            = c.created.getD i 0
        show c₁.created.getD i 0 = c.created.getD i 0
        rw [hcr]
      · exact hgetD

theorem update_frame_effect_witness :
    sampleColl.registry.idToIndex ['a'] = some 0 ∧
    (sampleColl.update ['a'] [(['s'], Value.vInt 7)] 9).map Prod.fst = some true := by
  refine ⟨rfl, ?_⟩
  obtain ⟨c', h1, _⟩ :=
    update_frame_effect sampleColl ['a'] 0 [(['s'], Value.vInt 7)] 9 rfl (by decide) (by decide)
  rw [h1]
  rfl

-- =============================================================================
-- C9: insert with an existing id reuses the slot and silently overwrites
-- =============================================================================

/-- C9. `insert` with an already-registered id does not allocate a new slot
(the registry is completely unchanged and the existing slot is reused),
replaces every schema field at that slot — provided fields with their
(vector-converted) values, omitted fields with the type default — and resets
`created`, `updated` to the call time and `stale` to `false`. -/
theorem insert_existing_overwrites (c : Coll) (id genId : Str) (i : Nat)
    (data : List (Str × Value)) (now : Int)
    (hid : c.registry.idToIndex id = some i)
    (hschema : (c.columns.schema.map Prod.fst).Nodup) :
    (c.insert (some id) genId data now).1 = id ∧
    ((c.insert (some id) genId data now).2).registry = c.registry ∧
    (∀ k t, lookupA c.columns.schema k = some t →
      (((c.insert (some id) genId data now).2).columns.data k).getD i Value.vUndef =
        (match lookupA data k with
         | some v => convertForCol t v
         | none => getDefaultValue t)) ∧
    ((c.insert (some id) genId data now).2).created.getD i 0 = now ∧
    ((c.insert (some id) genId data now).2).updated.getD i 0 = now ∧
    ((c.insert (some id) genId data now).2).stale.getD i false = false := by
  have halloc := allocate_of_mapped hid
  have hins : c.insert (some id) genId data now =
      (id, Coll.setMetadataAt { c with columns := c.columns.setRecord i data } i now now false) := by
    unfold Coll.insert
    dsimp only
    simp only [Option.getD_some]
    rw [halloc]
  obtain ⟨hsch, hframe, hsetv⟩ := setRecordAux_spec c.columns.schema c.columns i data hschema
  rw [hins]
  refine ⟨rfl, rfl, ?_, ?_, ?_, ?_⟩
  · intro k t ht
    show ((c.columns.setRecord i data).data k).getD i Value.vUndef = _
    exact hsetv k t ht
  · exact growSet_getD _ _ _ _ _
  · exact growSet_getD _ _ _ _ _
  · exact growSet_getD _ _ _ _ _

theorem insert_existing_overwrites_witness :
    sampleColl.registry.idToIndex ['a'] = some 0 ∧
    (sampleColl.insert (some ['a']) ['g'] [(['s'], Value.vInt 3)] 11).1 = ['a'] ∧
    ((sampleColl.insert (some ['a']) ['g'] [(['s'], Value.vInt 3)] 11).2).created.getD 0 0 = 11 := by
  have h := insert_existing_overwrites sampleColl ['a'] ['g'] 0 [(['s'], Value.vInt 3)] 11 rfl
    (by decide)
  exact ⟨rfl, h.1, h.2.2.2.1⟩

-- =============================================================================
-- Exact similarity values (src/vector/search.ts)
-- =============================================================================

/-- Sum of squares `∑ v[i]²` (the `normA`/`normB`/`queryNorm` accumulators
before the square root). -/
def sumsq : List Int → Int
  | [] => 0
  | a :: as => a * a + sumsq as

/-- The dot-product loop `for (let i = 0; i < a.length; i++) dot += a[i]*b[i]`:
it runs over the FIRST vector's indices; a missing component of the second
vector (only possible on dimension-mismatched data, which the theorems below
exclude) is embedded as 0 where JS would produce NaN. -/
def dotL : List Int → List Int → Int
  | [], _ => 0
  | _ :: as, [] => dotL as []
  | a :: as, b :: bs => a * b + dotL as bs

/-- The `vecNorm` accumulator of `batchCosineSimilarity`, which also runs
over the query's indices. -/
def normSqTrunc : List Int → List Int → Int
  | [], _ => 0
  | _ :: as, [] => normSqTrunc as []
  | _ :: as, b :: bs => b * b + normSqTrunc as bs

theorem sumsq_nonneg (v : List Int) : 0 ≤ sumsq v := by
  induction v with
  | nil => simp [sumsq]
  | cons a as ih =>
    have := mul_self_nonneg a
    unfold sumsq
    omega

theorem sumsq_eq_zero_iff (v : List Int) : sumsq v = 0 ↔ ∀ x ∈ v, x = 0 := by
  induction v with
  | nil => simp [sumsq]
  | cons a as ih =>
    unfold sumsq
    constructor
    · intro h
      have h1 := mul_self_nonneg a
      have h2 := sumsq_nonneg as
      have ha : a * a = 0 := by omega
      have has : sumsq as = 0 := by omega
      intro x hx
      rcases List.mem_cons.1 hx with rfl | hx
      · exact mul_self_eq_zero.1 ha
      · exact ih.1 has x hx
    · intro h
      have ha : a = 0 := h a (List.mem_cons_self _ _)
      have has : sumsq as = 0 := ih.2 (fun x hx => h x (List.mem_cons_of_mem _ hx))
      rw [ha, has]
      ring

theorem dotL_self (v : List Int) : dotL v v = sumsq v := by
  induction v with
  | nil => rfl
  | cons a as ih => unfold dotL sumsq; rw [ih]

theorem normSqTrunc_nonneg (q v : List Int) : 0 ≤ normSqTrunc q v := by
  induction q generalizing v with
  | nil => simp [normSqTrunc]
  | cons a as ih =>
    cases v with
    | nil =>
      unfold normSqTrunc
      exact ih []
    | cons b bs =>
      unfold normSqTrunc
      have := mul_self_nonneg b
      have := ih bs
      omega

theorem normSqTrunc_eq_sumsq : ∀ {q v : List Int}, q.length = v.length →
    normSqTrunc q v = sumsq v := by
  intro q
  induction q with
  | nil =>
    intro v hv
    cases v with
    | nil => rfl
    | cons b bs => simp at hv
  | cons a as ih =>
    intro v hv
    cases v with
    | nil => simp at hv
    | cons b bs =>
      unfold normSqTrunc sumsq
      rw [ih (by simpa using hv)]

/-- An exact similarity score `num / √den` with `den > 0`; this is the real
number the source's float similarity approximates. -/
structure SimVal where
  num : Int
  den : Int
  den_pos : 0 < den

instance : DecidableEq SimVal := fun a b =>
  decidable_of_iff (a.num = b.num ∧ a.den = b.den)
    (by cases a; cases b; simp)

/-- Real value of a similarity score. -/
noncomputable def SimVal.toReal (x : SimVal) : ℝ :=
  (x.num : ℝ) / Real.sqrt (x.den : ℝ)

/-- Decidable comparison realizing `x.toReal ≤ y.toReal` by sign analysis
and cross-multiplied squares. -/
def SimVal.leB (x y : SimVal) : Bool :=
  if x.num ≤ 0 ∧ 0 ≤ y.num then true
  else if 0 ≤ x.num ∧ 0 ≤ y.num then decide (x.num ^ 2 * y.den ≤ y.num ^ 2 * x.den)
  else if x.num ≤ 0 ∧ y.num ≤ 0 then decide (y.num ^ 2 * x.den ≤ x.num ^ 2 * y.den)
  else false

/-- Decidable comparison realizing `x.toReal < q` for a rational threshold. -/
def SimVal.ltQB (x : SimVal) (q : ℚ) : Bool :=
  if 0 ≤ q then
    if x.num < 0 then true
    else decide (((x.num : ℚ)) ^ 2 < q ^ 2 * (x.den : ℚ))
  else
    if 0 ≤ x.num then false
    else decide (q ^ 2 * (x.den : ℚ) < ((x.num : ℚ)) ^ 2)

theorem sqrt_den_pos (x : SimVal) : 0 < Real.sqrt (x.den : ℝ) :=
  Real.sqrt_pos.mpr (by exact_mod_cast x.den_pos)

theorem mul_sqrt_le_iff {a b m n : ℝ} (hm : 0 < m) (hn : 0 < n) (ha : 0 ≤ a) (hb : 0 ≤ b) :
    a * Real.sqrt n ≤ b * Real.sqrt m ↔ a ^ 2 * n ≤ b ^ 2 * m := by
  have h1 : a * Real.sqrt n = Real.sqrt (a ^ 2 * n) := by
    rw [Real.sqrt_mul (sq_nonneg a), Real.sqrt_sq ha]
  have h2 : b * Real.sqrt m = Real.sqrt (b ^ 2 * m) := by
    rw [Real.sqrt_mul (sq_nonneg b), Real.sqrt_sq hb]
  rw [h1, h2]
  constructor
  · intro h
    calc a ^ 2 * n = Real.sqrt (a ^ 2 * n) ^ 2 := by
          rw [Real.sq_sqrt (by positivity)]
      _ ≤ Real.sqrt (b ^ 2 * m) ^ 2 := by
          exact pow_le_pow_left (Real.sqrt_nonneg _) h 2
      _ = b ^ 2 * m := Real.sq_sqrt (by positivity)
  · intro h
    exact Real.sqrt_le_sqrt h

theorem SimVal.leB_iff (x y : SimVal) : x.leB y = true ↔ x.toReal ≤ y.toReal := by
  have hm := sqrt_den_pos x
  have hn := sqrt_den_pos y
  have hdm : (0:ℝ) < (x.den : ℝ) := by exact_mod_cast x.den_pos
  have hdn : (0:ℝ) < (y.den : ℝ) := by exact_mod_cast y.den_pos
  have hcross : x.toReal ≤ y.toReal ↔ (x.num : ℝ) * Real.sqrt (y.den : ℝ)
      ≤ (y.num : ℝ) * Real.sqrt (x.den : ℝ) := by
    unfold SimVal.toReal
    rw [div_le_div_iff hm hn]
  rw [hcross]
  unfold SimVal.leB
  by_cases h1 : x.num ≤ 0 ∧ 0 ≤ y.num
  · rw [if_pos h1]
    simp only [true_iff]
    have hx : (x.num : ℝ) * Real.sqrt (y.den : ℝ) ≤ 0 :=
      mul_nonpos_of_nonpos_of_nonneg (by exact_mod_cast h1.1) (Real.sqrt_nonneg _)
    have hy : 0 ≤ (y.num : ℝ) * Real.sqrt (x.den : ℝ) :=
      mul_nonneg (by exact_mod_cast h1.2) (Real.sqrt_nonneg _)
    linarith
  · rw [if_neg h1]
    by_cases h2 : 0 ≤ x.num ∧ 0 ≤ y.num
    · rw [if_pos h2]
      rw [mul_sqrt_le_iff hdm hdn (by exact_mod_cast h2.1) (by exact_mod_cast h2.2)]
      simp only [decide_eq_true_eq]
      constructor
      · intro h; exact_mod_cast h
      · intro h; exact_mod_cast h
    · rw [if_neg h2]
      by_cases h3 : x.num ≤ 0 ∧ y.num ≤ 0
      · rw [if_pos h3]
        have ha : (0:ℝ) ≤ -(y.num : ℝ) := by
          have : (y.num : ℝ) ≤ 0 := by exact_mod_cast h3.2
          linarith
        have hb : (0:ℝ) ≤ -(x.num : ℝ) := by
          have : (x.num : ℝ) ≤ 0 := by exact_mod_cast h3.1
          linarith
        have hflip : ((x.num : ℝ) * Real.sqrt (y.den : ℝ) ≤ (y.num : ℝ) * Real.sqrt (x.den : ℝ))
            ↔ (-(y.num : ℝ)) * Real.sqrt (x.den : ℝ) ≤ (-(x.num : ℝ)) * Real.sqrt (y.den : ℝ) := by
          constructor <;> intro h <;> nlinarith [h]
        rw [hflip, mul_sqrt_le_iff hdn hdm ha hb]
        simp only [neg_sq, decide_eq_true_eq]
        constructor
        · intro h; exact_mod_cast h
        · intro h; exact_mod_cast h
      · rw [if_neg h3]
        simp only [Bool.false_eq_true, false_iff, not_le]
        have hxpos : 0 < x.num := by omega
        have hyneg : y.num < 0 := by omega
        have hx : 0 < (x.num : ℝ) * Real.sqrt (y.den : ℝ) :=
          mul_pos (by exact_mod_cast hxpos) hn
        have hy : (y.num : ℝ) * Real.sqrt (x.den : ℝ) < 0 :=
          mul_neg_of_neg_of_pos (by exact_mod_cast hyneg) hm
        linarith

theorem lt_mul_sqrt_iff {a q m : ℝ} (hm : 0 < m) (ha : 0 ≤ a) (hq : 0 ≤ q) :
    a < q * Real.sqrt m ↔ a ^ 2 < q ^ 2 * m := by
  have h2 : q * Real.sqrt m = Real.sqrt (q ^ 2 * m) := by
    rw [Real.sqrt_mul (sq_nonneg q), Real.sqrt_sq hq]
  rw [h2]
  constructor
  · intro h
    calc a ^ 2 = Real.sqrt (a ^ 2) ^ 2 := by rw [Real.sq_sqrt (sq_nonneg a)]
      _ < Real.sqrt (q ^ 2 * m) ^ 2 := by
          have hlt : Real.sqrt (a ^ 2) < Real.sqrt (q ^ 2 * m) := by
            rw [Real.sqrt_sq ha]
            exact h
          have h0 : 0 ≤ Real.sqrt (a ^ 2) := Real.sqrt_nonneg _
          nlinarith [hlt, h0]
      _ = q ^ 2 * m := Real.sq_sqrt (by positivity)
  · intro h
    calc a = Real.sqrt (a ^ 2) := by rw [Real.sqrt_sq ha]
      _ < Real.sqrt (q ^ 2 * m) := by
          apply Real.sqrt_lt_sqrt (sq_nonneg a) h

theorem SimVal.ltQB_iff (x : SimVal) (q : ℚ) : x.ltQB q = true ↔ x.toReal < (q : ℝ) := by
  have hm := sqrt_den_pos x
  have hdm : (0:ℝ) < (x.den : ℝ) := by exact_mod_cast x.den_pos
  have hcross : x.toReal < (q : ℝ) ↔ (x.num : ℝ) < (q : ℝ) * Real.sqrt (x.den : ℝ) := by
    unfold SimVal.toReal
    rw [div_lt_iff hm]
  rw [hcross]
  unfold SimVal.ltQB
  by_cases hq : 0 ≤ q
  · rw [if_pos hq]
    by_cases hxn : x.num < 0
    · rw [if_pos hxn]
      simp only [true_iff]
      have h1 : (x.num : ℝ) < 0 := by exact_mod_cast hxn
      have h2 : 0 ≤ (q : ℝ) * Real.sqrt (x.den : ℝ) :=
        mul_nonneg (by exact_mod_cast hq) (Real.sqrt_nonneg _)
      linarith
    · rw [if_neg hxn]
      rw [lt_mul_sqrt_iff hdm (by exact_mod_cast not_lt.1 hxn) (by exact_mod_cast hq)]
      simp only [decide_eq_true_eq]
      constructor
      · intro h
        have h' : ((x.num : ℚ) : ℝ) ^ 2 < ((q : ℝ)) ^ 2 * (((x.den : ℚ) : ℝ)) := by
          exact_mod_cast h
        push_cast at h' ⊢
        exact h'
      · intro h
        have h' : ((x.num : ℚ)) ^ 2 < q ^ 2 * ((x.den : ℚ)) := by
          push_cast at h ⊢
          exact_mod_cast h
        exact h'
  · rw [if_neg hq]
    by_cases hxn : 0 ≤ x.num
    · rw [if_pos hxn]
      simp only [Bool.false_eq_true, false_iff, not_lt]
      have h1 : (q : ℝ) * Real.sqrt (x.den : ℝ) < 0 :=
        mul_neg_of_neg_of_pos (by exact_mod_cast not_le.1 hq) hm
      have h2 : (0:ℝ) ≤ (x.num : ℝ) := by exact_mod_cast hxn
      linarith
    · rw [if_neg hxn]
      have hxneg : x.num < 0 := not_le.1 hxn
      have hqneg : q < 0 := not_le.1 hq
      have hflip : ((x.num : ℝ) < (q : ℝ) * Real.sqrt (x.den : ℝ))
          ↔ (-(q : ℝ)) * Real.sqrt (x.den : ℝ) < -(x.num : ℝ) := by
        constructor <;> intro h <;> nlinarith [h]
      rw [hflip]
      have hkey : (-(q : ℝ)) * Real.sqrt (x.den : ℝ) < -(x.num : ℝ)
          ↔ (-(q : ℝ)) ^ 2 * (x.den : ℝ) < (-(x.num : ℝ)) ^ 2 := by
        have hx' : (0:ℝ) < -(x.num : ℝ) := by
          have : (x.num : ℝ) < 0 := by exact_mod_cast hxneg
          linarith
        have hq' : (0:ℝ) ≤ -(q : ℝ) := by
          have : (q : ℝ) < 0 := by exact_mod_cast hqneg
          linarith
        constructor
        · intro h
          have h1 : ((-(q : ℝ)) * Real.sqrt (x.den : ℝ)) ^ 2 < (-(x.num : ℝ)) ^ 2 := by
            have hnn : 0 ≤ (-(q : ℝ)) * Real.sqrt (x.den : ℝ) :=
              mul_nonneg hq' (Real.sqrt_nonneg _)
            nlinarith [h, hnn]
          calc (-(q : ℝ)) ^ 2 * (x.den : ℝ)
              = ((-(q : ℝ)) * Real.sqrt (x.den : ℝ)) ^ 2 := by
                rw [mul_pow, Real.sq_sqrt (le_of_lt hdm)]
            _ < (-(x.num : ℝ)) ^ 2 := h1
        · intro h
          have h1 : ((-(q : ℝ)) * Real.sqrt (x.den : ℝ)) ^ 2 < (-(x.num : ℝ)) ^ 2 := by
            calc ((-(q : ℝ)) * Real.sqrt (x.den : ℝ)) ^ 2
                = (-(q : ℝ)) ^ 2 * (x.den : ℝ) := by
                  rw [mul_pow, Real.sq_sqrt (le_of_lt hdm)]
              _ < (-(x.num : ℝ)) ^ 2 := h
          have hnn : 0 ≤ (-(q : ℝ)) * Real.sqrt (x.den : ℝ) :=
            mul_nonneg hq' (Real.sqrt_nonneg _)
          nlinarith [h1, hnn, hx']
      rw [hkey]
      simp only [neg_sq, decide_eq_true_eq]
      constructor
      · intro h
        have h' : ((q : ℚ)) ^ 2 * ((x.den : ℚ)) < ((x.num : ℚ)) ^ 2 := h
        have hr : ((q : ℝ)) ^ 2 * ((x.den : ℝ)) < ((x.num : ℝ)) ^ 2 := by
          exact_mod_cast h'
        exact hr
      · intro h
        have h' : ((q : ℝ)) ^ 2 * ((x.den : ℝ)) < ((x.num : ℝ)) ^ 2 := by
          push_cast at h
          exact h
        exact_mod_cast h'

theorem SimVal.leB_total (x y : SimVal) : x.leB y = true ∨ y.leB x = true := by
  rcases le_total x.toReal y.toReal with h | h
  · exact Or.inl ((SimVal.leB_iff x y).mpr h)
  · exact Or.inr ((SimVal.leB_iff y x).mpr h)

theorem SimVal.leB_trans {x y z : SimVal} (h1 : x.leB y = true) (h2 : y.leB z = true) :
    x.leB z = true :=
  (SimVal.leB_iff x z).mpr (le_trans ((SimVal.leB_iff x y).mp h1) ((SimVal.leB_iff y z).mp h2))

-- =============================================================================
-- cosineSimilarity (src/vector/search.ts lines 51-76)
-- =============================================================================

theorem cosden_pos {na nb : Int} (hna : 0 ≤ na) (hnb : 0 ≤ nb) (h : ¬ na * nb = 0) :
    0 < na * nb :=
  lt_of_le_of_ne (mul_nonneg hna hnb) (Ne.symm h)

/-- `cosineSimilarity(a, b)`: `none` embeds the thrown dimension-mismatch
error; the zero-denominator guard `√normA·√normB === 0` is equivalent to
`normA·normB = 0` on exact numbers. -/
def cosineSimilarity (a b : List Int) : Option SimVal :=
  if a.length ≠ b.length then none
  else
    if h : sumsq a * sumsq b = 0 then some ⟨0, 1, Int.zero_lt_one⟩
    else some ⟨dotL a b, sumsq a * sumsq b, cosden_pos (sumsq_nonneg a) (sumsq_nonneg b) h⟩

/-- C6. `cosineSimilarity` throws exactly on length mismatch; on equal
lengths it never throws, returning 0 when either norm is zero and
`dot(a,b)/(√‖a‖²·√‖b‖²)` otherwise; in particular its value at `(v, v)` for
any non-zero `v` is exactly 1. -/
theorem cosineSimilarity_contract :
    (∀ a b : List Int, cosineSimilarity a b = none ↔ a.length ≠ b.length) ∧
    (∀ a b : List Int, a.length = b.length →
      ∃ r, cosineSimilarity a b = some r ∧
        ((sumsq a = 0 ∨ sumsq b = 0) → r.toReal = 0) ∧
        (sumsq a ≠ 0 → sumsq b ≠ 0 →
          r.toReal = (dotL a b : ℝ) /
            (Real.sqrt ((sumsq a : ℝ)) * Real.sqrt ((sumsq b : ℝ))))) ∧
    (∀ v : List Int, sumsq v ≠ 0 → ∃ r, cosineSimilarity v v = some r ∧ r.toReal = 1) := by
  refine ⟨?_, ?_, ?_⟩
  · intro a b
    unfold cosineSimilarity
    by_cases h : a.length ≠ b.length
    · rw [if_pos h]
      simp [h]
    · rw [if_neg h]
      constructor
      · intro hx
        split at hx <;> cases hx
      · intro hx
        exact absurd hx h
  · intro a b hlen
    unfold cosineSimilarity
    rw [if_neg (by simp [hlen])]
    by_cases h : sumsq a * sumsq b = 0
    · rw [dif_pos h]
      refine ⟨_, rfl, ?_, ?_⟩
      · intro _
        unfold SimVal.toReal
        simp
      · intro ha hb
        exact absurd h (mul_ne_zero ha hb)
    · rw [dif_neg h]
      refine ⟨_, rfl, ?_, ?_⟩
      · rintro (ha | hb)
        · exact absurd (by rw [ha, zero_mul]) h
        · exact absurd (by rw [hb, mul_zero]) h
      · intro _ _
        unfold SimVal.toReal
        dsimp only
        rw [show ((sumsq a * sumsq b : ℤ) : ℝ) = (sumsq a : ℝ) * (sumsq b : ℝ) by push_cast; ring]
        rw [Real.sqrt_mul (by exact_mod_cast sumsq_nonneg a)]
  · intro v hv
    unfold cosineSimilarity
    rw [if_neg (by simp)]
    have h : ¬ sumsq v * sumsq v = 0 := fun h => hv (by
      rcases mul_eq_zero.1 h with h | h <;> exact h)
    rw [dif_neg h]
    refine ⟨_, rfl, ?_⟩
    unfold SimVal.toReal
    dsimp only
    have hpos : (0:ℝ) < (sumsq v : ℝ) := by
      have := sumsq_nonneg v
      have : (0:ℝ) ≤ (sumsq v : ℝ) := by exact_mod_cast this
      rcases lt_or_eq_of_le this with h' | h'
      · exact h'
      · exact absurd (by exact_mod_cast h'.symm) hv
    rw [show ((sumsq v * sumsq v : ℤ) : ℝ) = (sumsq v : ℝ) * (sumsq v : ℝ) by push_cast; ring]
    rw [Real.sqrt_mul_self (le_of_lt hpos)]
    rw [dotL_self]
    exact div_self (ne_of_gt hpos)

theorem cosineSimilarity_contract_witness :
    (cosineSimilarity [1, 2] [1] = none) ∧
    (∃ r, cosineSimilarity [0, 0] [3, 4] = some r ∧ r.toReal = 0) ∧
    (∃ r, cosineSimilarity [3, 4] [3, 4] = some r ∧ r.toReal = 1) := by
  refine ⟨?_, ?_, ?_⟩
  · exact (cosineSimilarity_contract.1 [1, 2] [1]).mpr (by decide)
  · obtain ⟨r, h1, h2, _⟩ := cosineSimilarity_contract.2.1 [0, 0] [3, 4] (by decide)
    exact ⟨r, h1, h2 (Or.inl (by decide))⟩
  · exact cosineSimilarity_contract.2.2 [3, 4] (by decide)

-- =============================================================================
-- batchCosineSimilarity and vectorSearch (src/vector/search.ts)
-- =============================================================================

/-- One entry of the `results` array inside `batchCosineSimilarity`. -/
structure SimEntry where
  index : Nat
  similarity : SimVal
deriving DecidableEq

/-- Order realizing the comparator `(a, b) => b.similarity - a.similarity`
(descending similarity); JS `Array.sort` is stable, embedded below as a
stable insertion sort over this order. -/
def descOrder (a b : SimEntry) : Prop := b.similarity.leB a.similarity = true

instance : DecidableRel descOrder := fun _ _ =>
  inferInstanceAs (Decidable (_ = true))

instance : IsTotal SimEntry descOrder :=
  ⟨fun a b => (SimVal.leB_total b.similarity a.similarity).imp id id⟩

instance : IsTrans SimEntry descOrder :=
  ⟨fun _ _ _ h1 h2 => SimVal.leB_trans h2 h1⟩

theorem simden_pos {q v : List Int} (hq : ¬ sumsq q = 0) (hv : ¬ normSqTrunc q v = 0) :
    0 < sumsq q * normSqTrunc q v :=
  lt_of_le_of_ne (mul_nonneg (sumsq_nonneg q) (normSqTrunc_nonneg q v))
    (Ne.symm (mul_ne_zero hq hv))

/-- `batchCosineSimilarity(query, vectors, indices, topK)`: empty on a
zero-norm query, otherwise one exact similarity `dot/√(qn·vn)` per candidate
with non-zero norm, stably sorted descending and truncated to `topK`. -/
def batchCosineSimilarity (query : List Int) (vectors : List (List Int)) (indices : List Nat)
    (topK : Nat) : List SimEntry :=
  if hq : sumsq query = 0 then []
  else
    (((vectors.zip indices).filterMap (fun p =>
      if hv : normSqTrunc query p.1 = 0 then none
      else some ⟨p.2, ⟨dotL query p.1, sumsq query * normSqTrunc query p.1,
        simden_pos hq hv⟩⟩)).insertionSort descOrder).take topK

/-- The candidate-gathering loop of `vectorSearch`: indices in scan order
(the allocated-set iteration order), pre-filtered on raw column data, keeping
only slots whose vector column holds a present `Float32Array` value (`null`
and `undefined` are falsy and skipped; an unknown vector column, on which the
source would throw, yields no candidates). -/
def gatherCandidates (c : Coll) (vcol : Str)
    (filter : Option (List (Str × Value) → Nat → Bool)) : List (List Int × Nat) :=
  c.getIndices.filterMap (fun i =>
    let keep := match filter with
      | some f => f (c.columns.getRecord i) i
      | none => true
    if keep then
      match c.columns.get vcol i with
      | some (Value.vVec xs) => some (xs, i)
      | _ => none
    else none)

/-- One entry of the `vectorSearch` result list. -/
structure SearchResult where
  record : RecordOut
  similarity : SimVal
  stale : Bool
deriving DecidableEq

/-- The body of the final loop of `vectorSearch`: drop entries below
`minSimilarity`, materialize the record, attach staleness. -/
def searchKeep (c : Coll) (minSim : ℚ) (e : SimEntry) : Option SearchResult :=
  if e.similarity.ltQB minSim then none
  else
    match c.getByIndex e.index with
    | none => none
    | some record => some ⟨record, e.similarity, c.isStale record.id⟩

/-- `vectorSearch(collection, vectorColumn, queryVector, options)` with the
options spelled out (`topK`, `minSimilarity`, `filter`). -/
def vectorSearch (c : Coll) (vcol : Str) (query : List Int) (topK : Nat) (minSim : ℚ)
    (filter : Option (List (Str × Value) → Nat → Bool)) : List SearchResult :=
  let cands := gatherCandidates c vcol filter
  let top := batchCosineSimilarity query (cands.map Prod.fst) (cands.map Prod.snd) topK
  top.filterMap (searchKeep c minSim)

-- =============================================================================
-- Extraction lemmas for vectorSearch
-- =============================================================================

theorem batch_mem {query : List Int} {vectors : List (List Int)} {indices : List Nat}
    {topK : Nat} {e : SimEntry} (h : e ∈ batchCosineSimilarity query vectors indices topK) :
    sumsq query ≠ 0 ∧ ∃ p ∈ vectors.zip indices, normSqTrunc query p.1 ≠ 0 ∧
      e.index = p.2 ∧ e.similarity.num = dotL query p.1 ∧
      e.similarity.den = sumsq query * normSqTrunc query p.1 := by
  unfold batchCosineSimilarity at h
  split at h
  · cases h
  · next hq =>
    refine ⟨hq, ?_⟩
    have h1 : e ∈ ((vectors.zip indices).filterMap (fun p =>
        if hv : normSqTrunc query p.1 = 0 then none
        else some ⟨p.2, ⟨dotL query p.1, sumsq query * normSqTrunc query p.1,
          simden_pos hq hv⟩⟩)).insertionSort descOrder :=
      List.take_subset _ _ h
    rw [List.mem_insertionSort] at h1
    obtain ⟨p, hp, hf⟩ := List.mem_filterMap.1 h1
    refine ⟨p, hp, ?_⟩
    split at hf
    · cases hf
    · next hv =>
      injection hf with hf
      subst hf
      exact ⟨hv, rfl, rfl, rfl⟩

theorem zip_map_cands (cands : List (List Int × Nat)) :
    (cands.map Prod.fst).zip (cands.map Prod.snd) = cands := by
  rw [List.zip_map']
  simp

theorem gather_mem {c : Coll} {vcol : Str}
    {filter : Option (List (Str × Value) → Nat → Bool)} {xs : List Int} {i : Nat}
    (h : (xs, i) ∈ gatherCandidates c vcol filter) :
    i ∈ c.registry.allocatedIndices ∧ c.columns.get vcol i = some (Value.vVec xs) := by
  obtain ⟨i₀, hi₀, hf⟩ := List.mem_filterMap.1 h
  dsimp only at hf
  split at hf
  · split at hf
    · next heq =>
      injection hf with hf
      injection hf with h1 h2
      subst h1
      subst h2
      exact ⟨hi₀, heq⟩
    · cases hf
  · cases hf

theorem searchKeep_eq_some {c : Coll} {minSim : ℚ} {e : SimEntry} {r : SearchResult}
    (h : searchKeep c minSim e = some r) :
    e.similarity.ltQB minSim = false ∧ r.similarity = e.similarity ∧
      c.getByIndex e.index = some r.record := by
  unfold searchKeep at h
  split at h
  · cases h
  · next hlt =>
    split at h
    · cases h
    · next record heq =>
      injection h with h
      subst h
      exact ⟨Bool.not_eq_true _ ▸ (by simpa using hlt), rfl, heq⟩

/-- `schema`-wide dimension discipline: every present vector value in column
`vcol` of an allocated slot has the query's length (what a valid
`vector:d` schema guarantees; without it the source computes NaN
similarities, which the exact embedding does not model). -/
def dimOk (c : Coll) (vcol : Str) (q : List Int) : Bool :=
  c.registry.allocatedIndices.all (fun i =>
    match c.columns.get vcol i with
    | some (Value.vVec xs) => xs.length = q.length
    | _ => true)

-- =============================================================================
-- C10: zero-norm queries and zero-norm candidates
-- =============================================================================

/-- C10. A query with zero norm makes `vectorSearch` return `[]` whatever
`topK` and `minSimilarity` are; and every returned result originates from a
stored candidate vector of non-zero norm (zero-norm stored vectors are
skipped, not reported with similarity 0) — stated with the source's
query-length-truncated norm, and with the true vector norm under the
fixed-dimension discipline `dimOk`. -/
theorem vectorSearch_zero_norm :
    (∀ (c : Coll) (vcol : Str) (query : List Int) (topK : Nat) (minSim : ℚ)
      (filter : Option (List (Str × Value) → Nat → Bool)), sumsq query = 0 →
      vectorSearch c vcol query topK minSim filter = []) ∧
    (∀ (c : Coll) (vcol : Str) (query : List Int) (topK : Nat) (minSim : ℚ)
      (filter : Option (List (Str × Value) → Nat → Bool)) (r : SearchResult),
      r ∈ vectorSearch c vcol query topK minSim filter →
      ∃ i xs, c.columns.get vcol i = some (Value.vVec xs) ∧ normSqTrunc query xs ≠ 0 ∧
        c.getByIndex i = some r.record) ∧
    (∀ (c : Coll) (vcol : Str) (query : List Int) (topK : Nat) (minSim : ℚ)
      (filter : Option (List (Str × Value) → Nat → Bool)) (r : SearchResult),
      dimOk c vcol query = true →
      r ∈ vectorSearch c vcol query topK minSim filter →
      ∃ i xs, c.columns.get vcol i = some (Value.vVec xs) ∧ sumsq xs ≠ 0 ∧
        c.getByIndex i = some r.record) := by
  have hpart2 : ∀ (c : Coll) (vcol : Str) (query : List Int) (topK : Nat) (minSim : ℚ)
      (filter : Option (List (Str × Value) → Nat → Bool)) (r : SearchResult),
      r ∈ vectorSearch c vcol query topK minSim filter →
      ∃ i xs, i ∈ c.registry.allocatedIndices ∧
        c.columns.get vcol i = some (Value.vVec xs) ∧ normSqTrunc query xs ≠ 0 ∧
        c.getByIndex i = some r.record := by
    intro c vcol query topK minSim filter r hr
    unfold vectorSearch at hr
    obtain ⟨e, he, hk⟩ := List.mem_filterMap.1 hr
    obtain ⟨hq, p, hp, hv, hidx, _, _⟩ := batch_mem he
    rw [zip_map_cands] at hp
    obtain ⟨xs, i⟩ := p
    obtain ⟨halloc, hget⟩ := gather_mem hp
    obtain ⟨_, _, hby⟩ := searchKeep_eq_some hk
    have hidx' : e.index = i := hidx
    refine ⟨i, xs, halloc, hget, hv, ?_⟩
    rw [← hidx']
    exact hby
  refine ⟨?_, ?_, ?_⟩
  · intro c vcol query topK minSim filter hq
    unfold vectorSearch batchCosineSimilarity
    dsimp only
    rw [dif_pos hq]
    rfl
  · intro c vcol query topK minSim filter r hr
    obtain ⟨i, xs, _, h1, h2, h3⟩ := hpart2 c vcol query topK minSim filter r hr
    exact ⟨i, xs, h1, h2, h3⟩
  · intro c vcol query topK minSim filter r hdim hr
    obtain ⟨i, xs, halloc, h1, h2, h3⟩ := hpart2 c vcol query topK minSim filter r hr
    refine ⟨i, xs, h1, ?_, h3⟩
    have hlen : xs.length = query.length := by
      have := List.all_eq_true.1 hdim i halloc
      rw [h1] at this
      simpa using this
    rw [← normSqTrunc_eq_sumsq hlen.symm]
    exact h2

/-- Schema and collection for the vector-search witnesses: one `vector:2`
column holding `[3, 4]` at slot 0. -/
def vecSchema : List (Str × ColType) := [(['v'], ColType.vector 2)]

def vecColl : Coll :=
  ((createCollection vecSchema).insert (some ['a']) [] [(['v'], Value.vVec [3, 4])] 1).2

theorem vectorSearch_zero_norm_witness :
    vectorSearch vecColl ['v'] [0, 0] 10 0 none = [] ∧
    dimOk vecColl ['v'] [3, 4] = true := by
  exact ⟨vectorSearch_zero_norm.1 vecColl ['v'] [0, 0] 10 0 none (by decide), by decide⟩

-- =============================================================================
-- Stability toolkit
-- =============================================================================

theorem pair_sublist_nodup_asymm {α : Type} : ∀ {l : List α} {a b : α}, l.Nodup →
    [a, b] <+ l → [b, a] <+ l → a ≠ b → False := by
  intro l
  induction l with
  | nil =>
    intro a b _ h1 _ _
    cases h1
  | cons c rest ih =>
    intro a b hnd h1 h2 hne
    have hc : c ∉ rest := (List.nodup_cons.1 hnd).1
    have hrest : rest.Nodup := (List.nodup_cons.1 hnd).2
    cases h1 with
    | cons _ h1' =>
      cases h2 with
      | cons _ h2' => exact ih hrest h1' h2' hne
      | cons₂ _ h2' => exact hc (h1'.subset (by simp))
    | cons₂ _ h1' =>
      cases h2 with
      | cons _ h2' => exact hc (h2'.subset (by simp))
      | cons₂ _ h2' => exact hne rfl

theorem pair_sublist_of_mem {α : Type} : ∀ {l : List α} {a b : α}, a ∈ l → b ∈ l → a ≠ b →
    [a, b] <+ l ∨ [b, a] <+ l := by
  intro l
  induction l with
  | nil =>
    intro a b ha _ _
    cases ha
  | cons c rest ih =>
    intro a b ha hb hne
    rcases List.mem_cons.1 ha with rfl | ha'
    · rcases List.mem_cons.1 hb with rfl | hb'
      · exact absurd rfl hne
      · exact Or.inl (List.Sublist.cons₂ a (List.singleton_sublist.2 hb'))
    · rcases List.mem_cons.1 hb with rfl | hb'
      · exact Or.inr (List.Sublist.cons₂ b (List.singleton_sublist.2 ha'))
      · exact (ih ha' hb' hne).imp (List.Sublist.cons c) (List.Sublist.cons c)

theorem filterMap_eq_single {α β : Type} {g : α → Option β} : ∀ {l : List α} {b : β},
    l.filterMap g = [b] → ∃ eb, [eb] <+ l ∧ g eb = some b := by
  intro l
  induction l with
  | nil =>
    intro b h
    cases h
  | cons x rest ih =>
    intro b h
    rw [List.filterMap_cons] at h
    cases hx : g x with
    | none =>
      rw [hx] at h
      obtain ⟨eb, hs, hg⟩ := ih h
      exact ⟨eb, hs.cons x, hg⟩
    | some y =>
      rw [hx] at h
      injection h with h1 h2
      subst h1
      exact ⟨x, List.Sublist.cons₂ x (List.nil_sublist rest), hx⟩

theorem filterMap_eq_pair {α β : Type} {g : α → Option β} : ∀ {l : List α} {a b : β},
    l.filterMap g = [a, b] → ∃ ea eb, [ea, eb] <+ l ∧ g ea = some a ∧ g eb = some b := by
  intro l
  induction l with
  | nil =>
    intro a b h
    cases h
  | cons x rest ih =>
    intro a b h
    rw [List.filterMap_cons] at h
    cases hx : g x with
    | none =>
      rw [hx] at h
      obtain ⟨ea, eb, hs, h1, h2⟩ := ih h
      exact ⟨ea, eb, hs.cons x, h1, h2⟩
    | some y =>
      rw [hx] at h
      injection h with h1 h2
      subst h1
      obtain ⟨eb, hs, hg⟩ := filterMap_eq_single h2
      exact ⟨x, eb, List.Sublist.cons₂ x hs, hx, hg⟩

theorem map_filterMap_sublist {α β γ : Type} {f : α → Option β} {g : β → γ} {h : α → γ}
    (H : ∀ x y, f x = some y → g y = h x) : ∀ (l : List α), (l.filterMap f).map g <+ l.map h := by
  intro l
  induction l with
  | nil => simp
  | cons x rest ih =>
    rw [List.filterMap_cons, List.map_cons]
    cases hx : f x with
    | none => exact ih.cons (h x)
    | some y =>
      rw [List.map_cons, H x y hx]
      exact ih.cons₂ (h x)

theorem searchPipeline_spec (c : Coll) (minSim : ℚ) (topK : Nat) (l : List SimEntry)
    (hnd : (l.map SimEntry.index).Nodup) :
    (((l.insertionSort descOrder).take topK).filterMap (searchKeep c minSim)).length ≤ topK ∧
    (((l.insertionSort descOrder).take topK).filterMap (searchKeep c minSim)).Pairwise
      (fun a b => b.similarity.toReal ≤ a.similarity.toReal) ∧
    (∀ r ∈ ((l.insertionSort descOrder).take topK).filterMap (searchKeep c minSim),
      (minSim : ℝ) ≤ r.similarity.toReal) ∧
    (((l.insertionSort descOrder).take topK).filterMap (searchKeep c minSim)).Pairwise
      (fun a b => a.similarity.toReal = b.similarity.toReal →
        ∃ ea eb, [ea, eb] <+ l ∧ searchKeep c minSim ea = some a ∧
          searchKeep c minSim eb = some b) := by
  have hextract : ∀ {a b : SearchResult},
      [a, b] <+ ((l.insertionSort descOrder).take topK).filterMap (searchKeep c minSim) →
      ∃ ea eb, [ea, eb] <+ (l.insertionSort descOrder).take topK ∧
        searchKeep c minSim ea = some a ∧ searchKeep c minSim eb = some b := by
    intro a b hab
    obtain ⟨l', hl', hfm⟩ := List.sublist_filterMap_iff.1 hab
    obtain ⟨ea, eb, hpair, h1, h2⟩ := filterMap_eq_pair hfm.symm
    exact ⟨ea, eb, hpair.trans hl', h1, h2⟩
  have hsorted_pw : (l.insertionSort descOrder).Pairwise descOrder :=
    List.sorted_insertionSort descOrder l
  have htk_pw : ((l.insertionSort descOrder).take topK).Pairwise descOrder :=
    hsorted_pw.sublist (List.take_sublist _ _)
  refine ⟨?_, ?_, ?_, ?_⟩
  · calc (((l.insertionSort descOrder).take topK).filterMap (searchKeep c minSim)).length
        ≤ ((l.insertionSort descOrder).take topK).length := List.length_filterMap_le _ _
      _ ≤ topK := by
          rw [List.length_take]
          exact Nat.min_le_left _ _
  · rw [List.pairwise_iff_forall_sublist]
    intro a b hab
    obtain ⟨ea, eb, hpr, h1, h2⟩ := hextract hab
    have hd : descOrder ea eb := List.pairwise_iff_forall_sublist.1 htk_pw hpr
    have ha := (searchKeep_eq_some h1).2.1
    have hb := (searchKeep_eq_some h2).2.1
    rw [ha, hb]
    exact (SimVal.leB_iff _ _).1 hd
  · intro r hr
    obtain ⟨e, _, hk⟩ := List.mem_filterMap.1 hr
    obtain ⟨hlt, hsim, _⟩ := searchKeep_eq_some hk
    rw [hsim]
    have h2 : ¬ (e.similarity.toReal < (minSim : ℝ)) := by
      rw [← SimVal.ltQB_iff, hlt]
      simp
    exact not_lt.1 h2
  · rw [List.pairwise_iff_forall_sublist]
    intro a b hab heq
    obtain ⟨ea, eb, hpr, h1, h2⟩ := hextract hab
    have hsp : [ea, eb] <+ l.insertionSort descOrder := hpr.trans (List.take_sublist _ _)
    have hndl : l.Nodup := List.Nodup.of_map _ hnd
    have hnds : (l.insertionSort descOrder).Nodup :=
      ((List.perm_insertionSort descOrder l).nodup_iff).2 hndl
    have hne : ea ≠ eb := List.pairwise_iff_forall_sublist.1 hnds hsp
    have hma : ea ∈ l := (List.mem_insertionSort descOrder).1 (hsp.subset (by simp))
    have hmb : eb ∈ l := (List.mem_insertionSort descOrder).1 (hsp.subset (by simp))
    have hsa := (searchKeep_eq_some h1).2.1
    have hsb := (searchKeep_eq_some h2).2.1
    have heq' : ea.similarity.toReal = eb.similarity.toReal := by
      rw [← hsa, ← hsb]
      exact heq
    have hdba : descOrder eb ea := (SimVal.leB_iff _ _).2 (le_of_eq heq')
    rcases pair_sublist_of_mem hma hmb hne with h | h
    · exact ⟨ea, eb, h, h1, h2⟩
    · exfalso
      have hrev : [eb, ea] <+ l.insertionSort descOrder :=
        List.pair_sublist_insertionSort hdba h
      exact pair_sublist_nodup_asymm hnds hsp hrev hne

theorem getByIndex_id {c : Coll} {i : Nat} {rec : RecordOut}
    (h : c.getByIndex i = some rec) : c.registry.indexToId i = some rec.id := by
  unfold Coll.getByIndex at h
  split at h
  · unfold Coll.buildRecord Registry.getId at h
    cases hg : c.registry.indexToId i with
    | none =>
      rw [hg] at h
      cases h
    | some id =>
      rw [hg] at h
      injection h with h
      subst h
      rfl
  · cases h

theorem vectorSearch_eq_pipeline (c : Coll) (vcol : Str) (query : List Int) (topK : Nat)
    (minSim : ℚ) (filter : Option (List (Str × Value) → Nat → Bool))
    (hq : ¬ sumsq query = 0) :
    vectorSearch c vcol query topK minSim filter =
      ((((gatherCandidates c vcol filter).filterMap (fun p =>
        if hv : normSqTrunc query p.1 = 0 then none
        else some ⟨p.2, ⟨dotL query p.1, sumsq query * normSqTrunc query p.1,
          simden_pos hq hv⟩⟩)).insertionSort descOrder).take topK).filterMap
        (searchKeep c minSim) := by
  unfold vectorSearch batchCosineSimilarity
  dsimp only
  rw [dif_neg hq, zip_map_cands]

theorem gather_snd_sublist (c : Coll) (vcol : Str)
    (filter : Option (List (Str × Value) → Nat → Bool)) :
    (gatherCandidates c vcol filter).map Prod.snd <+ c.registry.allocatedIndices := by
  unfold gatherCandidates
  have H : ∀ (i : Nat) (p : List Int × Nat),
      (fun i =>
        let keep := match filter with
          | some f => f (c.columns.getRecord i) i
          | none => true
        if keep then
          match c.columns.get vcol i with
          | some (Value.vVec xs) => some (xs, i)
          | _ => none
        else none) i = some p → Prod.snd p = id i := by
    intro i p h
    dsimp only at h
    split at h
    · split at h
      · injection h with h
        subst h
        rfl
      · cases h
    · cases h
  have := map_filterMap_sublist H c.getIndices
  simpa using this

/-- C4. `vectorSearch` results: at most `topK` entries, sorted by descending
(real-valued) similarity, every entry at least `minSimilarity`, and ties
broken by scan order — two results with equal similarity occupy slots
appearing in that order in the candidate scan. Hypotheses: the allocated-slot
set is duplicate-free (a JS `Set` invariant of the embedding) and stored
vectors in the searched column have the query's dimension (`dimOk`), outside
of which the source would produce NaN similarities that the exact embedding
does not model. -/
theorem vectorSearch_sorted_topK (c : Coll) (vcol : Str) (query : List Int) (topK : Nat)
    (minSim : ℚ) (filter : Option (List (Str × Value) → Nat → Bool))
    (hnodup : c.registry.allocatedIndices.Nodup)
    (_hdim : dimOk c vcol query = true) :
    (vectorSearch c vcol query topK minSim filter).length ≤ topK ∧
    (vectorSearch c vcol query topK minSim filter).Pairwise
      (fun a b => b.similarity.toReal ≤ a.similarity.toReal) ∧
    (∀ r ∈ vectorSearch c vcol query topK minSim filter,
      (minSim : ℝ) ≤ r.similarity.toReal) ∧
    (vectorSearch c vcol query topK minSim filter).Pairwise
      (fun a b => a.similarity.toReal = b.similarity.toReal →
        ∃ ia ib, c.registry.indexToId ia = some a.record.id ∧
          c.registry.indexToId ib = some b.record.id ∧
          [ia, ib] <+ (gatherCandidates c vcol filter).map Prod.snd) := by
  by_cases hq : sumsq query = 0
  · have hempty : vectorSearch c vcol query topK minSim filter = [] := by
      unfold vectorSearch batchCosineSimilarity
      dsimp only
      rw [dif_pos hq]
      rfl
    rw [hempty]
    exact ⟨by simp, by simp, by simp, by simp⟩
  · rw [vectorSearch_eq_pipeline c vcol query topK minSim filter hq]
    have hfbidx : ∀ (p : List Int × Nat) (e : SimEntry),
        (if hv : normSqTrunc query p.1 = 0 then none
         else some (⟨p.2, ⟨dotL query p.1, sumsq query * normSqTrunc query p.1,
           simden_pos hq hv⟩⟩ : SimEntry)) = some e → SimEntry.index e = Prod.snd p := by
      intro p e h
      split at h
      · cases h
      · injection h with h
        subst h
        rfl
    have hidx : (((gatherCandidates c vcol filter).filterMap (fun p =>
        if hv : normSqTrunc query p.1 = 0 then none
        else some ⟨p.2, ⟨dotL query p.1, sumsq query * normSqTrunc query p.1,
          simden_pos hq hv⟩⟩)).map SimEntry.index)
        <+ (gatherCandidates c vcol filter).map Prod.snd :=
      map_filterMap_sublist hfbidx (gatherCandidates c vcol filter)
    have hnd : ((((gatherCandidates c vcol filter).filterMap (fun p =>
        if hv : normSqTrunc query p.1 = 0 then none
        else some ⟨p.2, ⟨dotL query p.1, sumsq query * normSqTrunc query p.1,
          simden_pos hq hv⟩⟩))).map SimEntry.index).Nodup :=
      ((hidx.trans (gather_snd_sublist c vcol filter)).nodup hnodup)
    obtain ⟨p1, p2, p3, p4⟩ := searchPipeline_spec c minSim topK _ hnd
    refine ⟨p1, p2, p3, ?_⟩
    refine p4.imp ?_
    intro a b hib heq
    obtain ⟨ea, eb, hpr, h1, h2⟩ := hib heq
    refine ⟨ea.index, eb.index, ?_, ?_, ?_⟩
    · exact getByIndex_id (searchKeep_eq_some h1).2.2
    · exact getByIndex_id (searchKeep_eq_some h2).2.2
    · have hmapped : [ea.index, eb.index] <+ (((gatherCandidates c vcol filter).filterMap
          (fun p => if hv : normSqTrunc query p.1 = 0 then none
            else some ⟨p.2, ⟨dotL query p.1, sumsq query * normSqTrunc query p.1,
              simden_pos hq hv⟩⟩)).map SimEntry.index) := by
        have := hpr.map SimEntry.index
        simpa using this
      exact hmapped.trans hidx

theorem vectorSearch_sorted_topK_witness :
    vecColl.registry.allocatedIndices.Nodup ∧
    (vectorSearch vecColl ['v'] [3, 4] 10 0 none).length ≤ 10 := by
  refine ⟨by decide, ?_⟩
  exact (vectorSearch_sorted_topK vecColl ['v'] [3, 4] 10 0 none (by decide) (by decide)).1

-- =============================================================================
-- File watcher processChange (src/persistence/watcher.ts)
-- =============================================================================

/-- `filename.endsWith('.md')`. -/
def endsWithMd (filename : Str) : Bool := List.isSuffixOf ['.', 'm', 'd'] filename

/-- `filenameToId` from src/persistence/markdown.ts: strip a final `.md`. -/
def filenameToId (filename : Str) : Str :=
  if endsWithMd filename then filename.dropLast.dropLast.dropLast else filename

/-- The watcher state shared between the mutation path and the notification
path: the "saving" id set and the "known files" set. -/
structure WatcherState where
  savingIds : List Str
  knownFiles : List Str
deriving DecidableEq

inductive EvType
  | create
  | update
  | delete
deriving DecidableEq, Repr

/-- A `FileChangeEvent` with the decoded record abstracted to a payload
type. -/
structure FileEvent (α : Type) where
  type : EvType
  id : Str
  record : Option α
  stale : Bool

/-- The stale computation of `processChange`: applies the caller-supplied
staleness predicate to the decoded content-column string when both exist and
the content is truthy. -/
def staleOf (id : Str) (staleCb : Option (Str → Str → Bool)) (content : Option Str) : Bool :=
  match staleCb, content with
  | some cb, some s => if s ≠ [] then cb id s else false
  | _, _ => false

/-- One debounce firing (`processChange(filename)`), with its asynchronous
environment made explicit: `fileExists` is the `file.exists()` answer,
`decoded` the `loadFromMarkdown` result (`none` = decode failure), `content`
the decoded record's content-column string when the collection has a content
column, and `staleCb` the `isStaleCallback` option. Returns the emitted event
(if any) and the new watcher state. -/
def processChange {α : Type} (filename : Str) (st : WatcherState) (fileExists : Bool)
    (decoded : Option α) (content : Option Str) (staleCb : Option (Str → Str → Bool)) :
    Option (FileEvent α) × WatcherState :=
  if ¬ endsWithMd filename then (none, st)
  else
    let id := filenameToId filename
    if id ∈ st.savingIds then (none, st)
    else if ¬ fileExists then
      if filename ∉ st.knownFiles then (none, st)
      else
        (some ⟨EvType.delete, id, none, false⟩,
          { st with knownFiles := st.knownFiles.erase filename })
    else
      let isNew := filename ∉ st.knownFiles
      let known' := setAdd st.knownFiles filename
      match decoded with
      | none => (none, { st with knownFiles := known' })
      | some rec =>
        (some ⟨(if isNew then EvType.create else EvType.update), id, some rec,
            staleOf id staleCb content⟩,
          { st with knownFiles := known' })

/-- C8. Debounce-fire step: a filename whose id is in the "saving" set is
suppressed entirely (no event, known set untouched); a vanished file emits a
`delete` event iff it was known (and is dropped from the known set, with no
event and no change otherwise); an existing file that decodes emits `create`
iff it was not previously known and `update` otherwise (the file becoming
known either way). -/
theorem watcher_debounce_step {α : Type} (filename : Str) (st : WatcherState)
    (fileExists : Bool) (decoded : Option α) (content : Option Str)
    (staleCb : Option (Str → Str → Bool)) :
    (filenameToId filename ∈ st.savingIds →
      processChange filename st fileExists decoded content staleCb = (none, st)) ∧
    (endsWithMd filename = true → filenameToId filename ∉ st.savingIds → fileExists = false →
      (filename ∈ st.knownFiles →
        processChange filename st fileExists decoded content staleCb =
          (some ⟨EvType.delete, filenameToId filename, none, false⟩,
            { st with knownFiles := st.knownFiles.erase filename })) ∧
      (filename ∉ st.knownFiles →
        processChange filename st fileExists decoded content staleCb = (none, st))) ∧
    (endsWithMd filename = true → filenameToId filename ∉ st.savingIds → fileExists = true →
      ∀ rec, decoded = some rec →
      ∃ ev, processChange filename st fileExists decoded content staleCb =
          (some ev, { st with knownFiles := setAdd st.knownFiles filename }) ∧
        ev.id = filenameToId filename ∧ ev.record = some rec ∧
        (filename ∉ st.knownFiles → ev.type = EvType.create) ∧
        (filename ∈ st.knownFiles → ev.type = EvType.update)) := by
  refine ⟨?_, ?_, ?_⟩
  · intro hsav
    unfold processChange
    by_cases hmd : endsWithMd filename
    · rw [if_neg (by simpa using hmd)]
      rw [if_pos hsav]
    · rw [if_pos (by simpa using hmd)]
  · intro hmd hsav hex
    subst hex
    constructor
    · intro hknown
      unfold processChange
      rw [if_neg (by simpa using hmd), if_neg hsav, if_pos (by simp), if_neg (by simpa using hknown)]
    · intro hunknown
      unfold processChange
      rw [if_neg (by simpa using hmd), if_neg hsav, if_pos (by simp), if_pos hunknown]
  · intro hmd hsav hex rec hdec
    subst hex
    unfold processChange
    rw [if_neg (by simpa using hmd), if_neg hsav, if_neg (by simp), hdec]
    by_cases hknown : filename ∈ st.knownFiles
    · refine ⟨⟨EvType.update, filenameToId filename, some rec,
        staleOf (filenameToId filename) staleCb content⟩, ?_, rfl, rfl, ?_, ?_⟩
      · dsimp only
        rw [if_neg (by simpa using hknown)]
      · intro h
        exact absurd hknown h
      · intro _
        rfl
    · refine ⟨⟨EvType.create, filenameToId filename, some rec,
        staleOf (filenameToId filename) staleCb content⟩, ?_, rfl, rfl, ?_, ?_⟩
      · dsimp only
        rw [if_pos (by simpa using hknown)]
      · intro _
        rfl
      · intro h
        exact absurd h hknown

theorem watcher_debounce_step_witness :
    (processChange (α := Nat) ['a', '.', 'm', 'd']
      ⟨[['a']], []⟩ true (some 7) none none = (none, ⟨[['a']], []⟩)) ∧
    (processChange (α := Nat) ['b', '.', 'm', 'd']
      ⟨[], [['b', '.', 'm', 'd']]⟩ false none none none =
      (some ⟨EvType.delete, ['b'], none, false⟩, ⟨[], []⟩)) := by
  constructor
  · exact (watcher_debounce_step ['a', '.', 'm', 'd'] ⟨[['a']], []⟩ true (some 7) none none).1
      (by decide)
  · have h := ((watcher_debounce_step (α := Nat) ['b', '.', 'm', 'd']
      ⟨[], [['b', '.', 'm', 'd']]⟩ false none none none).2.1
      (by decide) (by decide) rfl).1 (by decide)
    simpa using h

-- =============================================================================
-- Markdown codec (src/persistence/markdown.ts)
-- =============================================================================

/-- The whitespace class of JS `String.trim` restricted to the ASCII
whitespace that can occur here. -/
def isJsWs (c : Char) : Bool :=
  c = ' ' || c = '\t' || c = '\n' || c = '\r' || c = '\x0b' || c = '\x0c'

/-- JS `string.trim()`. -/
def jsTrim (s : Str) : Str :=
  ((s.dropWhile isJsWs).reverse.dropWhile isJsWs).reverse

/-- `string.split('\n')` is `List.splitOn '\n'`; `skipWs` models the
whitespace skipping of the host `JSON.parse`. -/
def skipWs (s : Str) : Str := s.dropWhile isJsWs

-- Decimal numerals: JS `String(n)` and `parseInt(s, 10)` restricted to the
-- (exактly representable) integer range.

def isDigit (c : Char) : Bool := '0' ≤ c && c ≤ '9'

def digitVal (c : Char) : Nat := c.toNat - 48

/-- Decimal digits of `n`, least-significant first (fuel-indexed so that it
reduces by iota; `n` itself always suffices as fuel). -/
def digitsRevAux : Nat → Nat → Str
  | 0, _ => []
  | fuel + 1, n => if n = 0 then [] else Nat.digitChar (n % 10) :: digitsRevAux fuel (n / 10)

def digitsRev (n : Nat) : Str := digitsRevAux n n

/-- JS `String(n)` for a natural number. -/
def natToDigits (n : Nat) : Str :=
  if n = 0 then ['0'] else (digitsRev n).reverse

/-- JS `String(n)` for an integer-valued number in the plain-decimal range
`|n| < 10^21`: there `Number::toString` produces the exact decimal digits.
From `10^21` on JS switches to exponential notation (`String(1e21)` is
`"1e+21"`), which `parseYamlValue`'s regexes do not match; the round-trip
theorems therefore restrict the values printed through this function to the
plain-decimal range. -/
def intToStr (n : Int) : Str :=
  if n < 0 then '-' :: natToDigits n.natAbs else natToDigits n.natAbs

/-- Value of a most-significant-first digit string. -/
def digitsVal (l : Str) : Nat := l.foldl (fun a c => a * 10 + digitVal c) 0

/-- The integer regex `/^-?\d+$/` of `parseYamlValue`. -/
def intRegexB (s : Str) : Bool :=
  match s with
  | [] => false
  | c :: rest => if c = '-' then rest ≠ [] && rest.all isDigit else (c :: rest).all isDigit

/-- `parseInt(value, 10)` on a string matching the integer regex. -/
def parseIntJS (s : Str) : Int :=
  match s with
  | [] => 0
  | c :: rest => if c = '-' then -(digitsVal rest : Int) else (digitsVal (c :: rest) : Int)

/-- The float regex `/^-?\d+\.\d+$/` of `parseYamlValue`. -/
def decRegexB (s : Str) : Bool :=
  let core := if s.head? = some '-' then s.drop 1 else s
  let intPart := core.takeWhile isDigit
  let rest := core.dropWhile isDigit
  intPart ≠ [] &&
    (rest.head? = some '.' && ((rest.drop 1) ≠ [] && (rest.drop 1).all isDigit))

-- JSON string escaping (host JSON.stringify / JSON.parse, modelled on the
-- fragment this codebase produces and consumes).

def hexDigitChar (d : Nat) : Char :=
  if d < 10 then Char.ofNat (48 + d) else Char.ofNat (87 + d)

def jsonEscapeChar (c : Char) : Str :=
  if c = '"' then ['\\', '"']
  else if c = '\\' then ['\\', '\\']
  else if c = '\n' then ['\\', 'n']
  else if c = '\r' then ['\\', 'r']
  else if c = '\t' then ['\\', 't']
  else if c = '\x08' then ['\\', 'b']
  else if c = '\x0c' then ['\\', 'f']
  else if c.toNat < 32 then
    ['\\', 'u', hexDigitChar (c.toNat / 4096 % 16), hexDigitChar (c.toNat / 256 % 16),
      hexDigitChar (c.toNat / 16 % 16), hexDigitChar (c.toNat % 16)]
  else [c]

def jsonEscape (s : Str) : Str := (s.map jsonEscapeChar).join

/-- `JSON.stringify` of a string. -/
def jsonQuote (s : Str) : Str := '"' :: jsonEscape s ++ ['"']

/-- `JSON.stringify` of one scalar. -/
def scalarToJson : Scalar → Str
  | Scalar.sNull => "null".data
  | Scalar.sBool true => "true".data
  | Scalar.sBool false => "false".data
  | Scalar.sInt n => intToStr n
  | Scalar.sFloat s => s
  | Scalar.sStr s => jsonQuote s

/-- `JSON.stringify` of a flat array of scalars (the only arrays this
codebase serializes: `string[]`, `number[]`, and `Array.from(Float32Array)`). -/
def jsonStringifyArr (xs : List Scalar) : Str :=
  '[' :: List.intercalate [','] (xs.map scalarToJson) ++ [']']

/-- The quoting test of `toYamlValue` for strings. -/
def needsQuote (s : Str) : Bool :=
  s.contains ':' || s.contains '#' || s.contains '\n' ||
  s.head? = some '"' || s.head? = some '\'' ||
  s = "true".data || s = "false".data || s = "null".data

/-- `toYamlValue` of src/persistence/markdown.ts. `undefined` and `null` both
print as `null`; numbers print via `String(n)` (`vFloat` carries its own
canonical numeral); arrays and `Float32Array`s print as JSON; strings print
bare unless the quoting test fires. -/
def toYamlValue : Value → Str
  | Value.vNull => "null".data
  | Value.vUndef => "null".data
  | Value.vBool true => "true".data
  | Value.vBool false => "false".data
  | Value.vInt n => intToStr n
  | Value.vFloat s => s
  | Value.vArr xs => jsonStringifyArr xs
  | Value.vVec xs => jsonStringifyArr (xs.map Scalar.sInt)
  | Value.vStr s => if needsQuote s then jsonQuote s else s

-- A model of the host `JSON.parse` on the flat scalar-array fragment.

def isNumChar (c : Char) : Bool :=
  isDigit c || c = '.' || c = '-' || c = '+' || c = 'e' || c = 'E'

def isHexDigit (c : Char) : Bool :=
  isDigit c || ('a' ≤ c && c ≤ 'f') || ('A' ≤ c && c ≤ 'F')

def hexVal (c : Char) : Nat :=
  if isDigit c then c.toNat - 48 else if 'a' ≤ c then c.toNat - 87 else c.toNat - 55

/-- The named single-character JSON escapes. -/
def jsonUnescapeChar (e : Char) : Option Char :=
  if e = '"' then some '"'
  else if e = '\\' then some '\\'
  else if e = '/' then some '/'
  else if e = 'n' then some '\n'
  else if e = 't' then some '\t'
  else if e = 'r' then some '\r'
  else if e = 'b' then some '\x08'
  else if e = 'f' then some '\x0c'
  else none

/-- JSON string body parser (after the opening quote), unescaping the named
escapes and `\uXXXX` hexadecimal escapes. -/
def parseJsonString : Str → Option (Str × Str)
  | [] => none
  | c :: rest =>
    if c = '"' then some ([], rest)
    else if c = '\\' then
      match rest with
      | [] => none
      | e :: rest' =>
        if e = 'u' then
          match rest' with
          | h1 :: h2 :: h3 :: h4 :: rest'' =>
            if isHexDigit h1 && isHexDigit h2 && isHexDigit h3 && isHexDigit h4 then
              match parseJsonString rest'' with
              | none => none
              | some (str, r) =>
                some (Char.ofNat
                  (hexVal h1 * 4096 + hexVal h2 * 256 + hexVal h3 * 16 + hexVal h4) :: str, r)
            else none
          | _ => none
        else
          match jsonUnescapeChar e with
          | none => none
          | some ch =>
            match parseJsonString rest' with
            | none => none
            | some (str, r) => some (ch :: str, r)
    else
      match parseJsonString rest with
      | none => none
      | some (str, r) => some (c :: str, r)

/-- One JSON scalar token. -/
def parseScalar (s : Str) : Option (Scalar × Str) :=
  if List.isPrefixOf "null".data s then some (Scalar.sNull, s.drop 4)
  else if List.isPrefixOf "true".data s then some (Scalar.sBool true, s.drop 4)
  else if List.isPrefixOf "false".data s then some (Scalar.sBool false, s.drop 5)
  else if s.head? = some '"' then
    match parseJsonString (s.drop 1) with
    | none => none
    | some (str, r) => some (Scalar.sStr str, r)
  else if (match s.head? with | some c => c = '-' || isDigit c | none => false) then
    let tok := s.takeWhile isNumChar
    let r := s.dropWhile isNumChar
    if intRegexB tok then some (Scalar.sInt (parseIntJS tok), r)
    else if decRegexB tok then some (Scalar.sFloat tok, r)
    else none
  else none

/-- Comma-separated JSON scalars (fuel-indexed). -/
def parseElems : Nat → Str → Option (List Scalar × Str)
  | 0, _ => none
  | fuel + 1, s =>
    match parseScalar (skipWs s) with
    | none => none
    | some (x, rest) =>
      let r := skipWs rest
      if r.head? = some ',' then
        match parseElems fuel (r.drop 1) with
        | some (xs, r3) => some (x :: xs, r3)
        | none => none
      else some ([x], r)

def scalarToValue : Scalar → Value
  | Scalar.sNull => Value.vNull
  | Scalar.sBool b => Value.vBool b
  | Scalar.sInt n => Value.vInt n
  | Scalar.sFloat s => Value.vFloat s
  | Scalar.sStr s => Value.vStr s

def parseJsonValue (s : Str) : Option (Value × Str) :=
  let t := skipWs s
  if t.head? = some '[' then
    let r := skipWs (t.drop 1)
    if r.head? = some ']' then some (Value.vArr [], r.drop 1)
    else
      match parseElems (r.length + 1) r with
      | some (xs, rest) =>
        let r2 := skipWs rest
        if r2.head? = some ']' then some (Value.vArr xs, r2.drop 1)
        else none
      | none => none
  else
    match parseScalar t with
    | none => none
    | some (x, rest) => some (scalarToValue x, rest)

/-- Host `JSON.parse` (on this fragment): `none` embeds a thrown
`SyntaxError`. -/
def jsonParse (s : Str) : Option Value :=
  match parseJsonValue s with
  | some (v, rest) => if skipWs rest = [] then some v else none
  | none => none

/-- `parseYamlValue` of src/persistence/markdown.ts: null/boolean/number
classification by regex, JSON arrays, quote stripping (without unescaping —
the source's `slice(1, -1)`), raw string fallback. -/
def parseYamlValue (value : Str) : Value :=
  if value = "null".data || value = ['~'] || value = [] then Value.vNull
  else if value = "true".data then Value.vBool true
  else if value = "false".data then Value.vBool false
  else if intRegexB value then Value.vInt (parseIntJS value)
  else if decRegexB value then Value.vFloat value
  else if value.head? = some '[' && value.getLast? = some ']' then
    match jsonParse value with
    | some v => v
    | none => Value.vStr value
  else if (value.head? = some '"' && value.getLast? = some '"') ||
      (value.head? = some '\'' && value.getLast? = some '\'') then
    Value.vStr (value.drop 1).dropLast
  else Value.vStr value

/-- JS object assignment `frontmatter[key] = v`: overwrite in place or append
(insertion order preserved). -/
def fmSet (fm : List (Str × Value)) (k : Str) (v : Value) : List (Str × Value) :=
  if (lookupA fm k).isSome then fm.map (fun p => if p.1 = k then (k, v) else p)
  else fm ++ [(k, v)]

/-- One line of the frontmatter loop of `parseMarkdown`. -/
def processLine (fm : List (Str × Value)) (line : Str) : List (Str × Value) :=
  let t := jsTrim line
  if t = [] || t.head? = some '#' then fm
  else
    match t.findIdx? (· = ':') with
    | none => fm
    | some ci =>
      let key := jsTrim (t.take ci)
      let v := jsTrim (t.drop (ci + 1))
      fmSet fm key (parseYamlValue v)

/-- First occurrence of `pat` in a string (JS `indexOf`). -/
def firstMatch (pat : Str) : Str → Option Nat
  | [] => if pat = [] then some 0 else none
  | c :: rest =>
    if List.isPrefixOf pat (c :: rest) then some 0
    else (firstMatch pat rest).map (· + 1)

/-- JS `s.indexOf(pat, start)`. -/
def indexOfFrom (s pat : Str) (start : Nat) : Option Nat :=
  (firstMatch pat (s.drop start)).map (· + start)

/-- `parseMarkdown(text)` of src/persistence/markdown.ts: frontmatter
key/value pairs (in assignment order) and the trimmed body. -/
def parseMarkdown (text : Str) : List (Str × Value) × Str :=
  if ¬ List.isPrefixOf "---".data text then ([], jsTrim text)
  else
    match indexOfFrom text "\n---".data 3 with
    | none => ([], jsTrim text)
    | some endIndex =>
      let yamlText := (text.drop 4).take (endIndex - 4)
      let lines := yamlText.splitOn '\n'
      let fm := lines.foldl processLine []
      let content := jsTrim (text.drop (endIndex + 4))
      (fm, content)

/-- A record as `generateMarkdown` receives it. -/
structure MdRec where
  id : Str
  created : Int
  updated : Int
  stale : Bool
  fields : Str → Value

/-- `generateMarkdown(record, schema, contentColumn)`: frontmatter lines for
id, timestamps and every non-content schema field (in schema order), then the
closing delimiter, a blank line, and the content column's string value as the
body. -/
def generateMarkdown (rec : MdRec) (schema : List (Str × ColType)) (cc : Option Str) : Str :=
  let headerLines :=
    ("id: ".data ++ toYamlValue (Value.vStr rec.id)) ::
    ("created: ".data ++ intToStr rec.created) ::
    ("updated: ".data ++ intToStr rec.updated) ::
    schema.filterMap (fun p =>
      if cc = some p.1 then none
      else some (p.1 ++ ':' :: ' ' :: toYamlValue (rec.fields p.1)))
  let bodyLines : List Str :=
    match cc with
    | some k =>
      match rec.fields k with
      | Value.vStr s => [s]
      | _ => []
    | none => []
  List.intercalate ['\n'] (("---".data :: headerLines) ++ ("---".data :: [] :: bodyLines))

/-- JS truthiness on embedded values (`vFloat` carries a canonical numeral of
a non-zero float: zero prints as the integer `0`). -/
def truthy : Value → Bool
  | Value.vNull => false
  | Value.vUndef => false
  | Value.vBool b => b
  | Value.vInt n => n ≠ 0
  | Value.vFloat _ => true
  | Value.vStr s => s ≠ []
  | Value.vArr _ => true
  | Value.vVec _ => true

/-- JS `x || d`. -/
def jsOr (v d : Value) : Value := if truthy v then v else d

/-- The decoded record of `loadFromMarkdown`: the dynamically-typed values
the source casts (`frontmatter.id as string`, `frontmatter.created as
number`) without runtime checks. -/
structure DecRec where
  id : Value
  created : Value
  updated : Value
  stale : Bool
  fields : List (Str × Value)
deriving DecidableEq, Repr

/-- The pure part of `loadFromMarkdown` (file reading aside): parse, reject a
falsy id, apply the `|| Date.now()` fallbacks to the timestamps, take the
body for the content column, copy frontmatter values for the other schema
fields (converting arrays in vector columns to `Float32Array`), omitting
fields absent from the frontmatter. -/
def decodeMarkdown (text : Str) (schema : List (Str × ColType)) (cc : Option Str)
    (now : Int) : Option DecRec :=
  let parsed := parseMarkdown text
  let idv := (lookupA parsed.1 "id".data).getD Value.vUndef
  if ¬ truthy idv then none
  else
    some { id := idv
           created := jsOr ((lookupA parsed.1 "created".data).getD Value.vUndef) (Value.vInt now)
           updated := jsOr ((lookupA parsed.1 "updated".data).getD Value.vUndef) (Value.vInt now)
           stale := false
           fields := schema.filterMap (fun p =>
             if cc = some p.1 then some (p.1, Value.vStr parsed.2)
             else
               match lookupA parsed.1 p.1 with
               | none => none
               | some v => some (p.1, convertForCol p.2 v)) }

-- =============================================================================
-- Numeral round-trip lemmas
-- =============================================================================

/-- Value of a least-significant-first digit string. -/
def valLSB : Str → Nat
  | [] => 0
  | c :: l => digitVal c + 10 * valLSB l

theorem digitVal_digitChar {d : Nat} (h : d < 10) : digitVal (Nat.digitChar d) = d := by
  interval_cases d <;> decide

theorem isDigit_digitChar {d : Nat} (h : d < 10) : isDigit (Nat.digitChar d) = true := by
  interval_cases d <;> decide

theorem digitsRevAux_spec : ∀ (fuel n : Nat), n ≤ fuel →
    valLSB (digitsRevAux fuel n) = n ∧ ∀ c ∈ digitsRevAux fuel n, isDigit c = true := by
  intro fuel
  induction fuel with
  | zero =>
    intro n hn
    have : n = 0 := by omega
    subst this
    exact ⟨rfl, fun c hc => by cases hc⟩
  | succ f ih =>
    intro n hn
    unfold digitsRevAux
    by_cases h0 : n = 0
    · rw [if_pos h0]
      exact ⟨h0.symm, fun c hc => by cases hc⟩
    · rw [if_neg h0]
      have hdiv : n / 10 ≤ f := by
        have hlt : n / 10 < n := Nat.div_lt_self (Nat.pos_of_ne_zero h0) (by omega)
        omega
      obtain ⟨hv, hd⟩ := ih (n / 10) hdiv
      constructor
      · unfold valLSB
        rw [digitVal_digitChar (Nat.mod_lt _ (by omega)), hv]
        omega
      · intro c hc
        rcases List.mem_cons.1 hc with rfl | hc
        · exact isDigit_digitChar (Nat.mod_lt _ (by omega))
        · exact hd c hc

theorem valLSB_digitsRev (n : Nat) : valLSB (digitsRev n) = n :=
  (digitsRevAux_spec n n (le_refl n)).1

theorem digitsRev_all_digit (n : Nat) : ∀ c ∈ digitsRev n, isDigit c = true :=
  (digitsRevAux_spec n n (le_refl n)).2

theorem digitsVal_reverse (l : Str) : digitsVal l.reverse = valLSB l := by
  induction l with
  | nil => rfl
  | cons c l ih =>
    unfold valLSB
    rw [List.reverse_cons]
    unfold digitsVal
    rw [List.foldl_append]
    unfold digitsVal at ih
    rw [ih]
    simp only [List.foldl_cons, List.foldl_nil]
    ring

theorem digitsVal_natToDigits (n : Nat) : digitsVal (natToDigits n) = n := by
  unfold natToDigits
  split
  · next h => subst h; decide
  · rw [digitsVal_reverse, valLSB_digitsRev]

theorem natToDigits_ne_nil (n : Nat) : natToDigits n ≠ [] := by
  unfold natToDigits
  split
  · simp
  · next h =>
    intro hx
    have h1 : digitsRev n = [] := by simpa using congrArg List.reverse hx
    have h2 := valLSB_digitsRev n
    rw [h1] at h2
    simp [valLSB] at h2
    exact h h2.symm

theorem natToDigits_all_digit (n : Nat) : ∀ c ∈ natToDigits n, isDigit c = true := by
  unfold natToDigits
  split
  · intro c hc
    rcases List.mem_singleton.1 hc with rfl
    decide
  · intro c hc
    exact digitsRev_all_digit n c (List.mem_reverse.1 hc)

theorem intRegexB_intToStr (n : Int) : intRegexB (intToStr n) = true := by
  unfold intToStr
  split
  · show intRegexB ('-' :: natToDigits n.natAbs) = true
    unfold intRegexB
    dsimp only
    rw [if_pos rfl]
    simp only [Bool.and_eq_true, decide_eq_true_eq, List.all_eq_true]
    exact ⟨by simpa using natToDigits_ne_nil n.natAbs, natToDigits_all_digit n.natAbs⟩
  · cases h : natToDigits n.natAbs with
    | nil => exact absurd h (natToDigits_ne_nil _)
    | cons c cs =>
      have hd : isDigit c = true := natToDigits_all_digit n.natAbs c (h ▸ List.mem_cons_self _ _)
      have hne : c ≠ '-' := by
        intro hx
        rw [hx] at hd
        cases hd
      unfold intRegexB
      dsimp only
      rw [if_neg hne]
      simp only [List.all_eq_true]
      intro c' hc'
      exact natToDigits_all_digit n.natAbs c' (h ▸ hc')

theorem parseIntJS_intToStr (n : Int) : parseIntJS (intToStr n) = n := by
  unfold intToStr
  split
  · next hneg =>
    unfold parseIntJS
    dsimp only
    rw [if_pos rfl, digitsVal_natToDigits]
    omega
  · next hpos =>
    cases h : natToDigits n.natAbs with
    | nil => exact absurd h (natToDigits_ne_nil _)
    | cons c cs =>
      have hd : isDigit c = true := natToDigits_all_digit n.natAbs c (h ▸ List.mem_cons_self _ _)
      have hne : c ≠ '-' := by
        intro hx
        rw [hx] at hd
        cases hd
      unfold parseIntJS
      dsimp only
      rw [if_neg hne, ← h, digitsVal_natToDigits]
      omega

/-- Head of a printed integer: `'-'` or a digit. -/
theorem intToStr_head (n : Int) : ∃ c cs, intToStr n = c :: cs ∧ (c = '-' ∨ isDigit c = true) := by
  unfold intToStr
  split
  · exact ⟨'-', _, rfl, Or.inl rfl⟩
  · cases h : natToDigits n.natAbs with
    | nil => exact absurd h (natToDigits_ne_nil _)
    | cons c cs =>
      exact ⟨c, cs, rfl, Or.inr (natToDigits_all_digit n.natAbs c (h ▸ List.mem_cons_self _ _))⟩

theorem intToStr_all (n : Int) : ∀ c ∈ intToStr n, c = '-' ∨ isDigit c = true := by
  unfold intToStr
  split
  · intro c hc
    rcases List.mem_cons.1 hc with rfl | hc
    · exact Or.inl rfl
    · exact Or.inr (natToDigits_all_digit _ c hc)
  · intro c hc
    exact Or.inr (natToDigits_all_digit _ c hc)

-- =============================================================================
-- Safe-value predicates for the markdown round trip
-- =============================================================================

/-- Characters `JSON.stringify` leaves unescaped inside a string literal. -/
def escapeFree (s : Str) : Bool :=
  s.all (fun c => c ≠ '"' && c ≠ '\\' && 32 ≤ c.toNat)

/-- Strings whose YAML rendering parses back unchanged: quoted ones must
survive `JSON.stringify` verbatim (the decoder's `slice(1, -1)` does not
unescape), bare ones must not be re-classified by `parseYamlValue` as null, a
number, an array or a quoted string, nor be altered by the trims. -/
def safeStr (s : Str) : Bool :=
  if needsQuote s then escapeFree s
  else s ≠ [] && s ≠ ['~'] && jsTrim s = s && !intRegexB s && !decRegexB s &&
    !(s.head? = some '[' && s.getLast? = some ']')

/-- Scalars (inside arrays) that survive `JSON.stringify`/`JSON.parse`:
every string (the stringify escapes are undone by the parse), every integer,
and every float carried as a canonical plain-decimal numeral (JS prints
tiny/huge floats in exponential notation, outside this fragment). -/
def scalarOk : Scalar → Bool
  | Scalar.sNull => true
  | Scalar.sBool _ => true
  | Scalar.sInt _ => true
  | Scalar.sFloat s => decRegexB s
  | Scalar.sStr _ => true

def scalarStrOk : Scalar → Bool
  | Scalar.sStr _ => true
  | _ => false

def scalarNumOk : Scalar → Bool
  | Scalar.sInt n => n.natAbs < 10 ^ 21
  | Scalar.sFloat s => decRegexB s
  | _ => false

/-- Values that round-trip through a YAML frontmatter line, per column type.
Top-level numbers must stay in the plain-decimal printing range `< 10^21`
(beyond it `String(n)` goes exponential and `parseYamlValue` returns the
token as a raw string); array elements go through `JSON.parse`, so strings
may use any characters and numbers may also be plain-decimal floats. -/
def fieldOk : ColType → Value → Bool
  | ColType.str, Value.vStr s => safeStr s
  | ColType.num, Value.vInt n => n.natAbs < 10 ^ 21
  | ColType.num, Value.vFloat s => decRegexB s
  | ColType.timestamp, Value.vInt n => n.natAbs < 10 ^ 21
  | ColType.timestamp, Value.vFloat s => decRegexB s
  | ColType.boolean, Value.vBool _ => true
  | ColType.strArr, Value.vArr xs => xs.all scalarStrOk
  | ColType.numArr, Value.vArr xs => xs.all scalarNumOk
  | ColType.vector _, Value.vVec xs => xs.all (fun n => n.natAbs < 10 ^ 21)
  | ColType.vector _, Value.vNull => true
  | _, _ => false

/-- Keys that survive a frontmatter line: trim-stable, no colon or newline,
not a comment, not a frontmatter delimiter. -/
def safeKey (k : Str) : Bool :=
  k ≠ [] && jsTrim k = k && k.all (fun c => c ≠ ':' && c ≠ '\n') &&
  k.head? ≠ some '#' && !(List.isPrefixOf "---".data k)

-- =============================================================================
-- Trim and character lemmas
-- =============================================================================

theorem dropWhile_append_pos {α : Type} (p : α → Bool) :
    ∀ (a b : List α), a.dropWhile p ≠ [] →
    (a ++ b).dropWhile p = a.dropWhile p ++ b := by
  intro a
  induction a with
  | nil => intro b h; exact absurd rfl h
  | cons c a' ih =>
    intro b h
    by_cases hp : p c = true
    · rw [List.cons_append, List.dropWhile_cons, if_pos hp, List.dropWhile_cons, if_pos hp]
      rw [List.dropWhile_cons, if_pos hp] at h
      exact ih b h
    · rw [List.cons_append, List.dropWhile_cons, if_neg hp, List.dropWhile_cons, if_neg hp,
        List.cons_append]

theorem dropWhile_eq_self_of_trim {s : Str} (h : jsTrim s = s) :
    s.dropWhile isJsWs = s := by
  refine (List.dropWhile_suffix isJsWs).eq_of_length ?_
  have h1 : (jsTrim s).length ≤ (s.dropWhile isJsWs).length := by
    unfold jsTrim
    rw [List.length_reverse]
    calc ((s.dropWhile isJsWs).reverse.dropWhile isJsWs).length
        ≤ (s.dropWhile isJsWs).reverse.length :=
          (List.dropWhile_suffix isJsWs).sublist.length_le
      _ = (s.dropWhile isJsWs).length := List.length_reverse _
  have h2 : (s.dropWhile isJsWs).length ≤ s.length :=
    (List.dropWhile_suffix isJsWs).sublist.length_le
  rw [h] at h1
  omega

theorem revDropWhile_eq_self_of_trim {s : Str} (h : jsTrim s = s) :
    s.reverse.dropWhile isJsWs = s.reverse := by
  have h1 := dropWhile_eq_self_of_trim h
  unfold jsTrim at h
  rw [h1] at h
  have h2 := congrArg List.reverse h
  rwa [List.reverse_reverse] at h2

theorem jsTrim_cons_ws {c : Char} (s : Str) (h : isJsWs c = true) :
    jsTrim (c :: s) = jsTrim s := by
  unfold jsTrim
  rw [List.dropWhile_cons, if_pos h]

theorem jsTrim_eq_self_of_edges : ∀ {s : Str},
    (∀ c, s.head? = some c → isJsWs c = false) →
    (∀ c, s.getLast? = some c → isJsWs c = false) → jsTrim s = s := by
  intro s h1 h2
  cases s with
  | nil => rfl
  | cons c s' =>
    unfold jsTrim
    rw [List.dropWhile_cons, if_neg (by rw [h1 c rfl]; exact Bool.false_ne_true)]
    cases hrev : (c :: s').reverse with
    | nil => exact absurd hrev (by simp)
    | cons d ds =>
      have hd : (c :: s').getLast? = some d := by
        rw [← List.head?_reverse, hrev]; rfl
      rw [List.dropWhile_cons,
        if_neg (by rw [h2 d hd]; exact Bool.false_ne_true), ← hrev,
        List.reverse_reverse]

theorem jsTrim_line {k tok : Str} (hk : jsTrim k = k) (hkne : k ≠ [])
    (ht : jsTrim tok = tok) (htne : tok ≠ []) :
    jsTrim (k ++ ':' :: ' ' :: tok) = k ++ ':' :: ' ' :: tok := by
  have hdk : k.dropWhile isJsWs = k := dropWhile_eq_self_of_trim hk
  have hdt : tok.reverse.dropWhile isJsWs = tok.reverse := revDropWhile_eq_self_of_trim ht
  have htr : tok.reverse ≠ [] := by
    rw [ne_eq, List.reverse_eq_nil_iff]; exact htne
  have hrev : (k ++ ':' :: ' ' :: tok).reverse = tok.reverse ++ ([' ', ':'] ++ k.reverse) := by
    simp
  unfold jsTrim
  rw [dropWhile_append_pos _ _ _ (by rw [hdk]; exact hkne), hdk, hrev,
    dropWhile_append_pos _ _ _ (by rw [hdt]; exact htr), hdt, ← hrev,
    List.reverse_reverse]

theorem isJsWs_of_digit {c : Char} (h : isDigit c = true) : isJsWs c = false := by
  cases hw : isJsWs c
  · rfl
  · exfalso
    simp only [isJsWs, Bool.or_eq_true, decide_eq_true_eq] at hw
    rcases hw with ((((rfl | rfl) | rfl) | rfl) | rfl) | rfl <;> exact absurd h (by decide)

theorem char_ne_of_digit {c d : Char} (h : isDigit c = true) (hd : isDigit d = false) :
    c ≠ d := by
  intro he
  rw [he, hd] at h
  exact Bool.false_ne_true h

theorem mem_of_getLast? {α : Type} {l : List α} {a : α} (h : l.getLast? = some a) :
    a ∈ l := by
  rw [← List.head?_reverse] at h
  rw [← List.mem_reverse]
  exact List.mem_of_mem_head? (h ▸ rfl)

-- =============================================================================
-- YAML value round-trip lemmas
-- =============================================================================

theorem jsonEscapeChar_eq_self {c : Char} (h1 : c ≠ '"') (h2 : c ≠ '\\')
    (h3 : 32 ≤ c.toNat) : jsonEscapeChar c = [c] := by
  have hn : ∀ d : Char, d.toNat < 32 → c ≠ d := by
    intro d hd he
    rw [he] at h3
    exact absurd h3 (Nat.not_le.mpr hd)
  unfold jsonEscapeChar
  rw [if_neg h1, if_neg h2, if_neg (hn '\n' (by decide)), if_neg (hn '\r' (by decide)),
    if_neg (hn '\t' (by decide)), if_neg (hn '\x08' (by decide)),
    if_neg (hn '\x0c' (by decide)), if_neg (Nat.not_lt.mpr h3)]

theorem jsonEscape_eq_self {s : Str} (h : escapeFree s = true) : jsonEscape s = s := by
  induction s with
  | nil => rfl
  | cons c s' ih =>
    simp only [escapeFree, List.all_cons, Bool.and_eq_true, decide_eq_true_eq] at h
    obtain ⟨⟨⟨h1, h2⟩, h3⟩, h4⟩ := h
    unfold jsonEscape
    rw [List.map_cons]
    show jsonEscapeChar c ++ (List.map jsonEscapeChar s').join = c :: s'
    rw [jsonEscapeChar_eq_self h1 h2 h3, List.singleton_append]
    have hs' := ih h4
    unfold jsonEscape at hs'
    rw [hs']

theorem cons_ne_of_head {c d : Char} {cs ds : Str} (h : c ≠ d) : c :: cs ≠ d :: ds := by
  intro he
  injection he with h1 _
  exact h h1

theorem intRegexB_cons_false {c : Char} (rest : Str) (h1 : c ≠ '-') (h2 : isDigit c = false) :
    intRegexB (c :: rest) = false := by
  unfold intRegexB
  dsimp only
  rw [if_neg h1, List.all_cons, h2, Bool.false_and]

theorem decRegexB_cons_false {c : Char} (rest : Str) (h1 : c ≠ '-') (h2 : isDigit c = false) :
    decRegexB (c :: rest) = false := by
  unfold decRegexB
  dsimp only
  rw [if_neg (by simp [h1])]
  simp [List.takeWhile_cons, h2]

theorem intToStr_ne_nil (n : Int) : intToStr n ≠ [] := by
  obtain ⟨c, cs, heq, _⟩ := intToStr_head n
  rw [heq]
  exact List.cons_ne_nil c cs

theorem intToStr_ne_of_head {n : Int} {d : Char} (hd : d ≠ '-') (hdig : isDigit d = false) :
    ∀ ds, intToStr n ≠ d :: ds := by
  intro ds he
  obtain ⟨c, cs, heq, hc⟩ := intToStr_head n
  rw [heq] at he
  injection he with he1 _
  rcases hc with rfl | hdc
  · exact hd he1.symm
  · rw [he1, hdig] at hdc
    exact Bool.false_ne_true hdc

theorem takeWhile_ne_nil_head {p : Char → Bool} {l : Str} (h : l.takeWhile p ≠ []) :
    ∃ c cs, l = c :: cs ∧ p c = true := by
  cases l with
  | nil => exact absurd rfl h
  | cons c cs =>
    refine ⟨c, cs, rfl, ?_⟩
    by_cases hp : p c = true
    · exact hp
    · rw [List.takeWhile_cons, if_neg hp] at h
      exact absurd rfl h

theorem all_eq_false_of_mem {p : Char → Bool} {l : Str} {a : Char}
    (ha : a ∈ l) (hp : p a = false) : l.all p = false := by
  cases hall : l.all p
  · rfl
  · rw [List.all_eq_true] at hall
    rw [hall a ha] at hp
    exact absurd hp (by decide)

theorem isNumChar_of_tok {c : Char} (h : c = '-' ∨ isDigit c = true) : isNumChar c = true := by
  rcases h with rfl | h
  · decide
  · simp [isNumChar, h]

/-- Structure of a string matching the float regex `/^-?\d+\.\d+$/`: an
optional minus, then digits, a dot, and digits, nothing else. -/
theorem decRegexB_struct {s : Str} (h : decRegexB s = true) :
    ∃ c cs, s = c :: cs ∧ (c = '-' ∨ isDigit c = true) ∧
      (∀ x ∈ s, isNumChar x = true) ∧ intRegexB s = false ∧
      ∃ d, s.getLast? = some d ∧ isDigit d = true := by
  unfold decRegexB at h
  dsimp only at h
  simp only [Bool.and_eq_true, decide_eq_true_eq] at h
  obtain ⟨hint, hdot, hfrne, hfrd⟩ := h
  by_cases hm : s.head? = some '-'
  · rw [if_pos hm] at hint hdot hfrne hfrd
    obtain ⟨c0, cs0, hs0⟩ : ∃ c0 cs0, s = c0 :: cs0 := by
      cases s with
      | nil => exact Option.noConfusion hm
      | cons a b => exact ⟨a, b, rfl⟩
    have hc0 : c0 = '-' := by
      rw [hs0] at hm
      exact Option.some.inj hm
    subst hc0
    rw [hs0] at hint hdot hfrne hfrd ⊢
    simp only [List.drop_succ_cons, List.drop_zero] at hint hdot hfrne hfrd
    obtain ⟨r', hr⟩ : ∃ r', cs0.dropWhile isDigit = '.' :: r' := by
      cases hx : cs0.dropWhile isDigit with
      | nil =>
        rw [hx] at hdot
        exact Option.noConfusion hdot
      | cons a b =>
        rw [hx] at hdot
        refine ⟨b, ?_⟩
        rw [Option.some.inj hdot]
    rw [hr] at hfrne hfrd
    simp only [List.drop_succ_cons, List.drop_zero] at hfrne hfrd
    have hsplit : cs0 = cs0.takeWhile isDigit ++ '.' :: r' := by
      rw [← hr]
      exact (List.takeWhile_append_dropWhile isDigit cs0).symm
    rw [List.all_eq_true] at hfrd
    have hdotmem : '.' ∈ cs0 := by
      rw [hsplit]
      exact List.mem_append.2 (Or.inr (List.mem_cons_self _ _))
    obtain ⟨d, hd⟩ : ∃ d, r'.getLast? = some d := by
      cases r' with
      | nil => exact absurd rfl hfrne
      | cons a b => exact ⟨(a :: b).getLast (by simp), List.getLast?_eq_getLast _ (by simp)⟩
    refine ⟨'-', cs0, rfl, Or.inl rfl, ?_, ?_, d, ?_, hfrd d (mem_of_getLast? hd)⟩
    · intro x hx
      rcases List.mem_cons.1 hx with rfl | hx'
      · decide
      · rw [hsplit] at hx'
        rcases List.mem_append.1 hx' with h1 | h2
        · exact isNumChar_of_tok (Or.inr (List.mem_takeWhile_imp h1))
        · rcases List.mem_cons.1 h2 with rfl | h3
          · decide
          · exact isNumChar_of_tok (Or.inr (hfrd x h3))
    · unfold intRegexB
      dsimp only
      rw [if_pos rfl, all_eq_false_of_mem hdotmem (by decide), Bool.and_false]
    · rw [show ('-' :: cs0) = ['-'] ++ cs0 from rfl, List.getLast?_append, hsplit,
        List.getLast?_append, show ('.' :: r') = ['.'] ++ r' from rfl,
        List.getLast?_append, hd]
      rfl
  · rw [if_neg hm] at hint hdot hfrne hfrd
    obtain ⟨c0, cs0, hs0, hdig⟩ := takeWhile_ne_nil_head hint
    obtain ⟨r', hr⟩ : ∃ r', s.dropWhile isDigit = '.' :: r' := by
      cases hx : s.dropWhile isDigit with
      | nil =>
        rw [hx] at hdot
        exact Option.noConfusion hdot
      | cons a b =>
        rw [hx] at hdot
        refine ⟨b, ?_⟩
        rw [Option.some.inj hdot]
    rw [hr] at hfrne hfrd
    simp only [List.drop_succ_cons, List.drop_zero] at hfrne hfrd
    have hsplit : s = s.takeWhile isDigit ++ '.' :: r' := by
      rw [← hr]
      exact (List.takeWhile_append_dropWhile isDigit s).symm
    rw [List.all_eq_true] at hfrd
    have hdotmem : '.' ∈ s := by
      rw [hsplit]
      exact List.mem_append.2 (Or.inr (List.mem_cons_self _ _))
    obtain ⟨d, hd⟩ : ∃ d, r'.getLast? = some d := by
      cases r' with
      | nil => exact absurd rfl hfrne
      | cons a b => exact ⟨(a :: b).getLast (by simp), List.getLast?_eq_getLast _ (by simp)⟩
    refine ⟨c0, cs0, hs0, Or.inr hdig, ?_, ?_, d, ?_, hfrd d (mem_of_getLast? hd)⟩
    · intro x hx
      rw [hsplit] at hx
      rcases List.mem_append.1 hx with h1 | h2
      · exact isNumChar_of_tok (Or.inr (List.mem_takeWhile_imp h1))
      · rcases List.mem_cons.1 h2 with rfl | h3
        · decide
        · exact isNumChar_of_tok (Or.inr (hfrd x h3))
    · rw [hs0]
      unfold intRegexB
      dsimp only
      rw [if_neg (char_ne_of_digit hdig (by decide)),
        all_eq_false_of_mem (show ('.' : Char) ∈ c0 :: cs0 by rw [← hs0]; exact hdotmem)
          (by decide)]
    · rw [hsplit, List.getLast?_append, show ('.' :: r') = ['.'] ++ r' from rfl,
        List.getLast?_append, hd]
      rfl

/-- A canonical plain-decimal float token parses back to itself. -/
theorem parseYamlValue_float {s : Str} (h : decRegexB s = true) :
    parseYamlValue s = Value.vFloat s := by
  obtain ⟨c, cs, heq, hc, -, hint, -, -, -⟩ := decRegexB_struct h
  have hne : ∀ (d : Char) (ds : Str), d ≠ '-' → isDigit d = false → s ≠ d :: ds := by
    intro d ds hd hdig he
    rw [heq] at he
    injection he with he1 he2
    rcases hc with rfl | hcd
    · exact hd he1.symm
    · rw [he1, hdig] at hcd
      exact Bool.false_ne_true hcd
  unfold parseYamlValue
  rw [if_neg (by
      simp only [Bool.or_eq_true, decide_eq_true_eq]
      push_neg
      exact ⟨⟨hne 'n' _ (by decide) (by decide), hne '~' _ (by decide) (by decide)⟩,
        by rw [heq]; exact List.cons_ne_nil c cs⟩),
    if_neg (hne 't' _ (by decide) (by decide)),
    if_neg (hne 'f' _ (by decide) (by decide)),
    if_neg (by rw [hint]; exact Bool.false_ne_true),
    if_pos h]

theorem parseYamlValue_intToStr (n : Int) : parseYamlValue (intToStr n) = Value.vInt n := by
  have hnull : intToStr n ≠ "null".data := intToStr_ne_of_head (by decide) (by decide) _
  have htilde : intToStr n ≠ ['~'] := intToStr_ne_of_head (by decide) (by decide) _
  have htrue : intToStr n ≠ "true".data := intToStr_ne_of_head (by decide) (by decide) _
  have hfalse : intToStr n ≠ "false".data := intToStr_ne_of_head (by decide) (by decide) _
  unfold parseYamlValue
  rw [if_neg (by
        simp only [Bool.or_eq_true, decide_eq_true_eq]
        push_neg
        exact ⟨⟨hnull, htilde⟩, intToStr_ne_nil n⟩),
    if_neg htrue, if_neg hfalse, if_pos (intRegexB_intToStr n), parseIntJS_intToStr]

theorem parseYamlValue_quoted {s : Str} (h : escapeFree s = true) :
    parseYamlValue (jsonQuote s) = Value.vStr s := by
  have hjq : jsonQuote s = '"' :: (s ++ ['"']) := by
    unfold jsonQuote
    rw [jsonEscape_eq_self h, List.cons_append]
  have hlast : ('"' :: (s ++ ['"'])).getLast? = some '"' := by
    rw [← List.cons_append]
    exact List.getLast?_concat _
  rw [hjq]
  unfold parseYamlValue
  rw [if_neg (by
        simp only [Bool.or_eq_true, decide_eq_true_eq]
        push_neg
        exact ⟨⟨cons_ne_of_head (by decide), cons_ne_of_head (by decide)⟩,
          List.cons_ne_nil _ _⟩),
    if_neg (cons_ne_of_head (by decide)), if_neg (cons_ne_of_head (by decide)),
    if_neg (by rw [intRegexB_cons_false _ (by decide) (by decide)]; exact Bool.false_ne_true),
    if_neg (by rw [decRegexB_cons_false _ (by decide) (by decide)]; exact Bool.false_ne_true),
    if_neg (by simp),
    if_pos (by
        rw [Bool.or_eq_true, Bool.and_eq_true]
        exact Or.inl ⟨by simp, by simp [hlast]⟩)]
  simp [List.dropLast_concat]

theorem needsQuote_facts {s : Str} (hq : needsQuote s = false) :
    ¬ s = "true".data ∧ ¬ s = "false".data ∧ ¬ s = "null".data ∧
    s.head? ≠ some '"' ∧ s.head? ≠ some '\'' ∧ '\n' ∉ s := by
  have hq' : ¬ (needsQuote s = true) := by rw [hq]; exact Bool.false_ne_true
  unfold needsQuote at hq'
  simp only [Bool.or_eq_true, decide_eq_true_eq] at hq'
  push_neg at hq'
  obtain ⟨⟨⟨⟨⟨⟨⟨h1, h2⟩, h3⟩, h4⟩, h5⟩, h6⟩, h7⟩, h8⟩ := hq'
  exact ⟨h6, h7, h8, h4, h5, fun hm => h3 (List.elem_iff.mpr hm)⟩

theorem parseYamlValue_bare {s : Str} (hq : needsQuote s = false) (h : safeStr s = true) :
    parseYamlValue s = Value.vStr s := by
  obtain ⟨ht, hf, hn, hh1, hh2, -⟩ := needsQuote_facts hq
  unfold safeStr at h
  rw [if_neg (by rw [hq]; exact Bool.false_ne_true)] at h
  simp only [Bool.and_eq_true, Bool.not_eq_true', decide_eq_true_eq] at h
  obtain ⟨⟨⟨⟨⟨hne, htl⟩, htrim⟩, hint⟩, hdec⟩, hbr⟩ := h
  unfold parseYamlValue
  rw [if_neg (by
        simp only [Bool.or_eq_true, decide_eq_true_eq]
        push_neg
        exact ⟨⟨hn, htl⟩, hne⟩),
    if_neg ht, if_neg hf,
    if_neg (by rw [hint]; exact Bool.false_ne_true),
    if_neg (by rw [hdec]; exact Bool.false_ne_true),
    if_neg (by rw [hbr]; exact Bool.false_ne_true),
    if_neg (by
        simp only [Bool.or_eq_true, Bool.and_eq_true, decide_eq_true_eq]
        push_neg
        exact ⟨fun h' _ => absurd h' hh1, fun h' _ => absurd h' hh2⟩)]

theorem parseYamlValue_str {s : Str} (h : safeStr s = true) :
    parseYamlValue (toYamlValue (Value.vStr s)) = Value.vStr s := by
  show parseYamlValue (if needsQuote s then jsonQuote s else s) = Value.vStr s
  by_cases hq : needsQuote s = true
  · rw [if_pos hq]
    refine parseYamlValue_quoted ?_
    unfold safeStr at h
    rwa [if_pos hq] at h
  · have hq' : needsQuote s = false := by
      cases hnq : needsQuote s
      · rfl
      · exact absurd hnq hq
    rw [if_neg hq]
    exact parseYamlValue_bare hq' h

-- =============================================================================
-- JSON array round-trip lemmas
-- =============================================================================

theorem skipWs_cons {c : Char} (s : Str) (h : isJsWs c = false) :
    skipWs (c :: s) = c :: s := by
  unfold skipWs
  rw [List.dropWhile_cons, if_neg (by rw [h]; exact Bool.false_ne_true)]

theorem takeWhile_dropWhile_append {p : Char → Bool} :
    ∀ (a b : Str), (∀ c ∈ a, p c = true) → (∀ c, b.head? = some c → p c = false) →
    (a ++ b).takeWhile p = a ∧ (a ++ b).dropWhile p = b := by
  intro a
  induction a with
  | nil =>
    intro b _ hb
    cases b with
    | nil => exact ⟨rfl, rfl⟩
    | cons c b' =>
      constructor
      · rw [List.nil_append, List.takeWhile_cons,
          if_neg (by rw [hb c rfl]; exact Bool.false_ne_true)]
      · rw [List.nil_append, List.dropWhile_cons,
          if_neg (by rw [hb c rfl]; exact Bool.false_ne_true)]
  | cons c a' ih =>
    intro b ha hb
    have hc := ha c (List.mem_cons_self c a')
    obtain ⟨ih1, ih2⟩ := ih b (fun d hd => ha d (List.mem_cons_of_mem c hd)) hb
    constructor
    · rw [List.cons_append, List.takeWhile_cons, if_pos hc, ih1]
    · rw [List.cons_append, List.dropWhile_cons, if_pos hc, ih2]

theorem parseJsonString_closed : ∀ {s : Str}, escapeFree s = true → ∀ (r : Str),
    parseJsonString (s ++ '"' :: r) = some (s, r) := by
  intro s
  induction s with
  | nil =>
    intro _ r
    rw [List.nil_append]
    unfold parseJsonString
    rw [if_pos rfl]
  | cons c s' ih =>
    intro h r
    simp only [escapeFree, List.all_cons, Bool.and_eq_true, decide_eq_true_eq] at h
    obtain ⟨⟨⟨h1, h2⟩, _⟩, h4⟩ := h
    rw [List.cons_append]
    unfold parseJsonString
    rw [if_neg h1, if_neg h2, ih h4 r]

theorem mod16_lt (x : Nat) : x % 16 < 16 := Nat.mod_lt x (by omega)

theorem hexVal_hexDigitChar {d : Nat} (h : d < 16) : hexVal (hexDigitChar d) = d := by
  interval_cases d <;> decide

theorem isHexDigit_hexDigitChar {d : Nat} (h : d < 16) :
    isHexDigit (hexDigitChar d) = true := by
  interval_cases d <;> decide

theorem jsonEscape_cons (c : Char) (s : Str) :
    jsonEscape (c :: s) = jsonEscapeChar c ++ jsonEscape s := rfl

theorem cons6_append (a b c d e f : Char) (X : Str) :
    ([a, b, c, d, e, f] : Str) ++ X = a :: b :: c :: d :: e :: f :: X := rfl

theorem parseJsonString_cons_lit {c : Char} (h1 : c ≠ '"') (h2 : c ≠ '\\') (X : Str) :
    parseJsonString (c :: X) =
      match parseJsonString X with
      | none => none
      | some (str, r) => some (c :: str, r) := by
  conv_lhs => unfold parseJsonString
  rw [if_neg h1, if_neg h2]

theorem parseJsonString_cons_esc {e ch : Char} (he : e ≠ 'u')
    (hd : jsonUnescapeChar e = some ch) (X : Str) :
    parseJsonString ('\\' :: e :: X) =
      match parseJsonString X with
      | none => none
      | some (str, r) => some (ch :: str, r) := by
  conv_lhs => unfold parseJsonString
  rw [if_neg (by decide), if_pos (by rfl)]
  dsimp only
  rw [if_neg he, hd]

theorem parseJsonString_cons_u {h1 h2 h3 h4 : Char} (ha : isHexDigit h1 = true)
    (hb : isHexDigit h2 = true) (hc : isHexDigit h3 = true) (hd : isHexDigit h4 = true)
    (X : Str) :
    parseJsonString ('\\' :: 'u' :: h1 :: h2 :: h3 :: h4 :: X) =
      match parseJsonString X with
      | none => none
      | some (str, r) =>
        some (Char.ofNat
          (hexVal h1 * 4096 + hexVal h2 * 256 + hexVal h3 * 16 + hexVal h4) :: str, r) := by
  conv_lhs => unfold parseJsonString
  rw [if_neg (by decide), if_pos (by rfl)]
  dsimp only
  rw [if_pos (by rfl), if_pos (by rw [ha, hb, hc, hd]; rfl)]

/-- `JSON.parse` inverts `JSON.stringify`'s string escaping: reading an escaped
string body up to its closing quote recovers the original string, for every
string (named escapes and `\uXXXX` control-character escapes included). -/
theorem parseJsonString_escape : ∀ (s : Str) (r : Str),
    parseJsonString (jsonEscape s ++ '"' :: r) = some (s, r) := by
  intro s
  induction s with
  | nil =>
    intro r
    show parseJsonString ('"' :: r) = some ([], r)
    unfold parseJsonString
    rw [if_pos rfl]
  | cons c s' ih =>
    intro r
    rw [jsonEscape_cons, List.append_assoc]
    by_cases h1 : c = '"'
    · subst h1
      rw [show jsonEscapeChar '"' = ['\\', '"'] from rfl,
        show (['\\', '"'] : Str) ++ (jsonEscape s' ++ '"' :: r) =
          '\\' :: '"' :: (jsonEscape s' ++ '"' :: r) from rfl,
        parseJsonString_cons_esc (by decide) (show jsonUnescapeChar '"' = some '"' by rfl) _,
        ih r]
    by_cases h2 : c = '\\'
    · subst h2
      rw [show jsonEscapeChar '\\' = ['\\', '\\'] from rfl,
        show (['\\', '\\'] : Str) ++ (jsonEscape s' ++ '"' :: r) =
          '\\' :: '\\' :: (jsonEscape s' ++ '"' :: r) from rfl,
        parseJsonString_cons_esc (by decide)
          (show jsonUnescapeChar '\\' = some '\\' by rfl) _, ih r]
    by_cases h3 : c = '\n'
    · subst h3
      rw [show jsonEscapeChar '\n' = ['\\', 'n'] from rfl,
        show (['\\', 'n'] : Str) ++ (jsonEscape s' ++ '"' :: r) =
          '\\' :: 'n' :: (jsonEscape s' ++ '"' :: r) from rfl,
        parseJsonString_cons_esc (by decide) (show jsonUnescapeChar 'n' = some '\n' by rfl) _,
        ih r]
    by_cases h4 : c = '\r'
    · subst h4
      rw [show jsonEscapeChar '\r' = ['\\', 'r'] from rfl,
        show (['\\', 'r'] : Str) ++ (jsonEscape s' ++ '"' :: r) =
          '\\' :: 'r' :: (jsonEscape s' ++ '"' :: r) from rfl,
        parseJsonString_cons_esc (by decide) (show jsonUnescapeChar 'r' = some '\r' by rfl) _,
        ih r]
    by_cases h5 : c = '\t'
    · subst h5
      rw [show jsonEscapeChar '\t' = ['\\', 't'] from rfl,
        show (['\\', 't'] : Str) ++ (jsonEscape s' ++ '"' :: r) =
          '\\' :: 't' :: (jsonEscape s' ++ '"' :: r) from rfl,
        parseJsonString_cons_esc (by decide) (show jsonUnescapeChar 't' = some '\t' by rfl) _,
        ih r]
    by_cases h6 : c = '\x08'
    · subst h6
      rw [show jsonEscapeChar '\x08' = ['\\', 'b'] from rfl,
        show (['\\', 'b'] : Str) ++ (jsonEscape s' ++ '"' :: r) =
          '\\' :: 'b' :: (jsonEscape s' ++ '"' :: r) from rfl,
        parseJsonString_cons_esc (by decide)
          (show jsonUnescapeChar 'b' = some '\x08' by rfl) _, ih r]
    by_cases h7 : c = '\x0c'
    · subst h7
      rw [show jsonEscapeChar '\x0c' = ['\\', 'f'] from rfl,
        show (['\\', 'f'] : Str) ++ (jsonEscape s' ++ '"' :: r) =
          '\\' :: 'f' :: (jsonEscape s' ++ '"' :: r) from rfl,
        parseJsonString_cons_esc (by decide)
          (show jsonUnescapeChar 'f' = some '\x0c' by rfl) _, ih r]
    by_cases h8 : c.toNat < 32
    · have hesc : jsonEscapeChar c = ['\\', 'u', hexDigitChar (c.toNat / 4096 % 16),
          hexDigitChar (c.toNat / 256 % 16), hexDigitChar (c.toNat / 16 % 16),
          hexDigitChar (c.toNat % 16)] := by
        unfold jsonEscapeChar
        rw [if_neg h1, if_neg h2, if_neg h3, if_neg h4, if_neg h5, if_neg h6, if_neg h7,
          if_pos h8]
      rw [hesc, cons6_append,
        parseJsonString_cons_u (isHexDigit_hexDigitChar (mod16_lt _))
          (isHexDigit_hexDigitChar (mod16_lt _)) (isHexDigit_hexDigitChar (mod16_lt _))
          (isHexDigit_hexDigitChar (mod16_lt _)) _,
        ih r, hexVal_hexDigitChar (mod16_lt _), hexVal_hexDigitChar (mod16_lt _),
        hexVal_hexDigitChar (mod16_lt _), hexVal_hexDigitChar (mod16_lt _),
        show c.toNat / 4096 % 16 * 4096 + c.toNat / 256 % 16 * 256 +
          c.toNat / 16 % 16 * 16 + c.toNat % 16 = c.toNat from by omega,
        Char.ofNat_toNat]
    · rw [jsonEscapeChar_eq_self h1 h2 (Nat.le_of_not_lt h8),
        show ([c] : Str) ++ (jsonEscape s' ++ '"' :: r) = c :: (jsonEscape s' ++ '"' :: r)
          from rfl,
        parseJsonString_cons_lit h1 h2, ih r]

theorem hexDigitChar_ne_nl {d : Nat} (h : d < 16) : hexDigitChar d ≠ '\n' := by
  interval_cases d <;> decide

theorem jsonEscapeChar_no_nl (c : Char) :
    ∀ x ∈ jsonEscapeChar c, x = '\n' → False := by
  intro x hx he
  unfold jsonEscapeChar at hx
  by_cases h1 : c = '"'
  · rw [if_pos h1] at hx
    subst he
    exact absurd hx (by decide)
  rw [if_neg h1] at hx
  by_cases h2 : c = '\\'
  · rw [if_pos h2] at hx
    subst he
    exact absurd hx (by decide)
  rw [if_neg h2] at hx
  by_cases h3 : c = '\n'
  · rw [if_pos h3] at hx
    subst he
    exact absurd hx (by decide)
  rw [if_neg h3] at hx
  by_cases h4 : c = '\r'
  · rw [if_pos h4] at hx
    subst he
    exact absurd hx (by decide)
  rw [if_neg h4] at hx
  by_cases h5 : c = '\t'
  · rw [if_pos h5] at hx
    subst he
    exact absurd hx (by decide)
  rw [if_neg h5] at hx
  by_cases h6 : c = '\x08'
  · rw [if_pos h6] at hx
    subst he
    exact absurd hx (by decide)
  rw [if_neg h6] at hx
  by_cases h7 : c = '\x0c'
  · rw [if_pos h7] at hx
    subst he
    exact absurd hx (by decide)
  rw [if_neg h7] at hx
  by_cases h8 : c.toNat < 32
  · rw [if_pos h8] at hx
    subst he
    simp only [List.mem_cons, List.mem_singleton, List.not_mem_nil, or_false] at hx
    rcases hx with hx | hx | hx | hx | hx | hx
    · exact absurd hx (by decide)
    · exact absurd hx (by decide)
    · exact hexDigitChar_ne_nl (mod16_lt _) hx.symm
    · exact hexDigitChar_ne_nl (mod16_lt _) hx.symm
    · exact hexDigitChar_ne_nl (mod16_lt _) hx.symm
    · exact hexDigitChar_ne_nl (mod16_lt _) hx.symm
  · rw [if_neg h8] at hx
    rcases List.mem_singleton.1 hx with rfl
    rw [he] at h8
    exact h8 (by decide)

theorem jsonEscape_no_nl (s : Str) : ∀ x ∈ jsonEscape s, x = '\n' → False := by
  induction s with
  | nil => intro x hx _; cases hx
  | cons c s' ih =>
    intro x hx he
    rw [jsonEscape_cons] at hx
    rcases List.mem_append.1 hx with h | h
    · exact jsonEscapeChar_no_nl c x h he
    · exact ih x h he

theorem not_isPrefixOf_of_head {a : Char} {as : Str} {b : Char} {bs : Str} (h : a ≠ b) :
    ¬ (List.isPrefixOf (a :: as) (b :: bs) = true) := by
  rw [List.isPrefixOf_iff_prefix, List.cons_prefix_cons]
  exact fun hp => h hp.1

theorem head_cons_numFalse {c : Char} (hc : isNumChar c = false) (r : Str) :
    ∀ d, (c :: r).head? = some d → isNumChar d = false := by
  intro d hd
  have he : c = d := Option.some.inj hd
  rw [← he]
  exact hc

theorem scalarToJson_head {x : Scalar} (h : scalarOk x = true) :
    ∃ c cs, scalarToJson x = c :: cs ∧ isJsWs c = false ∧ c ≠ ']' := by
  cases x with
  | sNull => exact ⟨'n', _, rfl, by decide, by decide⟩
  | sBool b =>
    cases b with
    | false => exact ⟨'f', _, rfl, by decide, by decide⟩
    | true => exact ⟨'t', _, rfl, by decide, by decide⟩
  | sInt n =>
    obtain ⟨c, cs, heq, hc⟩ := intToStr_head n
    refine ⟨c, cs, heq, ?_, ?_⟩
    · rcases hc with rfl | hd
      · decide
      · exact isJsWs_of_digit hd
    · rcases hc with rfl | hd
      · decide
      · exact char_ne_of_digit hd (by decide)
  | sFloat s =>
    obtain ⟨c, cs, heq, hc, -, -, -, -, -⟩ := decRegexB_struct h
    refine ⟨c, cs, heq, ?_, ?_⟩
    · rcases hc with rfl | hd
      · decide
      · exact isJsWs_of_digit hd
    · rcases hc with rfl | hd
      · decide
      · exact char_ne_of_digit hd (by decide)
  | sStr s => exact ⟨'"', _, rfl, by decide, by decide⟩

theorem parseScalar_int (n : Int) (r : Str)
    (hr : ∀ c, r.head? = some c → isNumChar c = false) :
    parseScalar (intToStr n ++ r) = some (Scalar.sInt n, r) := by
  obtain ⟨c, cs, heq, hc⟩ := intToStr_head n
  have hcn : 'n' ≠ c := by
    rcases hc with rfl | hd
    · decide
    · exact (char_ne_of_digit hd (by decide)).symm
  have hct : 't' ≠ c := by
    rcases hc with rfl | hd
    · decide
    · exact (char_ne_of_digit hd (by decide)).symm
  have hcf : 'f' ≠ c := by
    rcases hc with rfl | hd
    · decide
    · exact (char_ne_of_digit hd (by decide)).symm
  have hcq : c ≠ '"' := by
    rcases hc with rfl | hd
    · decide
    · exact char_ne_of_digit hd (by decide)
  have htw := takeWhile_dropWhile_append (intToStr n) r
    (fun d hd => isNumChar_of_tok (intToStr_all n d hd)) hr
  unfold parseScalar
  rw [heq, List.cons_append,
    if_neg (not_isPrefixOf_of_head hcn), if_neg (not_isPrefixOf_of_head hct),
    if_neg (not_isPrefixOf_of_head hcf),
    if_neg (by intro hh; exact hcq (Option.some.inj hh)),
    if_pos (by
      show (decide (c = '-') || isDigit c) = true
      rcases hc with rfl | hd
      · decide
      · simp [hd]),
    ← List.cons_append, ← heq]
  dsimp only
  rw [htw.1, htw.2, if_pos (intRegexB_intToStr n), parseIntJS_intToStr]

theorem parseScalar_float {s : Str} (r : Str) (h : decRegexB s = true)
    (hr : ∀ c, r.head? = some c → isNumChar c = false) :
    parseScalar (s ++ r) = some (Scalar.sFloat s, r) := by
  obtain ⟨c, cs, heq, hc, hall, hint, -, -, -⟩ := decRegexB_struct h
  have hcn : 'n' ≠ c := by
    rcases hc with rfl | hd
    · decide
    · exact (char_ne_of_digit hd (by decide)).symm
  have hct : 't' ≠ c := by
    rcases hc with rfl | hd
    · decide
    · exact (char_ne_of_digit hd (by decide)).symm
  have hcf : 'f' ≠ c := by
    rcases hc with rfl | hd
    · decide
    · exact (char_ne_of_digit hd (by decide)).symm
  have hcq : c ≠ '"' := by
    rcases hc with rfl | hd
    · decide
    · exact char_ne_of_digit hd (by decide)
  have htw := takeWhile_dropWhile_append s r (fun d hd => hall d hd) hr
  unfold parseScalar
  rw [heq, List.cons_append,
    if_neg (not_isPrefixOf_of_head hcn), if_neg (not_isPrefixOf_of_head hct),
    if_neg (not_isPrefixOf_of_head hcf),
    if_neg (by intro hh; exact hcq (Option.some.inj hh)),
    if_pos (by
      show (decide (c = '-') || isDigit c) = true
      rcases hc with rfl | hd
      · decide
      · simp [hd]),
    ← List.cons_append, ← heq]
  dsimp only
  rw [htw.1, htw.2, if_neg (by rw [hint]; exact Bool.false_ne_true), if_pos h]

theorem parseScalar_token {x : Scalar} {r : Str} (hx : scalarOk x = true)
    (hr : ∀ c, r.head? = some c → isNumChar c = false) :
    parseScalar (scalarToJson x ++ r) = some (x, r) := by
  cases x with
  | sNull =>
    show parseScalar ("null".data ++ r) = _
    unfold parseScalar
    rw [if_pos (by rw [List.isPrefixOf_iff_prefix]; exact List.prefix_append _ _)]
    have h4 : ("null".data ++ r).drop 4 = r := by
      rw [show (4 : Nat) = "null".data.length from rfl]
      exact List.drop_left _ _
    rw [h4]
  | sBool b =>
    cases b with
    | false =>
      show parseScalar ("false".data ++ r) = _
      unfold parseScalar
      rw [if_neg (by exact not_isPrefixOf_of_head (by decide)),
        if_neg (by exact not_isPrefixOf_of_head (by decide)),
        if_pos (by rw [List.isPrefixOf_iff_prefix]; exact List.prefix_append _ _)]
      have h5 : ("false".data ++ r).drop 5 = r := by
        rw [show (5 : Nat) = "false".data.length from rfl]
        exact List.drop_left _ _
      rw [h5]
    | true =>
      show parseScalar ("true".data ++ r) = _
      unfold parseScalar
      rw [if_neg (by exact not_isPrefixOf_of_head (by decide)),
        if_pos (by rw [List.isPrefixOf_iff_prefix]; exact List.prefix_append _ _)]
      have h4 : ("true".data ++ r).drop 4 = r := by
        rw [show (4 : Nat) = "true".data.length from rfl]
        exact List.drop_left _ _
      rw [h4]
  | sInt n => exact parseScalar_int n r hr
  | sFloat s => exact parseScalar_float r hx hr
  | sStr s =>
    show parseScalar (jsonQuote s ++ r) = _
    have hjq : jsonQuote s ++ r = '"' :: (jsonEscape s ++ '"' :: r) := by
      unfold jsonQuote
      simp
    rw [hjq]
    unfold parseScalar
    rw [if_neg (by exact not_isPrefixOf_of_head (by decide)),
      if_neg (by exact not_isPrefixOf_of_head (by decide)),
      if_neg (by exact not_isPrefixOf_of_head (by decide)), if_pos (by rfl),
      show ('"' :: (jsonEscape s ++ '"' :: r)).drop 1 = jsonEscape s ++ '"' :: r from rfl,
      parseJsonString_escape s r]

theorem intercalate_cons₂ {α : Type} (sep : List α) (a b : List α) (L : List (List α)) :
    List.intercalate sep (a :: b :: L) = a ++ sep ++ List.intercalate sep (b :: L) := by
  unfold List.intercalate
  rw [List.intersperse_cons_cons, List.flatten_cons, List.flatten_cons, List.append_assoc]

theorem parseElems_go : ∀ (xs : List Scalar), ∀ (fuel : Nat) (r : Str),
    xs.length ≤ fuel → (∀ x ∈ xs, scalarOk x = true) → xs ≠ [] →
    parseElems fuel (List.intercalate [','] (xs.map scalarToJson) ++ ']' :: r) =
      some (xs, ']' :: r) := by
  intro xs
  induction xs with
  | nil => intro _ _ _ _ h; exact absurd rfl h
  | cons x xs' ih =>
    intro fuel r hfuel hok _
    have hokx := hok x (List.mem_cons_self x xs')
    obtain ⟨c, cs, hcx, hcw, _⟩ := scalarToJson_head hokx
    cases fuel with
    | zero => simp at hfuel
    | succ f =>
      cases xs' with
      | nil =>
        have henc : List.intercalate [','] ([x].map scalarToJson) = scalarToJson x := by
          simp [List.intercalate]
        rw [henc]
        unfold parseElems
        rw [hcx, List.cons_append, skipWs_cons _ hcw, ← List.cons_append, ← hcx,
          parseScalar_token hokx (head_cons_numFalse (by decide) r)]
        dsimp only
        rw [skipWs_cons _ (by decide),
          if_neg (by intro hh; exact absurd (Option.some.inj hh) (by decide))]
      | cons y ys =>
        rw [List.map_cons, List.map_cons, intercalate_cons₂]
        have hstr : (scalarToJson x ++ [','] ++
              List.intercalate [','] (scalarToJson y :: List.map scalarToJson ys)) ++ ']' :: r
            = scalarToJson x ++ ',' ::
              (List.intercalate [','] (scalarToJson y :: List.map scalarToJson ys) ++ ']' :: r) := by
          simp
        rw [hstr]
        unfold parseElems
        rw [hcx, List.cons_append, skipWs_cons _ hcw, ← List.cons_append, ← hcx,
          parseScalar_token hokx (head_cons_numFalse (by decide) _)]
        dsimp only
        rw [skipWs_cons _ (by decide), if_pos (by rfl),
          show (',' :: (List.intercalate [','] (scalarToJson y :: List.map scalarToJson ys) ++
            ']' :: r)).drop 1 = List.intercalate [','] ((y :: ys).map scalarToJson) ++ ']' :: r
            from by rw [List.map_cons]; rfl,
          ih f r (by simp only [List.length_cons] at hfuel ⊢; omega)
            (fun z hz => hok z (List.mem_cons_of_mem x hz)) (List.cons_ne_nil y ys)]

theorem enc_length (xs : List Scalar) (hok : ∀ x ∈ xs, scalarOk x = true) :
    xs.length ≤ (List.intercalate [','] (xs.map scalarToJson)).length := by
  induction xs with
  | nil => simp
  | cons x xs' ih =>
    obtain ⟨c, cs, hcx, -, -⟩ := scalarToJson_head (hok x (List.mem_cons_self x xs'))
    cases xs' with
    | nil =>
      have henc : List.intercalate [','] ([x].map scalarToJson) = scalarToJson x := by
        simp [List.intercalate]
      rw [henc, hcx]
      simp
    | cons y ys =>
      rw [List.map_cons, List.map_cons, intercalate_cons₂, ← List.map_cons, hcx]
      have hih := ih (fun z hz => hok z (List.mem_cons_of_mem x hz))
      simp only [List.length_cons, List.length_append] at hih ⊢
      omega

theorem jsonParse_stringifyArr (xs : List Scalar) (hok : ∀ x ∈ xs, scalarOk x = true) :
    jsonParse (jsonStringifyArr xs) = some (Value.vArr xs) := by
  cases xs with
  | nil => decide
  | cons x xs' =>
    obtain ⟨c, cs, hcx, hcw, hcb⟩ := scalarToJson_head (hok x (List.mem_cons_self x xs'))
    have henc : ∃ d ds, List.intercalate [','] ((x :: xs').map scalarToJson) = d :: ds ∧
        isJsWs d = false ∧ d ≠ ']' := by
      cases xs' with
      | nil => exact ⟨c, cs, by simp [List.intercalate, hcx], hcw, hcb⟩
      | cons y ys =>
        refine ⟨c, cs ++ [','] ++
          List.intercalate [','] (scalarToJson y :: List.map scalarToJson ys), ?_, hcw, hcb⟩
        rw [List.map_cons, List.map_cons, intercalate_cons₂, hcx]
        simp
    obtain ⟨d, ds, hd, hdw, hdb⟩ := henc
    have hfuel : (x :: xs').length ≤
        (List.intercalate [','] ((x :: xs').map scalarToJson) ++ [']']).length + 1 := by
      have := enc_length (x :: xs') hok
      simp only [List.length_append] at *
      omega
    unfold jsonParse parseJsonValue jsonStringifyArr
    rw [List.cons_append, skipWs_cons _ (by decide), if_pos (by rfl),
      show ('[' :: (List.intercalate [','] ((x :: xs').map scalarToJson) ++ [']'])).drop 1 =
        List.intercalate [','] ((x :: xs').map scalarToJson) ++ [']'] from rfl,
      hd, List.cons_append, skipWs_cons _ hdw,
      if_neg (by intro hh; exact hdb (Option.some.inj hh)),
      ← List.cons_append, ← hd,
      parseElems_go (x :: xs') _ [] (by rw [hd]; rw [hd] at hfuel; exact hfuel) hok
        (List.cons_ne_nil x xs')]
    dsimp only
    rw [skipWs_cons _ (by decide), if_pos (by rfl)]
    rfl

theorem parseYamlValue_arr (xs : List Scalar) (hok : ∀ x ∈ xs, scalarOk x = true) :
    parseYamlValue (jsonStringifyArr xs) = Value.vArr xs := by
  have hs : jsonStringifyArr xs =
      '[' :: (List.intercalate [','] (xs.map scalarToJson) ++ [']']) := by
    unfold jsonStringifyArr
    rw [List.cons_append]
  have hlast : (jsonStringifyArr xs).getLast? = some ']' := by
    unfold jsonStringifyArr
    exact List.getLast?_concat _
  unfold parseYamlValue
  rw [hs,
    if_neg (by
      simp only [Bool.or_eq_true, decide_eq_true_eq]
      push_neg
      exact ⟨⟨cons_ne_of_head (by decide), cons_ne_of_head (by decide)⟩,
        List.cons_ne_nil _ _⟩),
    if_neg (cons_ne_of_head (by decide)), if_neg (cons_ne_of_head (by decide)),
    if_neg (by rw [intRegexB_cons_false _ (by decide) (by decide)]; exact Bool.false_ne_true),
    if_neg (by rw [decRegexB_cons_false _ (by decide) (by decide)]; exact Bool.false_ne_true),
    if_pos (by
      rw [Bool.and_eq_true]
      constructor
      · simp
      · rw [← hs]
        simp [hlast]),
    ← hs, jsonParse_stringifyArr xs hok]

-- =============================================================================
-- Field-level round trip and token well-formedness
-- =============================================================================

theorem scalarOk_of_strOk {x : Scalar} (h : scalarStrOk x = true) : scalarOk x = true := by
  cases x <;> first | exact Bool.noConfusion h | exact h

theorem scalarOk_of_numOk {x : Scalar} (h : scalarNumOk x = true) : scalarOk x = true := by
  cases x <;> first | exact Bool.noConfusion h | exact h | rfl

/-- Decoding inverts encoding on each well-behaved field value, after the
vector re-conversion of `loadFromMarkdown`. -/
theorem roundField : ∀ {ct : ColType} {v : Value}, fieldOk ct v = true →
    convertForCol ct (parseYamlValue (toYamlValue v)) = v := by
  intro ct v h
  cases ct <;> cases v <;> try exact Bool.noConfusion h
  case str.vStr s =>
    rw [parseYamlValue_str h]
    rfl
  case num.vInt n =>
    rw [show toYamlValue (Value.vInt n) = intToStr n from rfl, parseYamlValue_intToStr]
    rfl
  case timestamp.vInt n =>
    rw [show toYamlValue (Value.vInt n) = intToStr n from rfl, parseYamlValue_intToStr]
    rfl
  case num.vFloat s =>
    rw [show toYamlValue (Value.vFloat s) = s from rfl, parseYamlValue_float h]
    rfl
  case timestamp.vFloat s =>
    rw [show toYamlValue (Value.vFloat s) = s from rfl, parseYamlValue_float h]
    rfl
  case boolean.vBool b =>
    cases b <;> decide
  case strArr.vArr xs =>
    have h' : xs.all scalarStrOk = true := h
    rw [List.all_eq_true] at h'
    rw [show toYamlValue (Value.vArr xs) = jsonStringifyArr xs from rfl,
      parseYamlValue_arr xs (fun x hx => scalarOk_of_strOk (h' x hx))]
    rfl
  case numArr.vArr xs =>
    have h' : xs.all scalarNumOk = true := h
    rw [List.all_eq_true] at h'
    rw [show toYamlValue (Value.vArr xs) = jsonStringifyArr xs from rfl,
      parseYamlValue_arr xs (fun x hx => scalarOk_of_numOk (h' x hx))]
    rfl
  case vector.vNull d =>
    rw [show toYamlValue Value.vNull = "null".data from rfl,
      show parseYamlValue "null".data = Value.vNull from by decide]
    rfl
  case vector.vVec d xs =>
    have hall : ∀ x ∈ xs.map Scalar.sInt, scalarOk x = true := by
      intro x hx
      obtain ⟨n, -, rfl⟩ := List.mem_map.1 hx
      rfl
    rw [show toYamlValue (Value.vVec xs) = jsonStringifyArr (xs.map Scalar.sInt) from rfl,
      parseYamlValue_arr _ hall]
    show Value.vVec ((xs.map Scalar.sInt).map float32OfScalar) = Value.vVec xs
    rw [List.map_map]
    show Value.vVec (List.map (fun x => float32OfScalar (Scalar.sInt x)) xs) = Value.vVec xs
    simp [float32OfScalar]

theorem intToStr_tokOk (n : Int) :
    jsTrim (intToStr n) = intToStr n ∧ intToStr n ≠ [] ∧ ∀ c ∈ intToStr n, c ≠ '\n' := by
  have hmem : ∀ c ∈ intToStr n, c ≠ '\n' := by
    intro c hc
    rcases intToStr_all n c hc with rfl | hd
    · decide
    · exact char_ne_of_digit hd (by decide)
  have hws : ∀ c ∈ intToStr n, isJsWs c = false := by
    intro c hc
    rcases intToStr_all n c hc with rfl | hd
    · decide
    · exact isJsWs_of_digit hd
  refine ⟨jsTrim_eq_self_of_edges ?_ ?_, intToStr_ne_nil n, hmem⟩
  · intro c hc
    exact hws c (List.mem_of_mem_head? (Option.mem_def.mpr hc))
  · intro c hc
    exact hws c (mem_of_getLast? hc)

theorem decTok_tokOk {s : Str} (h : decRegexB s = true) :
    jsTrim s = s ∧ s ≠ [] ∧ ∀ c ∈ s, c ≠ '\n' := by
  obtain ⟨c, cs, heq, hc, hall, -, d, hlast, hd⟩ := decRegexB_struct h
  have hws : ∀ x ∈ s, isJsWs x = false := by
    intro x hx
    have hn := hall x hx
    simp only [isNumChar, Bool.or_eq_true, decide_eq_true_eq] at hn
    rcases hn with ((((hd | h1) | h2) | h3) | h4) | h5
    · exact isJsWs_of_digit hd
    · subst h1; decide
    · subst h2; decide
    · subst h3; decide
    · subst h4; decide
    · subst h5; decide
  refine ⟨jsTrim_eq_self_of_edges ?_ ?_, by rw [heq]; exact List.cons_ne_nil _ _, ?_⟩
  · intro x hx
    exact hws x (List.mem_of_mem_head? (Option.mem_def.mpr hx))
  · intro x hx
    exact hws x (mem_of_getLast? hx)
  · intro x hx he
    have hn := hall x hx
    rw [he] at hn
    exact absurd hn (by decide)

theorem mem_intercalate_comma : ∀ {L : List Str} {c : Char},
    c ∈ List.intercalate [','] L → c = ',' ∨ ∃ l ∈ L, c ∈ l := by
  intro L
  induction L with
  | nil =>
    intro c hc
    rw [show List.intercalate [','] ([] : List Str) = [] from rfl] at hc
    cases hc
  | cons a L' ih =>
    intro c hc
    cases L' with
    | nil =>
      rw [show List.intercalate [','] [a] = a from by simp [List.intercalate]] at hc
      exact Or.inr ⟨a, List.mem_cons_self a [], hc⟩
    | cons b L'' =>
      rw [intercalate_cons₂] at hc
      rcases List.mem_append.1 hc with h1 | h2
      · rcases List.mem_append.1 h1 with h3 | h4
        · exact Or.inr ⟨a, List.mem_cons_self _ _, h3⟩
        · exact Or.inl (List.mem_singleton.1 h4)
      · rcases ih h2 with h5 | ⟨l, hl, hcl⟩
        · exact Or.inl h5
        · exact Or.inr ⟨l, List.mem_cons_of_mem a hl, hcl⟩

theorem scalarToJson_no_nl {x : Scalar} (h : scalarOk x = true) :
    ∀ c ∈ scalarToJson x, c ≠ '\n' := by
  cases x with
  | sNull =>
    intro c hc he
    rw [he] at hc
    exact absurd hc (by decide)
  | sBool b =>
    cases b <;> (intro c hc he; rw [he] at hc; exact absurd hc (by decide))
  | sInt n =>
    intro c hc
    rcases intToStr_all n c hc with rfl | hd
    · decide
    · exact char_ne_of_digit hd (by decide)
  | sFloat s =>
    intro c hc he
    obtain ⟨-, -, -, -, hall, -, -, -, -⟩ := decRegexB_struct h
    have hn := hall c hc
    rw [he] at hn
    exact absurd hn (by decide)
  | sStr s =>
    intro c hc he
    rw [show scalarToJson (Scalar.sStr s) = jsonQuote s from rfl] at hc
    unfold jsonQuote at hc
    rcases List.mem_append.1 hc with h1 | h2
    · rcases List.mem_cons.1 h1 with rfl | hcs
      · exact absurd he (by decide)
      · exact jsonEscape_no_nl s c hcs he
    · rw [he] at h2
      exact absurd h2 (by decide)

theorem jsonStringifyArr_tokOk (xs : List Scalar) (hok : ∀ x ∈ xs, scalarOk x = true) :
    jsTrim (jsonStringifyArr xs) = jsonStringifyArr xs ∧ jsonStringifyArr xs ≠ [] ∧
    ∀ c ∈ jsonStringifyArr xs, c ≠ '\n' := by
  have hs : jsonStringifyArr xs =
      '[' :: (List.intercalate [','] (xs.map scalarToJson) ++ [']']) := by
    unfold jsonStringifyArr
    rw [List.cons_append]
  have hlast : (jsonStringifyArr xs).getLast? = some ']' := by
    unfold jsonStringifyArr
    exact List.getLast?_concat _
  refine ⟨jsTrim_eq_self_of_edges ?_ ?_, ?_, ?_⟩
  · intro c hc
    rw [hs] at hc
    rw [← Option.some.inj hc]
    decide
  · intro c hc
    rw [hlast] at hc
    rw [← Option.some.inj hc]
    decide
  · rw [hs]
    exact List.cons_ne_nil _ _
  · intro c hc he
    rw [hs] at hc
    rcases List.mem_cons.1 hc with rfl | hc'
    · exact absurd he (by decide)
    · rcases List.mem_append.1 hc' with h1 | h2
      · rcases mem_intercalate_comma h1 with rfl | ⟨l, hl, hcl⟩
        · exact absurd he (by decide)
        · obtain ⟨x, hx, rfl⟩ := List.mem_map.1 hl
          exact scalarToJson_no_nl (hok x hx) c hcl he
      · rw [he] at h2
        exact absurd h2 (by decide)

/-- Every rendered token of a well-behaved field is trim-stable, nonempty and
newline-free. -/
theorem toYaml_tokOk : ∀ {ct : ColType} {v : Value}, fieldOk ct v = true →
    jsTrim (toYamlValue v) = toYamlValue v ∧ toYamlValue v ≠ [] ∧
    ∀ c ∈ toYamlValue v, c ≠ '\n' := by
  intro ct v h
  cases ct <;> cases v <;> try exact Bool.noConfusion h
  case str.vStr s =>
    have h' : safeStr s = true := h
    by_cases hq : needsQuote s = true
    · have hesc : escapeFree s = true := by
        unfold safeStr at h'
        rwa [if_pos hq] at h'
      have hjq : toYamlValue (Value.vStr s) = '"' :: (s ++ ['"']) := by
        show (if needsQuote s then jsonQuote s else s) = _
        rw [if_pos hq]
        unfold jsonQuote
        rw [jsonEscape_eq_self hesc, List.cons_append]
      rw [hjq]
      refine ⟨jsTrim_eq_self_of_edges ?_ ?_, List.cons_ne_nil _ _, ?_⟩
      · intro c hc
        rw [← Option.some.inj hc]
        decide
      · intro c hc
        rw [show ('"' :: (s ++ ['"'])) = ('"' :: s) ++ ['"'] from rfl,
          List.getLast?_concat] at hc
        rw [← Option.some.inj hc]
        decide
      · intro c hc he
        rcases List.mem_cons.1 hc with rfl | hc'
        · exact absurd he (by decide)
        · rcases List.mem_append.1 hc' with hcs | hcq
          · simp only [escapeFree, List.all_eq_true, Bool.and_eq_true,
              decide_eq_true_eq] at hesc
            obtain ⟨⟨-, -⟩, h32⟩ := hesc c hcs
            rw [he] at h32
            exact absurd h32 (by decide)
          · rw [he] at hcq
            exact absurd hcq (by decide)
    · have hq' : needsQuote s = false := by
        cases hnq : needsQuote s
        · rfl
        · exact absurd hnq hq
      obtain ⟨-, -, -, -, -, hnl⟩ := needsQuote_facts hq'
      have hbare : toYamlValue (Value.vStr s) = s := by
        show (if needsQuote s then jsonQuote s else s) = s
        rw [if_neg hq]
      unfold safeStr at h'
      rw [if_neg hq] at h'
      simp only [Bool.and_eq_true, Bool.not_eq_true', decide_eq_true_eq] at h'
      obtain ⟨⟨⟨⟨⟨hne, -⟩, htrim⟩, -⟩, -⟩, -⟩ := h'
      rw [hbare]
      exact ⟨htrim, hne, fun c hc he => hnl (he ▸ hc)⟩
  case num.vInt n => exact intToStr_tokOk n
  case timestamp.vInt n => exact intToStr_tokOk n
  case num.vFloat s =>
    rw [show toYamlValue (Value.vFloat s) = s from rfl]
    exact decTok_tokOk h
  case timestamp.vFloat s =>
    rw [show toYamlValue (Value.vFloat s) = s from rfl]
    exact decTok_tokOk h
  case boolean.vBool b =>
    cases b
    · exact ⟨by decide, by decide, by decide⟩
    · exact ⟨by decide, by decide, by decide⟩
  case strArr.vArr xs =>
    have h' : xs.all scalarStrOk = true := h
    rw [List.all_eq_true] at h'
    exact jsonStringifyArr_tokOk xs (fun x hx => scalarOk_of_strOk (h' x hx))
  case numArr.vArr xs =>
    have h' : xs.all scalarNumOk = true := h
    rw [List.all_eq_true] at h'
    exact jsonStringifyArr_tokOk xs (fun x hx => scalarOk_of_numOk (h' x hx))
  case vector.vNull d => exact ⟨by decide, by decide, by decide⟩
  case vector.vVec d xs =>
    have hall : ∀ x ∈ xs.map Scalar.sInt, scalarOk x = true := by
      intro x hx
      obtain ⟨n, -, rfl⟩ := List.mem_map.1 hx
      rfl
    rw [show toYamlValue (Value.vVec xs) = jsonStringifyArr (xs.map Scalar.sInt) from rfl]
    exact jsonStringifyArr_tokOk _ hall

-- =============================================================================
-- Frontmatter line and fold lemmas
-- =============================================================================

theorem findIdx_shift {p : Char → Bool} :
    ∀ (a : Str) (x : Char) (rest : Str) (i : Nat), (∀ c ∈ a, p c = false) → p x = true →
    List.findIdx? p (a ++ x :: rest) i = some (a.length + i) := by
  intro a
  induction a with
  | nil =>
    intro x rest i _ hx
    rw [List.nil_append, List.findIdx?_cons, if_pos hx]
    simp
  | cons c a' ih =>
    intro x rest i ha hx
    rw [List.cons_append, List.findIdx?_cons,
      if_neg (by rw [ha c (List.mem_cons_self c a')]; exact Bool.false_ne_true),
      ih x rest (i + 1) (fun d hd => ha d (List.mem_cons_of_mem c hd)) hx]
    simp only [Option.some.injEq, List.length_cons]
    omega

theorem processLine_line (fm : List (Str × Value)) {k tok : Str}
    (hk : safeKey k = true) (ht : jsTrim tok = tok) (htne : tok ≠ []) :
    processLine fm (k ++ ':' :: ' ' :: tok) = fmSet fm k (parseYamlValue tok) := by
  simp only [safeKey, Bool.and_eq_true, decide_eq_true_eq, List.all_eq_true,
    Bool.not_eq_true'] at hk
  obtain ⟨⟨⟨⟨hkne, hktr⟩, hall⟩, hkh⟩, -⟩ := hk
  have hline : jsTrim (k ++ ':' :: ' ' :: tok) = k ++ ':' :: ' ' :: tok :=
    jsTrim_line hktr hkne ht htne
  obtain ⟨kc, k', rfl⟩ : ∃ kc k', k = kc :: k' := by
    cases k with
    | nil => exact absurd rfl hkne
    | cons kc k' => exact ⟨kc, k', rfl⟩
  have htake : ((kc :: k') ++ ':' :: ' ' :: tok).take (kc :: k').length = kc :: k' :=
    List.take_left _ _
  have hdropped : ((kc :: k') ++ ':' :: ' ' :: tok).drop ((kc :: k').length + 1) =
      ' ' :: tok := by
    rw [show (kc :: k') ++ ':' :: ' ' :: tok = ((kc :: k') ++ [':']) ++ ' ' :: tok from by simp,
      show (kc :: k').length + 1 = ((kc :: k') ++ [':']).length from by simp]
    exact List.drop_left _ _
  unfold processLine
  rw [hline,
    if_neg (by
      simp only [Bool.or_eq_true, decide_eq_true_eq]
      push_neg
      exact ⟨by simp, fun hh => hkh hh⟩),
    findIdx_shift (kc :: k') ':' (' ' :: tok) 0
      (fun c hc => decide_eq_false (hall c hc).1) (by decide)]
  simp only [Nat.add_zero]
  rw [htake, hktr, hdropped, jsTrim_cons_ws tok (by decide), ht]

theorem lookupA_append {α : Type} : ∀ (a b : List (Str × α)) (k : Str),
    lookupA (a ++ b) k = (lookupA a k).or (lookupA b k) := by
  intro a b k
  induction a with
  | nil => rfl
  | cons q a' ih =>
    cases q with
    | mk qk qv =>
      rw [List.cons_append]
      show (if qk = k then some qv else lookupA (a' ++ b) k) =
        (if qk = k then some qv else lookupA a' k).or (lookupA b k)
      by_cases hq : qk = k
      · rw [if_pos hq, if_pos hq]
        rfl
      · rw [if_neg hq, if_neg hq]
        exact ih

theorem fmSet_append (fm : List (Str × Value)) (k : Str) (v : Value)
    (h : lookupA fm k = none) : fmSet fm k v = fm ++ [(k, v)] := by
  unfold fmSet
  rw [h]
  rfl

/-- Folding well-formed lines with pairwise-distinct fresh keys appends the
parsed pairs in order. -/
theorem foldl_processLine :
    ∀ (kvs : List (Str × Str)) (acc : List (Str × Value)),
    (∀ p ∈ kvs, safeKey p.1 = true ∧ jsTrim p.2 = p.2 ∧ p.2 ≠ []) →
    (∀ p ∈ kvs, lookupA acc p.1 = none) →
    (kvs.map Prod.fst).Nodup →
    List.foldl processLine acc (kvs.map (fun p => p.1 ++ ':' :: ' ' :: p.2)) =
      acc ++ kvs.map (fun p => (p.1, parseYamlValue p.2)) := by
  intro kvs
  induction kvs with
  | nil =>
    intro acc _ _ _
    simp
  | cons q rest ih =>
    intro acc hwf hfresh hnd
    obtain ⟨qk, qtok⟩ := q
    obtain ⟨hk, ht, htne⟩ := hwf (qk, qtok) (List.mem_cons_self _ _)
    rw [List.map_cons, List.foldl_cons]
    dsimp only
    rw [processLine_line acc hk ht htne,
      fmSet_append acc qk _ (hfresh (qk, qtok) (List.mem_cons_self _ _))]
    rw [List.map_cons, List.nodup_cons] at hnd
    rw [ih (acc ++ [(qk, parseYamlValue qtok)])
      (fun p hp => hwf p (List.mem_cons_of_mem _ hp))
      (fun p hp => by
        rw [lookupA_append, hfresh p (List.mem_cons_of_mem _ hp)]
        show lookupA [(qk, parseYamlValue qtok)] p.1 = none
        unfold lookupA
        rw [if_neg (by
          intro he
          have hm : p.1 ∈ rest.map Prod.fst := List.mem_map_of_mem Prod.fst hp
          rw [← he] at hm
          exact hnd.1 hm)]
        rfl)
      hnd.2]
    simp [List.map_cons]

theorem filterMap_eq_map_of {α β : Type} {f : α → Option β} {g : α → β} :
    ∀ (l : List α), (∀ a ∈ l, f a = some (g a)) → l.filterMap f = l.map g := by
  intro l
  induction l with
  | nil => intro _; rfl
  | cons a l' ih =>
    intro h
    rw [List.filterMap_cons, h a (List.mem_cons_self a l'), List.map_cons,
      ih (fun b hb => h b (List.mem_cons_of_mem a hb))]

theorem lookupA_filterMap_schema {β : Type} (F : Str × ColType → β) (cc : Option Str) :
    ∀ (schema : List (Str × ColType)) (p : Str × ColType),
    (schema.map Prod.fst).Nodup → p ∈ schema → cc ≠ some p.1 →
    lookupA (schema.filterMap (fun q => if cc = some q.1 then none else some (q.1, F q)))
      p.1 = some (F p) := by
  intro schema
  induction schema with
  | nil =>
    intro p _ hp _
    cases hp
  | cons q rest ih =>
    intro p hnd hp hcc
    rw [List.map_cons, List.nodup_cons] at hnd
    rw [List.filterMap_cons]
    rcases List.mem_cons.1 hp with rfl | hp'
    · rw [if_neg hcc]
      dsimp only
      unfold lookupA
      rw [if_pos rfl]
    · by_cases hq : cc = some q.1
      · rw [if_pos hq]
        dsimp only
        exact ih p hnd.2 hp' hcc
      · rw [if_neg hq]
        dsimp only
        unfold lookupA
        rw [if_neg (by
          intro he
          have hm : p.1 ∈ rest.map Prod.fst := List.mem_map_of_mem Prod.fst hp'
          rw [← he] at hm
          exact hnd.1 hm)]
        exact ih p hnd.2 hp' hcc

-- =============================================================================
-- Generated-document layout lemmas
-- =============================================================================

/-- The tail shape of `lines.join('\n')`: a newline before each line. -/
def joinNL : List Str → Str
  | [] => []
  | a :: L => '\n' :: (a ++ joinNL L)

theorem intercalate_nl_eq : ∀ (L : List Str) (a : Str),
    List.intercalate ['\n'] (a :: L) = a ++ joinNL L := by
  intro L
  induction L with
  | nil =>
    intro a
    simp [List.intercalate, joinNL]
  | cons b L' ih =>
    intro a
    rw [intercalate_cons₂, ih b]
    show _ = a ++ ('\n' :: (b ++ joinNL L'))
    simp

theorem joinNL_append : ∀ (A B : List Str), joinNL (A ++ B) = joinNL A ++ joinNL B := by
  intro A B
  induction A with
  | nil => rfl
  | cons a A' ih =>
    show '\n' :: (a ++ joinNL (A' ++ B)) = ('\n' :: (a ++ joinNL A')) ++ _
    rw [ih]
    simp

theorem dash_prefix_pad (l junk : Str) :
    "---".data <+: (l ++ '\n' :: junk) ↔ "---".data <+: l := by
  rw [show ("---".data : Str) = ['-', '-', '-'] from rfl]
  rcases l with _ | ⟨a, _ | ⟨b, _ | ⟨c, l'⟩⟩⟩ <;>
    simp [List.cons_prefix_cons]

theorem firstMatch_skip_line : ∀ (l X : Str), '\n' ∉ l →
    firstMatch "\n---".data (l ++ X) =
      (firstMatch "\n---".data X).map (· + l.length) := by
  intro l
  induction l with
  | nil =>
    intro X _
    rw [List.nil_append]
    cases h : firstMatch "\n---".data X
    · rfl
    · simp
  | cons c l' ih =>
    intro X hnl
    have hc : ('\n' : Char) ≠ c := fun he => hnl (by rw [he]; exact List.mem_cons_self c l')
    rw [List.cons_append]
    show (if List.isPrefixOf "\n---".data (c :: (l' ++ X)) = true then (some 0 : Option Nat)
        else (firstMatch "\n---".data (l' ++ X)).map (· + 1)) =
      (firstMatch "\n---".data X).map (· + (c :: l').length)
    rw [if_neg (by exact not_isPrefixOf_of_head hc),
      ih X (fun hm => hnl (List.mem_cons_of_mem c hm))]
    cases h : firstMatch "\n---".data X
    · rfl
    · simp only [Option.map_some', Option.some.injEq, List.length_cons]
      omega

theorem firstMatch_joinNL : ∀ (lines : List Str) (t : Str),
    (∀ l ∈ lines, '\n' ∉ l ∧ ¬ ("---".data <+: l)) →
    firstMatch "\n---".data (joinNL lines ++ '\n' :: '-' :: '-' :: '-' :: t) =
      some (joinNL lines).length := by
  intro lines
  induction lines with
  | nil =>
    intro t _
    show firstMatch "\n---".data ('\n' :: '-' :: '-' :: '-' :: t) = some 0
    unfold firstMatch
    rw [if_pos (by rw [List.isPrefixOf_iff_prefix]; exact ⟨t, rfl⟩)]
  | cons l lines' ih =>
    intro t h
    obtain ⟨hnl, hdash⟩ := h l (List.mem_cons_self _ _)
    have hjunk : ∃ junk, joinNL lines' ++ '\n' :: '-' :: '-' :: '-' :: t = '\n' :: junk := by
      cases lines' with
      | nil => exact ⟨'-' :: '-' :: '-' :: t, rfl⟩
      | cons m lines'' =>
        exact ⟨(m ++ joinNL lines'') ++ '\n' :: '-' :: '-' :: '-' :: t, rfl⟩
    obtain ⟨junk, hj⟩ := hjunk
    show firstMatch "\n---".data
        ('\n' :: ((l ++ joinNL lines') ++ '\n' :: '-' :: '-' :: '-' :: t)) =
      some ('\n' :: (l ++ joinNL lines')).length
    unfold firstMatch
    rw [if_neg (by
        rw [List.isPrefixOf_iff_prefix,
          show ("\n---".data : Str) = '\n' :: "---".data from rfl, List.cons_prefix_cons]
        rintro ⟨-, hp⟩
        rw [List.append_assoc, hj] at hp
        exact hdash ((dash_prefix_pad l junk).1 hp)),
      List.append_assoc, firstMatch_skip_line l _ hnl,
      ih t (fun m hm => h m (List.mem_cons_of_mem _ hm))]
    simp only [Option.map_some', Option.some.injEq, List.length_cons, List.length_append]
    omega

theorem splitOn_headerLines (h1 : Str) (hs : List Str)
    (hnn : ∀ l ∈ h1 :: hs, '\n' ∉ l) :
    (h1 ++ joinNL hs).splitOn '\n' = h1 :: hs := by
  rw [← intercalate_nl_eq hs h1]
  exact List.splitOn_intercalate (h1 :: hs) '\n' hnn (List.cons_ne_nil _ _)

/-- A well-formed frontmatter line contains no newline and does not start
with the `---` delimiter. -/
theorem line_facts {k tok : Str} (hk : safeKey k = true) (htnl : ∀ c ∈ tok, c ≠ '\n') :
    '\n' ∉ (k ++ ':' :: ' ' :: tok) ∧ ¬ ("---".data <+: (k ++ ':' :: ' ' :: tok)) := by
  simp only [safeKey, Bool.and_eq_true, decide_eq_true_eq, List.all_eq_true,
    Bool.not_eq_true'] at hk
  obtain ⟨⟨⟨⟨hkne, -⟩, hall⟩, -⟩, hdash⟩ := hk
  constructor
  · intro hm
    rcases List.mem_append.1 hm with h1 | h2
    · exact (hall '\n' h1).2 rfl
    · rcases List.mem_cons.1 h2 with h3 | h4
      · exact absurd h3 (by decide)
      · rcases List.mem_cons.1 h4 with h5 | h6
        · exact absurd h5 (by decide)
        · exact htnl '\n' h6 rfl
  · intro hp
    rcases k with _ | ⟨a, _ | ⟨b, _ | ⟨c, k'⟩⟩⟩
    · exact hkne rfl
    · rw [show ("---".data : Str) = '-' :: '-' :: '-' :: [] from rfl, List.cons_append,
        List.nil_append, List.cons_prefix_cons] at hp
      obtain ⟨-, hp⟩ := hp
      rw [List.cons_prefix_cons] at hp
      exact absurd hp.1 (by decide)
    · rw [show ("---".data : Str) = '-' :: '-' :: '-' :: [] from rfl, List.cons_append,
        List.cons_append, List.nil_append, List.cons_prefix_cons] at hp
      obtain ⟨-, hp⟩ := hp
      rw [List.cons_prefix_cons] at hp
      obtain ⟨-, hp⟩ := hp
      rw [List.cons_prefix_cons] at hp
      exact absurd hp.1 (by decide)
    · rw [show ("---".data : Str) = '-' :: '-' :: '-' :: [] from rfl, List.cons_append,
        List.cons_append, List.cons_append, List.cons_prefix_cons] at hp
      obtain ⟨ha, hp⟩ := hp
      rw [List.cons_prefix_cons] at hp
      obtain ⟨hb, hp⟩ := hp
      rw [List.cons_prefix_cons] at hp
      obtain ⟨hc2, -⟩ := hp
      have hyes : List.isPrefixOf "---".data (a :: b :: c :: k') = true := by
        rw [List.isPrefixOf_iff_prefix,
          show ("---".data : Str) = '-' :: '-' :: '-' :: [] from rfl,
          List.cons_prefix_cons]
        refine ⟨ha, ?_⟩
        rw [List.cons_prefix_cons]
        refine ⟨hb, ?_⟩
        rw [List.cons_prefix_cons]
        exact ⟨hc2, List.nil_prefix⟩
      rw [hdash] at hyes
      exact Bool.false_ne_true hyes


/-- Parsing a generated document: the closing delimiter is found right after
the header block, the frontmatter lines are recovered and folded in order,
and the body is trimmed. -/
theorem parseMarkdown_layout (q0 : Str × Str) (kvrest : List (Str × Str))
    (bodyLines : List Str)
    (hwf : ∀ p ∈ q0 :: kvrest, safeKey p.1 = true ∧ jsTrim p.2 = p.2 ∧ p.2 ≠ [] ∧
      ∀ c ∈ p.2, c ≠ '\n')
    (hnd : ((q0 :: kvrest).map Prod.fst).Nodup) :
    parseMarkdown (List.intercalate ['\n']
      (("---".data :: (q0 :: kvrest).map (fun p => p.1 ++ ':' :: ' ' :: p.2)) ++
       ("---".data :: [] :: bodyLines))) =
      ((q0 :: kvrest).map (fun p => (p.1, parseYamlValue p.2)),
       jsTrim ('\n' :: joinNL bodyLines)) := by
  have hlf : ∀ l ∈ (q0 :: kvrest).map (fun p => p.1 ++ ':' :: ' ' :: p.2),
      '\n' ∉ l ∧ ¬ ("---".data <+: l) := by
    intro l hl
    obtain ⟨p, hp, rfl⟩ := List.mem_map.1 hl
    exact line_facts (hwf p hp).1 (hwf p hp).2.2.2
  have htext : List.intercalate ['\n']
      (("---".data :: (q0 :: kvrest).map (fun p => p.1 ++ ':' :: ' ' :: p.2)) ++
       ("---".data :: [] :: bodyLines)) =
      '-' :: '-' :: '-' :: (joinNL (List.map (fun p => p.1 ++ ':' :: ' ' :: p.2) (q0 :: kvrest)) ++ '\n' :: '-' :: '-' :: '-' :: '\n' :: joinNL bodyLines) := by
    rw [show ("---".data :: (q0 :: kvrest).map (fun p => p.1 ++ ':' :: ' ' :: p.2)) ++
        ("---".data :: [] :: bodyLines) =
        "---".data :: ((q0 :: kvrest).map (fun p => p.1 ++ ':' :: ' ' :: p.2) ++
        ("---".data :: [] :: bodyLines)) from by simp,
      intercalate_nl_eq, joinNL_append]
    rfl
  have hjl : joinNL (List.map (fun p => p.1 ++ ':' :: ' ' :: p.2) (q0 :: kvrest)) = '\n' :: ((q0.1 ++ ':' :: ' ' :: q0.2) ++ joinNL (List.map (fun p => p.1 ++ ':' :: ' ' :: p.2) kvrest)) := rfl
  rw [htext]
  unfold parseMarkdown
  rw [if_neg (by
      intro hno
      exact hno (by rw [List.isPrefixOf_iff_prefix]; exact ⟨_, rfl⟩))]
  unfold indexOfFrom
  rw [show ('-' :: '-' :: '-' :: (joinNL (List.map (fun p => p.1 ++ ':' :: ' ' :: p.2) (q0 :: kvrest)) ++ '\n' :: '-' :: '-' :: '-' :: '\n' :: joinNL bodyLines)).drop 3 =
      joinNL (List.map (fun p => p.1 ++ ':' :: ' ' :: p.2) (q0 :: kvrest)) ++ '\n' :: '-' :: '-' :: '-' :: ('\n' :: joinNL bodyLines) from rfl,
    firstMatch_joinNL _ _ hlf, Option.map_some']
  dsimp only
  rw [hjl, List.length_cons]
  have hd4 : ('-' :: '-' :: '-' :: (('\n' :: ((q0.1 ++ ':' :: ' ' :: q0.2) ++ joinNL (List.map (fun p => p.1 ++ ':' :: ' ' :: p.2) kvrest))) ++ '\n' :: '-' :: '-' :: '-' :: '\n' :: joinNL bodyLines)).drop 4 =
      ((q0.1 ++ ':' :: ' ' :: q0.2) ++ joinNL (List.map (fun p => p.1 ++ ':' :: ' ' :: p.2) kvrest)) ++ '\n' :: '-' :: '-' :: '-' :: '\n' :: joinNL bodyLines := rfl
  have htake : (((q0.1 ++ ':' :: ' ' :: q0.2) ++ joinNL (List.map (fun p => p.1 ++ ':' :: ' ' :: p.2) kvrest)) ++ '\n' :: '-' :: '-' :: '-' :: '\n' :: joinNL bodyLines).take (((q0.1 ++ ':' :: ' ' :: q0.2) ++ joinNL (List.map (fun p => p.1 ++ ':' :: ' ' :: p.2) kvrest))).length = ((q0.1 ++ ':' :: ' ' :: q0.2) ++ joinNL (List.map (fun p => p.1 ++ ':' :: ' ' :: p.2) kvrest)) := List.take_left _ _
  have hsplit : (((q0.1 ++ ':' :: ' ' :: q0.2) ++ joinNL (List.map (fun p => p.1 ++ ':' :: ' ' :: p.2) kvrest))).splitOn '\n' =
      (q0.1 ++ ':' :: ' ' :: q0.2) :: List.map (fun p => p.1 ++ ':' :: ' ' :: p.2) kvrest := by
    refine splitOn_headerLines _ _ ?_
    intro l hl
    refine (hlf l ?_).1
    rw [List.map_cons]
    exact hl
  have hfold : List.foldl processLine []
      (((q0.1 ++ ':' :: ' ' :: q0.2)) :: List.map (fun p => p.1 ++ ':' :: ' ' :: p.2) kvrest) =
      (q0 :: kvrest).map (fun p => (p.1, parseYamlValue p.2)) := by
    have hlines : ((q0.1 ++ ':' :: ' ' :: q0.2)) :: List.map (fun p => p.1 ++ ':' :: ' ' :: p.2) kvrest =
        (q0 :: kvrest).map (fun p => p.1 ++ ':' :: ' ' :: p.2) := by
      rw [List.map_cons]
    rw [hlines, foldl_processLine (q0 :: kvrest) []
      (fun p hp => ⟨(hwf p hp).1, (hwf p hp).2.1, (hwf p hp).2.2.1⟩)
      (fun p hp => rfl) hnd]
    rw [List.nil_append]
  have hdropC : ('-' :: '-' :: '-' :: (('\n' :: ((q0.1 ++ ':' :: ' ' :: q0.2) ++ joinNL (List.map (fun p => p.1 ++ ':' :: ' ' :: p.2) kvrest))) ++ '\n' :: '-' :: '-' :: '-' :: '\n' :: joinNL bodyLines)).drop
      ((((q0.1 ++ ':' :: ' ' :: q0.2) ++ joinNL (List.map (fun p => p.1 ++ ':' :: ' ' :: p.2) kvrest))).length + 1 + 3 + 4) = '\n' :: joinNL bodyLines := by
    rw [show ('-' :: '-' :: '-' :: (('\n' :: ((q0.1 ++ ':' :: ' ' :: q0.2) ++ joinNL (List.map (fun p => p.1 ++ ':' :: ' ' :: p.2) kvrest))) ++ '\n' :: '-' :: '-' :: '-' :: '\n' :: joinNL bodyLines)) =
        (('-' :: '-' :: '-' :: '\n' :: ((q0.1 ++ ':' :: ' ' :: q0.2) ++ joinNL (List.map (fun p => p.1 ++ ':' :: ' ' :: p.2) kvrest))) ++ ['\n', '-', '-', '-']) ++
        ('\n' :: joinNL bodyLines) from by simp,
      show (((q0.1 ++ ':' :: ' ' :: q0.2) ++ joinNL (List.map (fun p => p.1 ++ ':' :: ' ' :: p.2) kvrest))).length + 1 + 3 + 4 =
        ((('-' :: '-' :: '-' :: '\n' :: ((q0.1 ++ ':' :: ' ' :: q0.2) ++ joinNL (List.map (fun p => p.1 ++ ':' :: ' ' :: p.2) kvrest))) ++ ['\n', '-', '-', '-'])).length from by
        simp only [List.length_append, List.length_cons, List.length_nil]]
    exact List.drop_left _ _
  rw [hd4, show (((q0.1 ++ ':' :: ' ' :: q0.2) ++ joinNL (List.map (fun p => p.1 ++ ':' :: ' ' :: p.2) kvrest))).length + 1 + 3 - 4 = (((q0.1 ++ ':' :: ' ' :: q0.2) ++ joinNL (List.map (fun p => p.1 ++ ':' :: ' ' :: p.2) kvrest))).length from by omega, htake, hsplit,
    hfold, hdropC]


/-- The body text of a generated document: the content column's string value,
if any. -/
def bodyStr (rec : MdRec) (cc : Option Str) : Str :=
  match cc with
  | some k =>
    match rec.fields k with
    | Value.vStr s => s
    | _ => []
  | none => []

/-- `parseMarkdown` inverts `generateMarkdown` on well-behaved records: the
frontmatter comes back as id, created, updated and the rendered non-content
fields in schema order, and the body comes back exactly. -/
theorem parseMarkdown_generate (rec : MdRec) (schema : List (Str × ColType)) (cc : Option Str)
    (hnodup : (schema.map Prod.fst).Nodup)
    (hkeys : ∀ p ∈ schema, safeKey p.1 = true)
    (hres : ∀ p ∈ schema, p.1 ≠ "id".data ∧ p.1 ≠ "created".data ∧ p.1 ≠ "updated".data)
    (hfields : ∀ p ∈ schema, cc ≠ some p.1 → fieldOk p.2 (rec.fields p.1) = true)
    (hcc : ∀ k, cc = some k → ∃ s, rec.fields k = Value.vStr s ∧ jsTrim s = s)
    (hid : safeStr rec.id = true) :
    parseMarkdown (generateMarkdown rec schema cc) =
      (("id".data, Value.vStr rec.id) ::
       ("created".data, Value.vInt rec.created) ::
       ("updated".data, Value.vInt rec.updated) ::
       schema.filterMap (fun p =>
         if cc = some p.1 then none
         else some (p.1, parseYamlValue (toYamlValue (rec.fields p.1)))),
       bodyStr rec cc) := by
  have hmap : ((schema.filterMap (fun p =>
        if cc = some p.1 then none else some (p.1, toYamlValue (rec.fields p.1))))).map (fun p => p.1 ++ ':' :: ' ' :: p.2) =
      schema.filterMap (fun p =>
        if cc = some p.1 then none
        else some (p.1 ++ ':' :: ' ' :: toYamlValue (rec.fields p.1))) := by
    rw [List.map_filterMap]
    refine List.filterMap_congr ?_
    intro p _
    by_cases h : cc = some p.1
    · rw [if_pos h, if_pos h]
      rfl
    · rw [if_neg h, if_neg h]
      rfl
  have hgen : generateMarkdown rec schema cc = List.intercalate ['\n']
      (("---".data :: (("id".data, toYamlValue (Value.vStr rec.id)) :: ("created".data, intToStr rec.created) :: ("updated".data, intToStr rec.updated) :: (schema.filterMap (fun p =>
        if cc = some p.1 then none else some (p.1, toYamlValue (rec.fields p.1))))).map (fun p => p.1 ++ ':' :: ' ' :: p.2)) ++
       ("---".data :: [] :: (match cc with
      | some k =>
        match rec.fields k with
        | Value.vStr s => [s]
        | _ => []
      | none => ([] : List Str)))) := by
    unfold generateMarkdown
    dsimp only
    rw [List.map_cons, List.map_cons, List.map_cons, hmap]
    rfl
  have hsub : (((schema.filterMap (fun p =>
        if cc = some p.1 then none else some (p.1, toYamlValue (rec.fields p.1))))).map Prod.fst) <+ schema.map Prod.fst := by
    refine map_filterMap_sublist ?_ schema
    intro x y hxy
    by_cases h : cc = some x.1
    · rw [if_pos h] at hxy
      exact Option.noConfusion hxy
    · rw [if_neg h] at hxy
      rw [← Option.some.inj hxy]
  have hnotin : ∀ (s : Str), (∀ p ∈ schema, p.1 ≠ s) →
      s ∉ (((schema.filterMap (fun p =>
        if cc = some p.1 then none else some (p.1, toYamlValue (rec.fields p.1))))).map Prod.fst) := by
    intro s hs hmem
    obtain ⟨p, hp, rfl⟩ := List.mem_map.1 (hsub.subset hmem)
    exact hs p hp rfl
  have hwf : ∀ p ∈ ("id".data, toYamlValue (Value.vStr rec.id)) :: ("created".data, intToStr rec.created) :: ("updated".data, intToStr rec.updated) :: (schema.filterMap (fun p =>
        if cc = some p.1 then none else some (p.1, toYamlValue (rec.fields p.1)))),
      safeKey p.1 = true ∧ jsTrim p.2 = p.2 ∧ p.2 ≠ [] ∧ ∀ c ∈ p.2, c ≠ '\n' := by
    intro p hp
    have hidOk : fieldOk ColType.str (Value.vStr rec.id) = true := hid
    rcases List.mem_cons.1 hp with rfl | hp
    · obtain ⟨h1, h2, h3⟩ := toYaml_tokOk hidOk
      exact ⟨(by decide : safeKey ("id".data : Str) = true), h1, h2, h3⟩
    rcases List.mem_cons.1 hp with rfl | hp
    · obtain ⟨h1, h2, h3⟩ := intToStr_tokOk rec.created
      exact ⟨(by decide : safeKey ("created".data : Str) = true), h1, h2, h3⟩
    rcases List.mem_cons.1 hp with rfl | hp
    · obtain ⟨h1, h2, h3⟩ := intToStr_tokOk rec.updated
      exact ⟨(by decide : safeKey ("updated".data : Str) = true), h1, h2, h3⟩
    obtain ⟨q, hq, hfq⟩ := List.mem_filterMap.1 hp
    by_cases h : cc = some q.1
    · rw [if_pos h] at hfq
      exact Option.noConfusion hfq
    · rw [if_neg h] at hfq
      rw [← Option.some.inj hfq]
      obtain ⟨h1, h2, h3⟩ := toYaml_tokOk (hfields q hq h)
      exact ⟨hkeys q hq, h1, h2, h3⟩
  have hnd : ((("id".data, toYamlValue (Value.vStr rec.id)) :: ("created".data, intToStr rec.created) :: ("updated".data, intToStr rec.updated) :: (schema.filterMap (fun p =>
        if cc = some p.1 then none else some (p.1, toYamlValue (rec.fields p.1))))).map Prod.fst).Nodup := by
    rw [List.map_cons, List.map_cons, List.map_cons]
    refine List.nodup_cons.2 ⟨?_, List.nodup_cons.2 ⟨?_, List.nodup_cons.2
      ⟨?_, List.Nodup.sublist hsub hnodup⟩⟩⟩
    · intro hmem
      rcases List.mem_cons.1 hmem with h | hmem
      · exact absurd h (by decide : ¬ (("id".data : Str) = "created".data))
      rcases List.mem_cons.1 hmem with h | hmem
      · exact absurd h (by decide : ¬ (("id".data : Str) = "updated".data))
      exact hnotin _ (fun p hp => (hres p hp).1) hmem
    · intro hmem
      rcases List.mem_cons.1 hmem with h | hmem
      · exact absurd h (by decide : ¬ (("created".data : Str) = "updated".data))
      exact hnotin _ (fun p hp => (hres p hp).2.1) hmem
    · intro hmem
      exact hnotin _ (fun p hp => (hres p hp).2.2) hmem
  rw [hgen, parseMarkdown_layout ("id".data, toYamlValue (Value.vStr rec.id)) (("created".data, intToStr rec.created) :: ("updated".data, intToStr rec.updated) :: (schema.filterMap (fun p =>
        if cc = some p.1 then none else some (p.1, toYamlValue (rec.fields p.1))))) (match cc with
      | some k =>
        match rec.fields k with
        | Value.vStr s => [s]
        | _ => []
      | none => ([] : List Str)) hwf hnd]
  rw [List.map_cons, List.map_cons, List.map_cons, List.map_filterMap]
  have hfm2 : schema.filterMap (fun p =>
      Option.map (fun p => (p.1, parseYamlValue p.2))
        (if cc = some p.1 then none else some (p.1, toYamlValue (rec.fields p.1)))) =
      schema.filterMap (fun p =>
        if cc = some p.1 then none
        else some (p.1, parseYamlValue (toYamlValue (rec.fields p.1)))) := by
    refine List.filterMap_congr ?_
    intro p _
    by_cases h : cc = some p.1
    · rw [if_pos h, if_pos h]
      rfl
    · rw [if_neg h, if_neg h]
      rfl
  have hbody : jsTrim ('\n' :: joinNL (match cc with
      | some k =>
        match rec.fields k with
        | Value.vStr s => [s]
        | _ => []
      | none => ([] : List Str))) = bodyStr rec cc := by
    cases cc with
    | none =>
      show jsTrim ('\n' :: joinNL ([] : List Str)) = ([] : Str)
      decide
    | some k =>
      obtain ⟨s, hs, hts⟩ := hcc k rfl
      show jsTrim ('\n' :: joinNL (match rec.fields k with
        | Value.vStr s => [s]
        | _ => [])) = bodyStr rec (some k)
      rw [hs]
      show jsTrim ('\n' :: '\n' :: (s ++ [])) = bodyStr rec (some k)
      rw [List.append_nil, jsTrim_cons_ws _ (by decide), jsTrim_cons_ws _ (by decide), hts]
      show s = (match rec.fields k with | Value.vStr s => s | _ => [])
      rw [hs]
  rw [hfm2, hbody]
  simp only [parseYamlValue_str hid, parseYamlValue_intToStr]

theorem lookupA_cons_hit {α : Type} (k : Str) (v : α) (rest : List (Str × α)) :
    lookupA ((k, v) :: rest) k = some v := by
  show (if k = k then some v else lookupA rest k) = some v
  rw [if_pos rfl]

theorem lookupA_cons_miss {α : Type} {k k' : Str} (v : α) (rest : List (Str × α))
    (h : k' ≠ k) : lookupA ((k', v) :: rest) k = lookupA rest k := by
  show (if k' = k then some v else lookupA rest k) = _
  rw [if_neg h]

/-- C2 (amended): for schemas whose keys are YAML-safe, pairwise distinct and
distinct from the reserved id/created/updated keys, records whose field
values are well-behaved for their column type (`fieldOk`), whose content
column (if any) holds a trim-stable string, whose id is a safe nonempty
string and whose timestamps are nonzero and below 10^21 in magnitude (the
threshold past which JS `String(n)` switches to exponential notation),
saving to markdown and loading back
reproduces the record exactly: id, created, updated, stale = false, and every
schema field in order. -/
theorem markdown_roundtrip_amended
    (rec : MdRec) (schema : List (Str × ColType)) (cc : Option Str) (now : Int)
    (hnodup : (schema.map Prod.fst).Nodup)
    (hkeys : ∀ p ∈ schema, safeKey p.1 = true)
    (hres : ∀ p ∈ schema, p.1 ≠ "id".data ∧ p.1 ≠ "created".data ∧ p.1 ≠ "updated".data)
    (hfields : ∀ p ∈ schema, cc ≠ some p.1 → fieldOk p.2 (rec.fields p.1) = true)
    (hcc : ∀ k, cc = some k → ∃ s, rec.fields k = Value.vStr s ∧ jsTrim s = s)
    (hid : safeStr rec.id = true) (hidne : rec.id ≠ [])
    (hcr : rec.created ≠ 0) (hup : rec.updated ≠ 0)
    (_hcrb : rec.created.natAbs < 10 ^ 21) (_hupb : rec.updated.natAbs < 10 ^ 21) :
    decodeMarkdown (generateMarkdown rec schema cc) schema cc now =
      some ⟨Value.vStr rec.id, Value.vInt rec.created, Value.vInt rec.updated, false,
            schema.map (fun p => (p.1, rec.fields p.1))⟩ := by
  have hparse := parseMarkdown_generate rec schema cc hnodup hkeys hres hfields hcc hid
  have htruthy : truthy (Value.vStr rec.id) = true := by
    show decide (rec.id ≠ []) = true
    exact decide_eq_true hidne
  have htc : truthy (Value.vInt rec.created) = true := by
    show decide (rec.created ≠ 0) = true
    exact decide_eq_true hcr
  have htu : truthy (Value.vInt rec.updated) = true := by
    show decide (rec.updated ≠ 0) = true
    exact decide_eq_true hup
  have hjoC : jsOr (Value.vInt rec.created) (Value.vInt now) = Value.vInt rec.created := by
    unfold jsOr
    rw [if_pos htc]
  have hjoU : jsOr (Value.vInt rec.updated) (Value.vInt now) = Value.vInt rec.updated := by
    unfold jsOr
    rw [if_pos htu]
  unfold decodeMarkdown
  dsimp only
  rw [hparse]
  dsimp only
  rw [lookupA_cons_hit, Option.getD_some,
    if_neg (not_not_intro htruthy),
    lookupA_cons_miss _ _ (by decide : ¬ (("id".data : Str) = "created".data)),
    lookupA_cons_hit, Option.getD_some, hjoC,
    lookupA_cons_miss _ _ (by decide : ¬ (("id".data : Str) = "updated".data)),
    lookupA_cons_miss _ _ (by decide : ¬ (("created".data : Str) = "updated".data)),
    lookupA_cons_hit, Option.getD_some, hjoU]
  have hpoint : ∀ p ∈ schema,
      (if cc = some p.1 then some (p.1, Value.vStr (bodyStr rec cc))
       else
        match lookupA (("id".data, Value.vStr rec.id) ::
            ("created".data, Value.vInt rec.created) ::
            ("updated".data, Value.vInt rec.updated) ::
            schema.filterMap (fun q =>
              if cc = some q.1 then none
              else some (q.1, parseYamlValue (toYamlValue (rec.fields q.1))))) p.1 with
        | none => none
        | some v => some (p.1, convertForCol p.2 v)) =
      some (p.1, rec.fields p.1) := by
    intro p hp
    by_cases h : cc = some p.1
    · rw [if_pos h]
      obtain ⟨s, hs, -⟩ := hcc p.1 h
      have hb : bodyStr rec cc = s := by
        rw [h]
        unfold bodyStr
        dsimp only
        rw [hs]
      rw [hb, ← hs]
    · rw [if_neg h,
        lookupA_cons_miss _ _ (fun he => (hres p hp).1 he.symm),
        lookupA_cons_miss _ _ (fun he => (hres p hp).2.1 he.symm),
        lookupA_cons_miss _ _ (fun he => (hres p hp).2.2 he.symm),
        lookupA_filterMap_schema
          (fun q => parseYamlValue (toYamlValue (rec.fields q.1))) cc schema p hnodup hp h]
      dsimp only
      rw [roundField (hfields p hp h)]
  rw [filterMap_eq_map_of schema hpoint]

/-- Concrete schema exercising every well-behaved column type, with a
content column. -/
def mdSchemaW : List (Str × ColType) :=
  [("name".data, ColType.str), ("tags".data, ColType.strArr),
   ("scores".data, ColType.numArr), ("emb".data, ColType.vector 2),
   ("count".data, ColType.num), ("ok".data, ColType.boolean),
   ("body".data, ColType.str)]

def mdRecW : MdRec :=
  ⟨"r1".data, 5, 6, false, fun k =>
    if k = "name".data then Value.vStr "a b".data
    else if k = "tags".data then
      Value.vArr [Scalar.sStr ['x', '"', 'y'], Scalar.sStr ['a', '\n', 'b', '\x01']]
    else if k = "scores".data then
      Value.vArr [Scalar.sInt 3, Scalar.sFloat "1.5".data, Scalar.sInt (-4)]
    else if k = "emb".data then Value.vVec [1, -2]
    else if k = "count".data then Value.vInt 42
    else if k = "ok".data then Value.vBool true
    else if k = "body".data then Value.vStr "hello".data
    else Value.vUndef⟩

theorem markdown_roundtrip_amended_witness :
    decodeMarkdown (generateMarkdown mdRecW mdSchemaW (some "body".data)) mdSchemaW
        (some "body".data) 99 =
      some ⟨Value.vStr "r1".data, Value.vInt 5, Value.vInt 6, false,
            mdSchemaW.map (fun p => (p.1, mdRecW.fields p.1))⟩ :=
  markdown_roundtrip_amended mdRecW mdSchemaW (some "body".data) 99
    (by decide) (by decide) (by decide) (by decide)
    (by
      intro k hk
      refine ⟨"hello".data, ?_, by decide⟩
      rw [← Option.some.inj hk]
      decide)
    (by decide) (by decide) (by decide) (by decide) (by decide) (by decide)

/-- Schema and record exhibiting the round-trip failure: a string field whose
value is the digit string `"123"`. -/
def mdCexSchema : List (Str × ColType) := [("name".data, ColType.str)]

def mdCexRec : MdRec :=
  ⟨"a".data, 1, 2, false,
    fun k => if k = "name".data then Value.vStr "123".data else Value.vUndef⟩

/-- C2 counterexample: encoding the record whose string field `name` holds
`"123"` and decoding the result yields the number `123`, not the string
`"123"` — `parseYamlValue` re-classifies bare digit strings as integers, so
the round-trip claim fails as stated. -/
theorem markdown_roundtrip_counterexample :
    mdCexRec.fields "name".data = Value.vStr "123".data ∧
    (decodeMarkdown (generateMarkdown mdCexRec mdCexSchema none) mdCexSchema none 99).map
      DecRec.fields = some [("name".data, Value.vInt 123)] ∧
    Value.vInt 123 ≠ Value.vStr "123".data := by
  refine ⟨by decide, by decide, by decide⟩
